import Mathlib

/-!
# Content Shield: the content script's scanning and filtering engine

A shallow embedding of `src/content.js` (class `ContentFilter`) and theorems about it.

* JavaScript strings are Lean strings; `String.prototype.includes` is defined on the
  character lists.
* The document is an ordered forest of nodes in first-child / next-sibling form.  Every
  node carries a handle `nid`; the functions of the program receive and return handles,
  as the JavaScript code receives and returns object references.
* Two functions of the browser are not part of the program and are parameters of the
  model (class `Browser`): `String.prototype.toLowerCase` and the HTML parser behind the
  `innerHTML` setter.  The general theorems hold for every browser.  The evaluated examples
  use `asciiBrowser` and contain markup-free ASCII strings only, on which the laws of the
  class fix both functions: on such documents and rules the engine gives the same result
  in every browser (`scanAndFilter_agree` and the lemmas around it).
* A thrown DOM exception is an `Except.error` carrying the state reached at the throw.
-/

namespace ContentShield

/-! ## Strings -/

/-- Character-list form of `includes`: `term` occurs in `text` at some position. -/
def includesChars : List Char → List Char → Bool
  | [], term => term.isEmpty
  | c :: cs, term => term.isPrefixOf (c :: cs) || includesChars cs term

/-- `text.includes(term)`: substring containment. -/
def includes (text term : String) : Bool := includesChars text.data term.data

/-- The string holds no character that the HTML parser treats in a special way in element
content: no `<` (markup), no `&` (character reference), no carriage return and no NUL. -/
def plainText (s : String) : Bool :=
  s.data.all (fun c => c != '<' && c != '&' && c != '\r' && c != '\x00')

/-- The string holds ASCII characters only. -/
def isAscii (s : String) : Bool := s.data.all (fun c => decide (c.toNat < 128))

/-! ## Rules and settings (the objects kept in `chrome.storage.local`) -/

/-- A keyword rule, as written by `saveKeyword` / `saveQuickFilter`. -/
structure Rule where
  id : Nat
  keyword : String
  category : String
  action : String
  enabled : Bool
  createdAt : Nat
deriving DecidableEq, Repr

/-- The settings object (`enabled` is written by the popup's master toggle,
`enabledSites` by the options page). -/
structure Settings where
  enabled : Bool
  enabledSites : List String
  defaultAction : String
  sensitivity : String
  showStats : Bool
  enableNotifications : Bool
deriving DecidableEq, Repr

/-! ## The document tree -/

/-- A node of the document: an element, or a text node (`tag = "#text"`, character data
in `text`).  `offsetHeight` / `offsetWidth` are the rendered box of an element. -/
structure Elem where
  nid : Nat
  tag : String
  classes : List String
  attrs : List (String × String)
  text : String
  offsetHeight : Nat
  offsetWidth : Nat
deriving DecidableEq, Repr

/-- An ordered forest: `node e children siblings`.  The top-level nodes are the children
of the `document` object. -/
inductive Dom where
  | nil : Dom
  | node (e : Elem) (children siblings : Dom) : Dom
deriving DecidableEq, Repr

/-- `getAttribute(name)`. -/
def Elem.getAttribute (e : Elem) (name : String) : Option String :=
  (e.attrs.find? (fun a => a.1 == name)).map (fun a => a.2)

/-- `setAttribute(name, value)`. -/
def setAttr (name value : String) : List (String × String) → List (String × String)
  | [] => [(name, value)]
  | a :: rest => if a.1 == name then (name, value) :: rest else a :: setAttr name value rest

/-- `classList.add(c)`. -/
def classListAdd (c : String) (classes : List String) : List String :=
  if c ∈ classes then classes else classes ++ [c]

/-- `classList.remove(c)`. -/
def classListRemove (c : String) (classes : List String) : List String :=
  classes.filter (fun x => x != c)

namespace Dom

/-- All nodes in document order. -/
def nodes : Dom → List Elem
  | nil => []
  | node e c s => e :: (nodes c ++ nodes s)

/-- `textContent` of a forest: the character data of its text nodes in document order. -/
def textContent : Dom → String
  | nil => ""
  | node e c s => (if e.tag = "#text" then e.text else "") ++ (textContent c ++ textContent s)

/-- Locate the node with handle `i` below the ancestors `anc` (nearest first): the chain
`self :: ancestors` and the forest of its children. -/
def locate (anc : List Elem) : Dom → Nat → Option (List Elem × Dom)
  | nil, _ => none
  | node e c s, i =>
    if e.nid = i then some (e :: anc, c)
    else match locate (e :: anc) c i with
      | some r => some r
      | none => locate anc s i

/-- Apply `g` to the node with handle `i`. -/
def modify (i : Nat) (g : Elem → Elem) : Dom → Dom
  | nil => nil
  | node e c s => node (if e.nid = i then g e else e) (modify i g c) (modify i g s)

/-- Put the new node `w` in the place of the node with handle `i` and make that node the
only child of `w`: `parent.insertBefore(w, node); w.appendChild(node)`. -/
def wrap (i : Nat) (w : Elem) : Dom → Dom
  | nil => nil
  | node e c s =>
    if e.nid = i then node w (node e (wrap i w c) nil) (wrap i w s)
    else node e (wrap i w c) (wrap i w s)

/-- Insert the new node `b` (with children `bkids`) as first child of the node with
handle `i`: `node.insertBefore(b, node.firstChild)`. -/
def prepend (i : Nat) (b : Elem) (bkids : Dom) : Dom → Dom
  | nil => nil
  | node e c s =>
    if e.nid = i then node e (node b bkids (prepend i b bkids c)) (prepend i b bkids s)
    else node e (prepend i b bkids c) (prepend i b bkids s)

end Dom

/-- A text node. -/
def textNode (nid : Nat) (data : String) : Dom :=
  .node ⟨nid, "#text", [], [], data, 0, 0⟩ .nil .nil

/-! ## The browser -/

/-- The two functions of the browser that the program calls and that are not modelled
further, with what is used of them. -/
class Browser where
  /-- `String.prototype.toLowerCase`. -/
  toLowerCase : String → String
  /-- On a string of ASCII characters `toLowerCase` folds the letters `A`..`Z` and keeps
  every other character. -/
  toLowerCase_ascii : ∀ s : String, isAscii s = true →
    toLowerCase s = ⟨s.data.map Char.toLower⟩
  /-- The HTML fragment parser behind `element.innerHTML = html`: the forest of nodes made
  from `html`, the new nodes taking their handles from `next` on, and the supply of fresh
  handles that is left. -/
  parseFragment : String → Nat → Dom × Nat
  /-- A non-empty string without markup is parsed into one text node holding it. -/
  parseFragment_plain : ∀ (html : String) (next : Nat), plainText html = true → html ≠ "" →
    parseFragment html next = (textNode next html, next + 1)
  /-- The parsed nodes take fresh handles. -/
  parseFragment_fresh : ∀ (html : String) (next : Nat),
    next ≤ (parseFragment html next).2 ∧
      ∀ x ∈ (parseFragment html next).1.nodes,
        next ≤ x.nid ∧ x.nid < (parseFragment html next).2
  /-- The parsed nodes take pairwise distinct handles. -/
  parseFragment_nodup : ∀ (html : String) (next : Nat),
    ((parseFragment html next).1.nodes.map (fun e => e.nid)).Nodup

export Browser (toLowerCase parseFragment)

/-! ## Keyword matcher -/

/-- `findMatchingKeyword(text, keywords)`: the `for ... of` loop returns the first rule
whose lower-cased keyword is included in `text`, and `null` (here `none`) after the loop. -/
def findMatchingKeyword [Browser] (text : String) : List Rule → Option Rule
  | [] => none
  | keyword :: rest =>
    if includes text (toLowerCase keyword.keyword) then some keyword
    else findMatchingKeyword text rest

/-! ## Selectors -/

/-- The test of an attribute selector: `[a]`, `[a="v"]`, `[a*="v"]`. -/
inductive AttrTest where
  | has (name : String)
  | eq (name value : String)
  | contains (name value : String)
deriving DecidableEq, Repr

/-- A compound selector: optional type, optional `#id`, classes, attribute tests. -/
structure Compound where
  tag : Option String
  ident : Option String
  classes : List String
  attrs : List AttrTest
deriving DecidableEq, Repr

/-- A selector list: comma-separated alternatives, each a chain of compound selectors
joined by the descendant combinator (outermost first). -/
abbrev Selector := List (List Compound)

/-- One attribute test on an element. -/
def AttrTest.holds (e : Elem) : AttrTest → Bool
  | .has n => (e.getAttribute n).isSome
  | .eq n v => e.getAttribute n == some v
  | .contains n v =>
    match e.getAttribute n with
    | some x => v != "" && includes x v
    | none => false

/-- An element matches a compound selector. -/
def Compound.holds (c : Compound) (e : Elem) : Bool :=
  e.tag != "#text" &&
  (match c.tag with | some t => e.tag == t | none => true) &&
  (match c.ident with | some i => e.getAttribute "id" == some i | none => true) &&
  c.classes.all (fun k => k ∈ e.classes) &&
  c.attrs.all (fun t => t.holds e)

/-- The remaining compounds (innermost first) are matched by ancestors, in order. -/
def matchAncestors : List Compound → List Elem → Bool
  | [], _ => true
  | _ :: _, [] => false
  | c :: cs, a :: up => (c.holds a && matchAncestors cs up) || matchAncestors (c :: cs) up

/-- The element at the head of `chain` (followed by its ancestors, nearest first) matches
one descendant chain of compounds. -/
def matchesComplex (cs : List Compound) (chain : List Elem) : Bool :=
  match cs.reverse, chain with
  | c :: outer, e :: up => c.holds e && matchAncestors outer up
  | _, _ => false

/-- `element.matches(selector)`, the element given with its ancestors. -/
def matchesSel (sel : Selector) (chain : List Elem) : Bool :=
  sel.any (fun cs => matchesComplex cs chain)

/-- `querySelectorAll(selector)` over a forest lying below the ancestors `anc`: the
matching elements in document order. -/
def queryAll (sel : Selector) (anc : List Elem) : Dom → List Elem
  | .nil => []
  | .node e c s =>
    (if matchesSel sel (e :: anc) then [e] else []) ++
      (queryAll sel (e :: anc) c ++ queryAll sel anc s)

/-- `element.closest(selector)`: the nearest ancestor-or-self that matches. -/
def closest (sel : Selector) : List Elem → Option Elem
  | [] => none
  | e :: up => if matchesSel sel (e :: up) then some e else closest sel up

/-- A type selector `t`. -/
def selTag (t : String) : Selector := [[⟨some t, none, [], []⟩]]
/-- A class selector `.c`. -/
def selClass (c : String) : Selector := [[⟨none, none, [c], []⟩]]
/-- An id selector `#i`. -/
def selId (i : String) : Selector := [[⟨none, some i, [], []⟩]]
/-- A selector `t.c`. -/
def selTagClass (t c : String) : Selector := [[⟨some t, none, [c], []⟩]]
/-- A selector `[a="v"]`. -/
def selAttr (a v : String) : Selector := [[⟨none, none, [], [.eq a v]⟩]]
/-- A selector `t[a="v"]`. -/
def selTagAttr (t a v : String) : Selector := [[⟨some t, none, [], [.eq a v]⟩]]

/-! ## Platform profile resolver -/

/-- The `commonSelectors` array of `getPlatformSelectors`. -/
def commonSelectors : List Selector :=
  [selTag "h1", selTag "h2", selTag "h3", selTag "h4", selTag "h5", selTag "h6",
   selTag "p", selTag "span", selTagAttr "div" "role" "article", selTag "article",
   [[⟨none, none, [], [.contains "data-testid" "tweet"]⟩]]]

/-- `getPlatformSelectors()`, with `window.location.hostname` as argument. -/
def getPlatformSelectors (hostname : String) : List Selector :=
  if includes hostname "youtube.com" then
    commonSelectors ++
      [selId "video-title", selClass "ytd-video-meta-block", selClass "ytd-rich-grid-media",
       selClass "ytd-compact-video-renderer", selId "description", selId "comments",
       selTag "ytd-comment-renderer"]
  else if includes hostname "reddit.com" then
    commonSelectors ++
      [selAttr "data-testid" "post-container", selClass "Post",
       selTagClass "h3" "_eYtD2XCVieq6emjKBH3m", selTagAttr "div" "data-click-id" "text",
       selTagAttr "div" "data-testid" "comment", selTagAttr "div" "data-test-id" "comment",
       selTagAttr "a" "data-click-id" "comments", selTagAttr "a" "data-click-id" "body"]
  else if includes hostname "twitter.com" || includes hostname "x.com" then
    commonSelectors ++
      [selAttr "data-testid" "tweet", selAttr "data-testid" "tweetText", selClass "tweet-text",
       selTagAttr "div" "data-testid" "User-Names", selTagAttr "div" "data-testid" "conversation"]
  else if includes hostname "google.com" then
    commonSelectors ++
      [[[⟨none, none, ["g"], []⟩, ⟨some "h3", none, [], []⟩]], selClass "LC20lb",
       selClass "VwiC3b", [[⟨none, none, ["g"], []⟩, ⟨some "a", none, [], []⟩]],
       selTagClass "span" "xQ8gFc"]
  else if includes hostname "facebook.com" then
    commonSelectors ++
      [[[⟨none, none, [], [.eq "role" "feed"]⟩, ⟨none, none, [], [.eq "role" "article"]⟩]],
       selAttr "data-testid" "story-instance", selTagAttr "div" "data-ad-preview" "message"]
  else if includes hostname "instagram.com" then
    commonSelectors ++
      [selTagAttr "article" "role" "presentation", selTagClass "div" "_a9zm",
       selTagClass "div" "_a9zs"]
  else commonSelectors

/-! ## Text extractor -/

/-- The `alt` property: defined on `img`, `area` and `input` elements only. -/
def Elem.alt (e : Elem) : String :=
  if e.tag = "img" ∨ e.tag = "area" ∨ e.tag = "input" then (e.getAttribute "alt").getD "" else ""

/-- `getElementText(element)`: `children` is the forest below the element, whose text
nodes make up `element.textContent`. -/
def getElementText [Browser] (element : Elem) (children : Dom) : String :=
  toLowerCase (" ".intercalate
    ([children.textContent, (element.getAttribute "title").getD "", element.alt,
      (element.getAttribute "aria-label").getD ""].filter (fun s => s != "")))

/-! ## Container resolver -/

/-- The `selectors` array of `findFilterContainer`. -/
def containerSelectors : List Selector :=
  [selAttr "data-testid" "tweet", selClass "Post", selTag "article", selClass "g",
   selClass "ytd-rich-grid-media", selClass "ytd-compact-video-renderer"]

/-- The `for (const selector of selectors)` loop: the first selector for which
`element.closest(selector)` is not null decides. -/
def firstClosest : List Selector → List Elem → Option Elem
  | [], _ => none
  | selector :: rest, chain =>
    match closest selector chain with
    | some container => some container
    | none => firstClosest rest chain

/-- The `while (parent && depth < 5)` loop, from `parent` (the head of the list of
proper ancestors) and `depth`. -/
def fallbackParent : List Elem → Nat → Option Elem
  | [], _ => none
  | parent :: up, depth =>
    if depth < 5 then
      if parent.offsetHeight > 50 || parent.offsetWidth > 100 then some parent
      else fallbackParent up (depth + 1)
    else none

/-- `findFilterContainer(element)`; `parents` are the proper ancestors, nearest first. -/
def findFilterContainer (element : Elem) (parents : List Elem) : Elem :=
  match firstClosest containerSelectors (element :: parents) with
  | some container => container
  | none =>
    match fallbackParent parents 0 with
    | some parent => parent
    | none => element

/-! ## Annotation / filter applier -/

/-- The document together with the supply of fresh node handles (`createElement`). -/
structure Page where
  dom : Dom
  next : Nat
deriving DecidableEq, Repr

/-- The `div` made by `applyFilter`.  Its rendered box is not decided by the program;
the model gives it the box of the container it encloses. -/
def wrapperElem (nid : Nat) (container : Elem) : Elem :=
  ⟨nid, "div", ["content-guardian-wrapper"], [], "", container.offsetHeight, container.offsetWidth⟩

/-- The `button` made by `addUnblurButton` (box not decided by the program: empty). -/
def unblurElem (nid : Nat) : Elem :=
  ⟨nid, "button", ["content-guardian-unblur"], [], "", 0, 0⟩

/-- The `div` made by `addFlagIndicator` (box not decided by the program: empty). -/
def flagElem (nid : Nat) : Elem :=
  ⟨nid, "div", ["content-guardian-flag"], [], "", 0, 0⟩

/-- The button template with the keyword in it, as assigned to `innerHTML`.  The `svg`
element of the template, which holds white space only and is matched by no selector of the
program, is kept as its white space. -/
def unblurLabel (keyword : Rule) : String :=
  "\n      \n        \n        \n      \n      Show content (filtered: " ++ keyword.keyword
    ++ ")\n    "

/-- The flag template with the keyword in it, as assigned to `innerHTML` (the `svg`
element kept as its white space). -/
def flagLabel (keyword : Rule) : String :=
  "\n      \n        \n        \n      \n      Filtered: " ++ keyword.keyword ++ "\n    "

/-- `addUnblurButton(wrapper, keyword)`: the content of the button is what the HTML parser
makes of the template with the keyword in it. -/
def addUnblurButton [Browser] (p : Page) (wrapper : Nat) (keyword : Rule) : Page :=
  match p.dom.locate [] wrapper with
  | none => p
  | some (chain, children) =>
    if (queryAll (selClass "content-guardian-unblur") chain children).isEmpty then
      ⟨Dom.prepend wrapper (unblurElem p.next)
          (parseFragment (unblurLabel keyword) (p.next + 1)).1 p.dom,
        (parseFragment (unblurLabel keyword) (p.next + 1)).2⟩
    else p

/-- `addFlagIndicator(wrapper, keyword)`: the content of the indicator is what the HTML
parser makes of the template with the keyword in it. -/
def addFlagIndicator [Browser] (p : Page) (wrapper : Nat) (keyword : Rule) : Page :=
  match p.dom.locate [] wrapper with
  | none => p
  | some (chain, children) =>
    if (queryAll (selClass "content-guardian-flag") chain children).isEmpty then
      ⟨Dom.prepend wrapper (flagElem p.next)
          (parseFragment (flagLabel keyword) (p.next + 1)).1 p.dom,
        (parseFragment (flagLabel keyword) (p.next + 1)).2⟩
    else p

/-- The `switch (keyword.action)` of `applyFilter`. -/
def applyAction [Browser] (p : Page) (container wrapper : Nat) (keyword : Rule) : Page :=
  if keyword.action = "hide" then
    ⟨p.dom.modify container
      (fun e => { e with classes := classListAdd "content-guardian-hidden" e.classes }), p.next⟩
  else if keyword.action = "blur" then
    addUnblurButton
      ⟨p.dom.modify container
        (fun e => { e with classes := classListAdd "content-guardian-blurred" e.classes }),
        p.next⟩ wrapper keyword
  else if keyword.action = "flag" then
    addFlagIndicator
      ⟨p.dom.modify container
        (fun e => { e with classes := classListAdd "content-guardian-flagged" e.classes }),
        p.next⟩ wrapper keyword
  else p

/-- The wrapper that `applyFilter` uses for `container`: the first descendant of the
container with class `content-guardian-wrapper` if there is one; otherwise a new `div`
put in the container's place, with the container as its child.  `none` is the
`HierarchyRequestError` of `insertBefore` when the container's parent is the document. -/
def ensureWrapper (p : Page) (container : Elem) : Option (Page × Nat) :=
  match p.dom.locate [] container.nid with
  | none => none
  | some (chain, children) =>
    match queryAll (selClass "content-guardian-wrapper") chain children with
    | wrapper :: _ => some (p, wrapper.nid)
    | [] =>
      if chain.length ≤ 1 then none
      else some (⟨p.dom.wrap container.nid (wrapperElem p.next container), p.next + 1⟩, p.next)

/-- `applyFilter(element, keyword)`; `none` when it throws. -/
def applyFilter [Browser] (p : Page) (element : Nat) (keyword : Rule) : Option Page :=
  match p.dom.locate [] element with
  | some (e :: parents, _) =>
    match ensureWrapper p (findFilterContainer e parents) with
    | some (q, wrapper) => some (applyAction q (findFilterContainer e parents).nid wrapper keyword)
    | none => none
  | _ => none

/-! ## Engine controller: the scan pass -/

/-- The state of a `ContentFilter` object with its document. -/
structure ContentFilter where
  keywords : List Rule
  settings : Settings
  filteredCount : Nat
  hostname : String
  page : Page
deriving DecidableEq, Repr

/-- `element.dataset.contentGuardianProcessed` is truthy. -/
def Elem.processed (e : Elem) : Bool :=
  match e.getAttribute "data-content-guardian-processed" with
  | some v => v != ""
  | none => false

/-- `element.dataset.contentGuardianProcessed = "true"`. -/
def markProcessed (e : Elem) : Elem :=
  { e with attrs := setAttr "data-content-guardian-processed" "true" e.attrs }

/-- The body of `elements.forEach` for one element of the node list. -/
def scanElement [Browser] (enabledKeywords : List Rule) (st : ContentFilter) (element : Nat) :
    Except ContentFilter ContentFilter :=
  match st.page.dom.locate [] element with
  | some (e :: _, children) =>
    if e.processed then .ok st
    else
      match findMatchingKeyword (getElementText e children) enabledKeywords with
      | none => .ok st
      | some matchedKeyword =>
        match applyFilter st.page element matchedKeyword with
        | none => .error st
        | some q =>
          .ok { st with page := ⟨q.dom.modify element markProcessed, q.next⟩,
                        filteredCount := st.filteredCount + 1 }
  | _ => .ok st

/-- `elements.forEach(...)` over the (static) node list of one selector. -/
def scanElements [Browser] (enabledKeywords : List Rule) :
    List Nat → ContentFilter → Except ContentFilter ContentFilter
  | [], st => .ok st
  | element :: rest, st =>
    match scanElement enabledKeywords st element with
    | .ok st1 => scanElements enabledKeywords rest st1
    | .error st1 => .error st1

/-- `selectors.forEach(...)`: each selector is queried on the document as it is then. -/
def scanSelectors [Browser] (enabledKeywords : List Rule) :
    List Selector → ContentFilter → Except ContentFilter ContentFilter
  | [], st => .ok st
  | selector :: rest, st =>
    match scanElements enabledKeywords
        ((queryAll selector [] st.page.dom).map (fun e => e.nid)) st with
    | .ok st1 => scanSelectors enabledKeywords rest st1
    | .error st1 => .error st1

/-- `scanAndFilter()`. -/
def scanAndFilter [Browser] (st : ContentFilter) : Except ContentFilter ContentFilter :=
  if (st.keywords.filter (fun k => k.enabled)).length = 0 then .ok st
  else scanSelectors (st.keywords.filter (fun k => k.enabled))
    (getPlatformSelectors st.hostname) st

/-! ## Observations on a document -/

/-- The node with handle `i`, if the document has one. -/
def Dom.get? (d : Dom) (i : Nat) : Option Elem :=
  d.nodes.find? (fun e => e.nid == i)

/-- The class list of the node with handle `i` (empty when there is none). -/
def Dom.classesOf (d : Dom) (i : Nat) : List String :=
  match d.get? i with
  | some e => e.classes
  | none => []

/-- The handle of the parent element of node `i`. -/
def Dom.parentOf (d : Dom) (i : Nat) : Option Nat :=
  match d.locate [] i with
  | some (_ :: parent :: _, _) => some parent.nid
  | _ => none

/-- The top-level nodes of a forest. -/
def Dom.roots : Dom → List Elem
  | .nil => []
  | .node e _ s => e :: roots s

/-- The child nodes of node `i`, in order. -/
def Dom.childrenOf (d : Dom) (i : Nat) : List Elem :=
  match d.locate [] i with
  | some (_, children) => children.roots
  | none => []

/-- The descendants of node `i`, in document order. -/
def Dom.descendantsOf (d : Dom) (i : Nat) : List Elem :=
  match d.locate [] i with
  | some (_, children) => children.nodes
  | none => []

/-- The proper ancestors of node `i`, nearest first. -/
def Dom.ancestorsOf (d : Dom) (i : Nat) : List Elem :=
  match d.locate [] i with
  | some (_ :: up, _) => up
  | _ => []

/-- The presentation classes. -/
def presentationClasses : List String :=
  ["content-guardian-hidden", "content-guardian-blurred", "content-guardian-flagged"]

/-- The presentation classes that an element carries. -/
def Elem.presentation (e : Elem) : List String :=
  presentationClasses.filter (fun c => c ∈ e.classes)

/-- An element of class `content-guardian-unblur`: an unblur button. -/
def Elem.isUnblur (e : Elem) : Bool :=
  e.tag != "#text" && decide ("content-guardian-unblur" ∈ e.classes)

/-- An element of class `content-guardian-flag`: a flag indicator. -/
def Elem.isFlag (e : Elem) : Bool :=
  e.tag != "#text" && decide ("content-guardian-flag" ∈ e.classes)

/-- An element is a control: an unblur button or a flag indicator. -/
def Elem.isControl (e : Elem) : Bool := e.isUnblur || e.isFlag

/-- An element is a wrapper. -/
def Elem.isWrapper (e : Elem) : Bool := decide ("content-guardian-wrapper" ∈ e.classes)

/-- The state in which a scan pass ended. -/
def endState : Except ContentFilter ContentFilter → ContentFilter
  | .ok st => st
  | .error st => st

/-- The scan pass ended by an exception. -/
def threw : Except ContentFilter ContentFilter → Bool
  | .ok _ => false
  | .error _ => true

/-- The states reachable from `init` by scan passes (a pass ended by a throw included). -/
inductive Reachable [Browser] (init : ContentFilter) : ContentFilter → Prop
  | start : Reachable init init
  | scan (st : ContentFilter) : Reachable init st → Reachable init (endState (scanAndFilter st))

/-- The presentation class `c` is the one of the action `action`. -/
def ClassOfAction (action c : String) : Prop :=
  (action = "hide" ∧ c = "content-guardian-hidden") ∨
  (action = "blur" ∧ c = "content-guardian-blurred") ∨
  (action = "flag" ∧ c = "content-guardian-flagged")

/-- Every presentation class that the element carries is the one of `action`. -/
def OnlyClassOf (action : String) (e : Elem) : Prop :=
  ∀ c ∈ e.classes, c ∈ presentationClasses → ClassOfAction action c

/-- The handles of the controls of a document, in document order. -/
def Dom.controlIds (d : Dom) : List Nat := (d.nodes.filter Elem.isControl).map (fun e => e.nid)

/-- Every handle in use is below the supply of fresh handles. -/
def Page.Fresh (p : Page) : Prop := ∀ x ∈ p.dom.nodes, x.nid < p.next

/-- The step from `p` to `q` keeps every node of `p` as it is, and gives the new nodes
fresh handles. -/
def Page.Extends (p q : Page) : Prop :=
  q.Fresh ∧ p.next ≤ q.next ∧ ∀ j, j < p.next → q.dom.get? j = p.dom.get? j

/-- The page after `container.classList.add(cls)`. -/
def Page.addClass (p : Page) (cid : Nat) (cls : String) : Page :=
  ⟨p.dom.modify cid (fun e => { e with classes := classListAdd cls e.classes }), p.next⟩

/-- The common shape of `addUnblurButton` and `addFlagIndicator`: unless an element of
class `cls` is below the wrapper, insert the control `mk n` with the parsed `html` as its
content. -/
def addControl [Browser] (cls : String) (mk : Nat → Elem) (html : String) (p : Page)
    (w : Nat) : Page :=
  match p.dom.locate [] w with
  | none => p
  | some (chain, children) =>
    if (queryAll (selClass cls) chain children).isEmpty then
      ⟨Dom.prepend w (mk p.next) (parseFragment html (p.next + 1)).1 p.dom,
        (parseFragment html (p.next + 1)).2⟩
    else p

/-- A scan pass has nothing to do for the node with handle `i`: the node bears the
processed mark, or its text matches none of the rules. -/
def settled [Browser] (keywords : List Rule) (d : Dom) (i : Nat) : Bool :=
  match d.locate [] i with
  | some (e :: _, children) =>
    e.processed || (findMatchingKeyword (getElementText e children) keywords).isNone
  | _ => true

/-- No node of the forest that lies outside the controls has two unblur buttons, or two
flag indicators, among its children (what the parser puts inside a control is not
looked at). -/
def Dom.ControlsOnce : Dom → Prop
  | .nil => True
  | .node e c s =>
    (e.isControl = true ∨
      ((c.roots.countP Elem.isUnblur ≤ 1 ∧ c.roots.countP Elem.isFlag ≤ 1) ∧ ControlsOnce c)) ∧
      ControlsOnce s

/-- The handles of a forest, in document order. -/
def Dom.ids (d : Dom) : List Nat := d.nodes.map (fun e => e.nid)

/-- The invariant of the applier: the handles in use are below the supply of fresh ones
and pairwise distinct, and no node outside the controls has two controls of one kind among
its children. -/
def Page.Sound (p : Page) : Prop := p.Fresh ∧ p.dom.ids.Nodup ∧ p.dom.ControlsOnce

/-! ## Full reset and the unblur control -/

/-- `removeAttribute(name)`. -/
def removeAttr (name : String) (attrs : List (String × String)) : List (String × String) :=
  attrs.filter (fun a => a.1 != name)

/-- `el.removeAttribute("data-content-guardian-processed")`. -/
def clearProcessed (e : Elem) : Elem :=
  { e with attrs := removeAttr "data-content-guardian-processed" e.attrs }

/-- `el.classList.remove("content-guardian-hidden", "content-guardian-blurred",
"content-guardian-flagged")`. -/
def clearPresentation (e : Elem) : Elem :=
  { e with classes := ["content-guardian-hidden", "content-guardian-blurred",
      "content-guardian-flagged"].foldl (fun classes c => classListRemove c classes) e.classes }

/-- `el.remove()` for the node with handle `i`: the node leaves the tree with all that is
below it. -/
def Dom.remove (i : Nat) : Dom → Dom
  | .nil => .nil
  | .node e c s => if e.nid = i then remove i s else .node e (remove i c) (remove i s)

/-- The selector `[data-content-guardian-processed]`. -/
def selProcessed : Selector := [[⟨none, none, [], [.has "data-content-guardian-processed"]⟩]]

/-- The selector list
`.content-guardian-hidden, .content-guardian-blurred, .content-guardian-flagged`. -/
def selPresentation : Selector :=
  [[⟨none, none, ["content-guardian-hidden"], []⟩],
   [⟨none, none, ["content-guardian-blurred"], []⟩],
   [⟨none, none, ["content-guardian-flagged"], []⟩]]

/-- The selector list `.content-guardian-unblur, .content-guardian-flag`. -/
def selControls : Selector :=
  [[⟨none, none, ["content-guardian-unblur"], []⟩],
   [⟨none, none, ["content-guardian-flag"], []⟩]]

/-- The three `querySelectorAll(...).forEach(...)` statements of `refilterPage`, before the
counter is reset and the page is scanned again: each node list is taken on the tree as it is
then, and its elements are treated in order. -/
def stripFilters (d : Dom) : Dom :=
  let d1 := ((queryAll selProcessed [] d).map (fun e => e.nid)).foldl
    (fun t i => t.modify i clearProcessed) d
  let d2 := ((queryAll selPresentation [] d1).map (fun e => e.nid)).foldl
    (fun t i => t.modify i clearPresentation) d1
  ((queryAll selControls [] d2).map (fun e => e.nid)).foldl (fun t i => t.remove i) d2

/-- `refilterPage()`. -/
def refilterPage [Browser] (st : ContentFilter) : Except ContentFilter ContentFilter :=
  scanAndFilter
    { st with page := ⟨stripFilters st.page.dom, st.page.next⟩, filteredCount := 0 }

/-- The `onclick` handler that `addUnblurButton` gives to the button; `wrapper` and
`button` are the nodes held by the closure. -/
def unblurClick (p : Page) (wrapper button : Nat) : Page :=
  match p.dom.locate [] wrapper with
  | some (chain, children) =>
    match queryAll (selClass "content-guardian-blurred") chain children with
    | blurredElement :: _ =>
      ⟨(p.dom.modify blurredElement.nid (fun e =>
          { e with classes := classListRemove "content-guardian-blurred" e.classes })).remove
          button, p.next⟩
    | [] => ⟨p.dom.remove button, p.next⟩
  | none => ⟨p.dom.remove button, p.next⟩

/-! ## Mutation scheduler -/

/-- One record of a change batch: `mutation.type` and `mutation.addedNodes.length`. -/
structure MutationRecord where
  type : String
  addedNodes : Nat
deriving DecidableEq, Repr

/-- The timer of the engine on a discrete clock: `scanTimeout` is the time at which the
pending timer fires (`none` when no timer is pending), `scans` the times at which a timer
ran `scanAndFilter`, latest first. -/
structure Scheduler where
  scanTimeout : Option Nat
  scans : List Nat
deriving DecidableEq, Repr

/-- The clock reaches `now`: a pending timer that is due runs `() => this.scanAndFilter()`. -/
def Scheduler.advance (now : Nat) (s : Scheduler) : Scheduler :=
  match s.scanTimeout with
  | some due => if due ≤ now then ⟨none, due :: s.scans⟩ else s
  | none => s

/-- The `shouldScan` flag that the observer callback computes from a batch. -/
def shouldScan (mutations : List MutationRecord) : Bool :=
  mutations.any (fun mutation => mutation.type == "childList" && decide (mutation.addedNodes > 0))

/-- The `MutationObserver` callback for a batch delivered at time `now`:
`clearTimeout(this.scanTimeout); this.scanTimeout = setTimeout(..., 100)` when
`shouldScan`. -/
def Scheduler.onMutations (now : Nat) (mutations : List MutationRecord) (s : Scheduler) :
    Scheduler :=
  if shouldScan mutations then ⟨some (now + 100), (s.advance now).scans⟩
  else s.advance now

/-- A sequence of batches, each with its time of delivery, in order. -/
def Scheduler.run : List (Nat × List MutationRecord) → Scheduler → Scheduler
  | [], s => s
  | (now, mutations) :: rest, s => run rest (s.onMutations now mutations)

/-! ## The rule list of the options page and the popup -/

/-- The keywords of a rule list are pairwise distinct ignoring case. -/
def KeywordsDistinct [Browser] (keywords : List Rule) : Prop :=
  (keywords.map (fun k => toLowerCase k.keyword)).Nodup

/-- The rule list after `importKeywords(file)`, `dataKeywords` being the `keywords` array
of the parsed file: the rules of the file whose keyword is not in the list yet are pushed. -/
def importKeywords [Browser] (keywords dataKeywords : List Rule) : List Rule :=
  keywords ++ dataKeywords.filter (fun newKeyword =>
    (keywords.find? (fun existing =>
      toLowerCase existing.keyword == toLowerCase newKeyword.keyword)).isNone)

/-! ## Words of the specification -/

/-- Modelled from the words of the spec for the text extractor ("whitespace-joined ...
skipping empty sources"): the non-empty strings of the list, in order, with a single space
between two of them. -/
def joinNonEmpty : List String → String
  | [] => ""
  | s :: rest =>
    if s = "" then joinNonEmpty rest
    else if joinNonEmpty rest = "" then s
    else s ++ " " ++ joinNonEmpty rest

/-- The host names of a platform, in the usual sense: the domain itself and its
subdomains. -/
def isHostOf (domain hostname : String) : Bool :=
  hostname == domain || ("." ++ domain).data.isSuffixOf hostname.data

/-- The domains of the known platforms: YouTube, Reddit, Twitter/X, Google, Facebook,
Instagram. -/
def platformDomains : List String :=
  ["youtube.com", "reddit.com", "twitter.com", "x.com", "google.com", "facebook.com",
   "instagram.com"]

/-- The host is one of the known platforms. -/
def isKnownPlatform (hostname : String) : Bool :=
  platformDomains.any (fun domain => isHostOf domain hostname)

/-- The node `el` is in the document and bears the processed mark. -/
def Marked (p : Page) (el : Nat) : Prop := (p.dom.get? el).map Elem.processed = some true

/-- The time at which the last batch of the sequence `first :: rest` is delivered. -/
def lastTime : Nat × List MutationRecord → List (Nat × List MutationRecord) → Nat
  | first, [] => first.1
  | _, b :: rest => lastTime b rest

/-- Each batch of `first :: rest` is delivered less than 100 time units after the one before
it (and not before it). -/
def Burst : Nat × List MutationRecord → List (Nat × List MutationRecord) → Prop
  | _, [] => True
  | a, b :: rest => (a.1 ≤ b.1 ∧ b.1 < a.1 + 100) ∧ Burst b rest

/-! ## The elementary changes of a scan pass -/

/-- The node with handle `i` and the forest of its children. -/
def Dom.view : Dom → Nat → Option (Elem × Dom)
  | .nil, _ => none
  | .node e c s, i =>
    if e.nid = i then some (e, c)
    else match view c i with
      | some r => some r
      | none => view s i

/-- The nodes of a forest that do not lie inside a control: a control is listed, what is
below it (the parsed template) is not. -/
def Dom.outer : Dom → List Elem
  | .nil => []
  | .node e c s => e :: ((if e.isControl then [] else outer c) ++ outer s)

/-- A compound selector that the nodes and attributes made by the engine do not touch: it
holds of no wrapper and of no control, and names neither a presentation class nor the
processed mark. -/
def Compound.inert (c : Compound) : Bool :=
  !c.holds (wrapperElem 0 ⟨0, "", [], [], "", 0, 0⟩) && !c.holds (unblurElem 0) &&
    !c.holds (flagElem 0) && c.classes.all (fun k => decide (k ∉ presentationClasses)) &&
    c.attrs.all (fun t => match t with
      | .has n => n != "data-content-guardian-processed"
      | .eq n _ => n != "data-content-guardian-processed"
      | .contains n _ => n != "data-content-guardian-processed")

/-- A selector list made of inert compound selectors. -/
def inertSel (sel : Selector) : Bool := sel.all (fun cs => cs.all Compound.inert)

/-- Some compound selector of the list holds of the element. -/
def seenBy (sel : Selector) (e : Elem) : Bool := sel.any (fun cs => cs.any (fun c => c.holds e))

/-- One elementary change that the engine makes to the document. -/
inductive Mutation where
  /-- `applyFilter` puts a new wrapper in the place of the container, around it. -/
  | wrap (container : Elem)
  /-- `container.classList.add(cls)` in `applyFilter`. -/
  | addClass (container : Nat) (cls : String)
  /-- `addUnblurButton` inserts a button as first child of the wrapper. -/
  | unblur (wrapper : Nat) (keyword : Rule)
  /-- `addFlagIndicator` inserts an indicator as first child of the wrapper. -/
  | flag (wrapper : Nat) (keyword : Rule)
  /-- `element.dataset.contentGuardianProcessed = "true"` in `scanAndFilter`. -/
  | mark (element : Nat)

/-- The page after an elementary change. -/
def Mutation.apply [Browser] (p : Page) : Mutation → Page
  | .wrap container =>
    ⟨p.dom.wrap container.nid (wrapperElem p.next container), p.next + 1⟩
  | .addClass container cls => p.addClass container cls
  | .unblur wrapper keyword =>
    ⟨Dom.prepend wrapper (unblurElem p.next)
        (parseFragment (unblurLabel keyword) (p.next + 1)).1 p.dom,
      (parseFragment (unblurLabel keyword) (p.next + 1)).2⟩
  | .flag wrapper keyword =>
    ⟨Dom.prepend wrapper (flagElem p.next)
        (parseFragment (flagLabel keyword) (p.next + 1)).1 p.dom,
      (parseFragment (flagLabel keyword) (p.next + 1)).2⟩
  | .mark element => ⟨p.dom.modify element markProcessed, p.next⟩

/-- The conditions under which the engine makes an elementary change: its target is a node
of the document, the class added is a presentation class, and a control is inserted into a
wrapper that has no control of that kind below it. -/
def Mutation.Valid (p : Page) : Mutation → Prop
  | .wrap container => ∃ x ∈ p.dom.nodes, x.nid = container.nid
  | .addClass container cls => (∃ x ∈ p.dom.nodes, x.nid = container) ∧ cls ∈ presentationClasses
  | .unblur wrapper _ =>
    ∃ e kids, p.dom.view wrapper = some (e, kids) ∧ ∀ x ∈ kids.nodes, x.isUnblur = false
  | .flag wrapper _ =>
    ∃ e kids, p.dom.view wrapper = some (e, kids) ∧ ∀ x ∈ kids.nodes, x.isFlag = false
  | .mark element => ∃ x ∈ p.dom.nodes, x.nid = element

/-- The page `p` is reached from `p0` by the elementary changes `ms`, made in that order. -/
inductive Run [Browser] (p0 : Page) : Page → List Mutation → Prop
  | nil : Run p0 p0 []
  | snoc (p : Page) (ms : List Mutation) (m : Mutation) :
    Run p0 p ms → m.Valid p → Run p0 (m.apply p) (ms ++ [m])

/-- One call of `applyFilter` made by a scan pass that went past `insertBefore`: the
matched node, the container resolved for it, the wrapper used and the matched rule. -/
structure Application where
  element : Nat
  container : Nat
  wrapper : Nat
  rule : Rule
deriving DecidableEq, Repr

/-- The application that the body of `elements.forEach` makes for one element: there is
one when the element is in the document, does not bear the processed mark, matches a
rule, and `applyFilter` does not throw. -/
def applicationOf [Browser] (enabledKeywords : List Rule) (st : ContentFilter)
    (element : Nat) : Option Application :=
  match st.page.dom.locate [] element with
  | some (e :: parents, children) =>
    if e.processed then none
    else
      match findMatchingKeyword (getElementText e children) enabledKeywords with
      | none => none
      | some matchedKeyword =>
        match ensureWrapper st.page (findFilterContainer e parents) with
        | some (_, wrapper) =>
          some ⟨element, (findFilterContainer e parents).nid, wrapper, matchedKeyword⟩
        | none => none
  | _ => none

/-- The applications made by `elements.forEach(...)`, in order. -/
def applicationsOfElements [Browser] (enabledKeywords : List Rule) :
    List Nat → ContentFilter → List Application
  | [], _ => []
  | element :: rest, st =>
    (applicationOf enabledKeywords st element).toList ++
      match scanElement enabledKeywords st element with
      | .ok st1 => applicationsOfElements enabledKeywords rest st1
      | .error _ => []

/-- The applications made by `selectors.forEach(...)`, in order. -/
def applicationsOfSelectors [Browser] (enabledKeywords : List Rule) :
    List Selector → ContentFilter → List Application
  | [], _ => []
  | selector :: rest, st =>
    applicationsOfElements enabledKeywords
        ((queryAll selector [] st.page.dom).map (fun e => e.nid)) st ++
      match scanElements enabledKeywords
          ((queryAll selector [] st.page.dom).map (fun e => e.nid)) st with
      | .ok st1 => applicationsOfSelectors enabledKeywords rest st1
      | .error _ => []

/-- The applications made by one scan pass `scanAndFilter()`, in order. -/
def applications [Browser] (st : ContentFilter) : List Application :=
  if (st.keywords.filter (fun k => k.enabled)).length = 0 then []
  else applicationsOfSelectors (st.keywords.filter (fun k => k.enabled))
    (getPlatformSelectors st.hostname) st

/-- The states reachable from `init` by scan passes, each with the applications that the
passes made on the way to it. -/
inductive Trace [Browser] (init : ContentFilter) : ContentFilter → List Application → Prop
  | start : Trace init init []
  | scan (st : ContentFilter) (log : List Application) :
    Trace init st log → Trace init (endState (scanAndFilter st)) (log ++ applications st)

/-- The elementary change belongs to one of the applications of the list. -/
def Justified (log : List Application) : Mutation → Prop
  | .wrap container => ∃ a ∈ log, a.container = container.nid
  | .addClass container cls =>
    ∃ a ∈ log, a.container = container ∧ ClassOfAction a.rule.action cls
  | .unblur wrapper keyword => ∃ a ∈ log, a.wrapper = wrapper ∧ a.rule = keyword
  | .flag wrapper keyword => ∃ a ∈ log, a.wrapper = wrapper ∧ a.rule = keyword
  | .mark element => ∃ a ∈ log, a.element = element

/-- What an elementary change does to a node that is in the document already: the
container gets the class, the scanned element the mark; no other node changes. -/
def Mutation.touch (m : Mutation) (e : Elem) : Elem :=
  match m with
  | .addClass container cls =>
    if e.nid = container then { e with classes := classListAdd cls e.classes } else e
  | .mark element => if e.nid = element then markProcessed e else e
  | _ => e

/-- The page `q` is reached from `p` by elementary changes that all belong to the
applications `log`, and every application of `log` has added the class of its action to
its container. -/
def Explains [Browser] (p q : Page) (log : List Application) : Prop :=
  ∃ ms, Run p q ms ∧ (∀ m ∈ ms, Justified log m) ∧
    ∀ a ∈ log, ∀ cls, ClassOfAction a.rule.action cls → Mutation.addClass a.container cls ∈ ms

/-- The text that a scan pass extracts for the node with handle `i`. -/
def Dom.textOf [Browser] (d : Dom) (i : Nat) : Option String :=
  (d.view i).map (fun r => getElementText r.1 r.2)

/-- Below the node with handle `i` there is no control with a handle from `n` on: no
control made since the supply of fresh handles stood at `n`. -/
def Dom.NoNewControl (n : Nat) (d : Dom) (i : Nat) : Prop :=
  ∀ y ∈ d.descendantsOf i, y.isControl = true → y.nid < n

/-- The text of the node with handle `i` matches none of the rules. -/
def Quiet [Browser] (keywords : List Rule) (d : Dom) (i : Nat) : Prop :=
  ∀ t, d.textOf i = some t → findMatchingKeyword t keywords = none

/-- The character data of the node and the attributes that `getElementText` reads are
ASCII strings. -/
def Elem.ascii (e : Elem) : Bool :=
  isAscii e.text && isAscii ((e.getAttribute "title").getD "") &&
    isAscii ((e.getAttribute "alt").getD "") && isAscii ((e.getAttribute "aria-label").getD "")

/-- A document whose texts are ASCII strings. -/
def Dom.ascii (d : Dom) : Bool := d.nodes.all Elem.ascii

/-- A rule whose keyword is an ASCII string without markup. -/
def Rule.ascii (k : Rule) : Bool := isAscii k.keyword && plainText k.keyword

/-! ## The browser of the examples -/

/-- The browser of the evaluated examples: `toLowerCase` folds `A`..`Z`, and the parser
makes one text node of its input.  By the laws of `Browser`, every browser agrees with it
on markup-free ASCII strings. -/
instance asciiBrowser : Browser where
  toLowerCase s := ⟨s.data.map Char.toLower⟩
  toLowerCase_ascii _ _ := rfl
  parseFragment html next := (textNode next html, next + 1)
  parseFragment_plain _ _ _ _ := rfl
  parseFragment_fresh _ _ := by simp [textNode, Dom.nodes]
  parseFragment_nodup _ _ := by simp [textNode, Dom.nodes]

/-! ## Example rules and documents -/

/-- An enabled rule with the given keyword and action. -/
def mkRule (id : Nat) (keyword action : String) : Rule :=
  ⟨id, keyword, "General", action, true, 0⟩

/-- An element without classes and attributes. -/
def mkElem (nid : Nat) (tag : String) (height width : Nat) : Elem :=
  ⟨nid, tag, [], [], "", height, width⟩

/-- A `div` with class `Post` (a Reddit post). -/
def postDiv : Elem := ⟨1, "div", ["Post"], [], "", 200, 300⟩
/-- An `article` element, placed inside `postDiv`. -/
def articleInPost : Elem := mkElem 2 "article" 100 300
/-- A paragraph, placed inside `articleInPost`. -/
def paragraphInArticle : Elem := mkElem 3 "p" 20 300

/-- A `div` below the size heuristic (height 40, width 90). -/
def smallDiv (nid : Nat) : Elem := mkElem nid "div" 40 90
/-- A `div` above the size heuristic (height 400, width 900). -/
def bigDiv (nid : Nat) : Elem := mkElem nid "div" 400 900

/-- Settings with the master toggle off and no enabled site. -/
def settingsOff : Settings := ⟨false, [], "blur", "medium", true, false⟩

/-- The default settings written by the background script. -/
def settingsDefault : Settings := ⟨true, ["all"], "blur", "medium", true, false⟩

/-- The document `html > body > div > p > "Local politics update"`, the `div` being 120
high and 600 wide. -/
def politicsDoc : Dom :=
  .node (mkElem 1 "html" 40 90)
    (.node (mkElem 2 "body" 40 90)
      (.node (mkElem 3 "div" 120 600)
        (.node (mkElem 4 "p" 20 600) (textNode 5 "Local politics update") .nil) .nil) .nil)
    .nil

/-- The default rule of the background script: blur "politics". -/
def politicsRule : Rule := mkRule 1 "politics" "blur"

/-- The document `html > body > article > h1 > "Cat news"`. -/
def articleDoc : Dom :=
  .node (mkElem 1 "html" 600 800)
    (.node (mkElem 2 "body" 600 800)
      (.node (mkElem 3 "article" 100 400)
        (.node (mkElem 4 "h1" 20 400) (textNode 5 "Cat news") .nil) .nil) .nil) .nil

/-- The document `html > body > article > [h1 > "Cat news", p > "Dog news"]`. -/
def twoMatchDoc : Dom :=
  .node (mkElem 1 "html" 600 800)
    (.node (mkElem 2 "body" 600 800)
      (.node (mkElem 3 "article" 100 400)
        (.node (mkElem 4 "h1" 20 400) (textNode 5 "Cat news")
          (.node (mkElem 6 "p" 20 400) (textNode 7 "Dog news") .nil)) .nil) .nil) .nil

/-- The document `html > body > div.Post > [div[data-testid="tweet"] > h1 > "Cat news",
p > "Dog news"]`: a tweet container nested in a post container. -/
def nestedDoc : Dom :=
  .node (mkElem 1 "html" 600 800)
    (.node (mkElem 2 "body" 600 800)
      (.node ⟨3, "div", ["Post"], [], "", 300, 400⟩
        (.node ⟨4, "div", [], [("data-testid", "tweet")], "", 100, 400⟩
          (.node (mkElem 5 "h1" 20 400) (textNode 6 "Cat news") .nil)
          (.node (mkElem 7 "p" 20 400) (textNode 8 "Dog news") .nil)) .nil) .nil) .nil

/-- The document `html > body > article > p > "Dog news"`, the `article` hidden and
bearing the processed mark, the paragraph not yet processed. -/
def markedDoc : Dom :=
  .node (mkElem 1 "html" 600 800)
    (.node (mkElem 2 "body" 600 800)
      (.node ⟨3, "article", ["content-guardian-hidden"],
          [("data-content-guardian-processed", "true")], "", 100, 400⟩
        (.node (mkElem 4 "p" 20 400) (textNode 5 "Dog news") .nil) .nil) .nil) .nil

/-- A `ContentFilter` on `example.com` with the default settings and a zero counter. -/
def engineOn (keywords : List Rule) (dom : Dom) : ContentFilter :=
  ⟨keywords, settingsDefault, 0, "example.com", ⟨dom, 100⟩⟩

/-- The document `html > body > div[role="article"] > article[aria-label="Cat pictures"] >
"Hello"`: the keyword "cat" is in an attribute of the inner element only. -/
def ariaDoc : Dom :=
  .node (mkElem 1 "html" 600 800)
    (.node (mkElem 2 "body" 600 800)
      (.node ⟨3, "div", [], [("role", "article")], "", 100, 400⟩
        (.node ⟨4, "article", [], [("aria-label", "Cat pictures")], "", 80, 400⟩
          (textNode 5 "Hello") .nil) .nil) .nil) .nil

/-- The document `html > body > article > [h1 > "Cat news", p > "Bird song"]`. -/
def birdDoc : Dom :=
  .node (mkElem 1 "html" 600 800)
    (.node (mkElem 2 "body" 600 800)
      (.node (mkElem 3 "article" 100 400)
        (.node (mkElem 4 "h1" 20 400) (textNode 5 "Cat news")
          (.node (mkElem 6 "p" 20 400) (textNode 7 "Bird song") .nil)) .nil) .nil) .nil

/-- The document `html > body > [article > p > "Dog news", article > h1 > "Cat news"]`:
the first `article` is hidden and bears the processed mark, and so does its paragraph; the
second `article` is not annotated. -/
def feedDoc : Dom :=
  .node (mkElem 1 "html" 600 800)
    (.node (mkElem 2 "body" 600 800)
      (.node ⟨3, "article", ["content-guardian-hidden"],
          [("data-content-guardian-processed", "true")], "", 100, 400⟩
        (.node ⟨4, "p", [], [("data-content-guardian-processed", "true")], "", 20, 400⟩
          (textNode 5 "Dog news") .nil)
        (.node (mkElem 6 "article" 100 400)
          (.node (mkElem 7 "h1" 20 400) (textNode 8 "Cat news") .nil) .nil)) .nil) .nil

/-- The document `html > body > article > div.Post > h1 > "Cat news"`: a post container
inside an `article`. -/
def postInArticleDoc : Dom :=
  .node (mkElem 1 "html" 600 800)
    (.node (mkElem 2 "body" 600 800)
      (.node (mkElem 3 "article" 300 400)
        (.node ⟨4, "div", ["Post"], [], "", 100, 400⟩
          (.node (mkElem 5 "h1" 20 400) (textNode 6 "Cat news") .nil) .nil) .nil) .nil) .nil

/-- The document `html > body > p > "Cat news"` in which only the `html` element passes
the size heuristic: the container resolved for the paragraph is the root element. -/
def rootDoc : Dom :=
  .node (mkElem 1 "html" 600 800)
    (.node (mkElem 2 "body" 40 90)
      (.node (mkElem 3 "p" 20 90) (textNode 4 "Cat news") .nil) .nil) .nil

/-! ## Keyword matcher -/

theorem includesChars_iff (text term : List Char) :
    includesChars text term = true ↔ term <:+: text := by
  induction text with
  | nil => cases term <;> simp [includesChars]
  | cons c cs ih =>
    simp only [includesChars, Bool.or_eq_true, ih, List.infix_cons_iff]
    rw [ List.isPrefixOf_iff_prefix]

theorem includes_iff (text term : String) :
    includes text term = true ↔ term.data <:+: text.data :=
  includesChars_iff _ _

theorem toLowerCase_of_ascii [Browser] (s t : String) (hs : isAscii s = true)
    (ht : (⟨s.data.map Char.toLower⟩ : String) = t) : toLowerCase s = t := by
  rw [Browser.toLowerCase_ascii s hs, ht]

theorem includes_empty [Browser] (text : String) : includes text (toLowerCase "") = true := by
  rw [toLowerCase_of_ascii "" "" (by decide) (by decide), includes_iff]
  exact List.nil_infix

theorem findMatchingKeyword_none [Browser] (text : String) (keywords : List Rule) :
    findMatchingKeyword text keywords = none ↔
      ∀ k ∈ keywords, includes text (toLowerCase k.keyword) = false := by
  induction keywords with
  | nil => simp [findMatchingKeyword]
  | cons k ks ih =>
    by_cases h : includes text (toLowerCase k.keyword) = true
    · simp [findMatchingKeyword, h]
    · simp [findMatchingKeyword, h, ih]

theorem findMatchingKeyword_some [Browser] (text : String) (keywords : List Rule) (r : Rule)
    (h : findMatchingKeyword text keywords = some r) :
    ∃ before after, keywords = before ++ r :: after ∧
      includes text (toLowerCase r.keyword) = true ∧
      ∀ k ∈ before, includes text (toLowerCase k.keyword) = false := by
  induction keywords with
  | nil => simp [findMatchingKeyword] at h
  | cons k ks ih =>
    by_cases hk : includes text (toLowerCase k.keyword) = true
    · simp [findMatchingKeyword, hk] at h
      subst h
      exact ⟨[], ks, rfl, hk, by simp⟩
    · simp [findMatchingKeyword, hk] at h
      obtain ⟨before, after, h1, h2, h3⟩ := ih h
      refine ⟨k :: before, after, by simp [h1], h2, ?_⟩
      intro x hx
      rcases List.mem_cons.mp hx with rfl | hx
      · simpa using hk
      · exact h3 x hx

theorem findMatchingKeyword_append [Browser] (text : String) (before rest : List Rule)
    (h : ∀ k ∈ before, includes text (toLowerCase k.keyword) = false) :
    findMatchingKeyword text (before ++ rest) = findMatchingKeyword text rest := by
  induction before with
  | nil => rfl
  | cons k ks ih =>
    have hk : includes text (toLowerCase k.keyword) = false := h k (by simp)
    simp only [List.cons_append, findMatchingKeyword, hk]
    exact ih (fun x hx => h x (by simp [hx]))

theorem findMatchingKeyword_mem [Browser] (text : String) (keywords : List Rule) (r : Rule)
    (h : findMatchingKeyword text keywords = some r) : r ∈ keywords := by
  obtain ⟨before, after, h1, -, -⟩ := findMatchingKeyword_some text keywords r h
  simp [h1]

/-- C1: `findMatchingKeyword` returns `null` exactly when no rule's lower-cased keyword
is a substring of the text, and otherwise the first rule in list order whose lower-cased
keyword is a substring of the text; so the order of the list decides between "cat" and
"dog" on "a dog and cat", "NEWS" matches "breaking newsflash" and "art" matches "smart". -/
theorem findMatchingKeyword_first_match [Browser] (text : String) (keywords : List Rule) :
    (findMatchingKeyword text keywords = none ↔
      ∀ k ∈ keywords, ¬ (toLowerCase k.keyword).data <:+: text.data) ∧
    (∀ r, findMatchingKeyword text keywords = some r →
      ∃ before after, keywords = before ++ r :: after ∧
        (toLowerCase r.keyword).data <:+: text.data ∧
        ∀ k ∈ before, ¬ (toLowerCase k.keyword).data <:+: text.data) ∧
    findMatchingKeyword "a dog and cat" [mkRule 1 "cat" "hide", mkRule 2 "dog" "hide"]
      = some (mkRule 1 "cat" "hide") ∧
    findMatchingKeyword "a dog and cat" [mkRule 2 "dog" "hide", mkRule 1 "cat" "hide"]
      = some (mkRule 2 "dog" "hide") ∧
    findMatchingKeyword "breaking newsflash" [mkRule 3 "NEWS" "blur"]
      = some (mkRule 3 "NEWS" "blur") ∧
    findMatchingKeyword "smart" [mkRule 4 "art" "flag"] = some (mkRule 4 "art" "flag") := by
  have hcat : toLowerCase "cat" = "cat" :=
    toLowerCase_of_ascii "cat" "cat" (by decide) (by decide)
  have hdog : toLowerCase "dog" = "dog" :=
    toLowerCase_of_ascii "dog" "dog" (by decide) (by decide)
  have hnews : toLowerCase "NEWS" = "news" :=
    toLowerCase_of_ascii "NEWS" "news" (by decide) (by decide)
  have hart : toLowerCase "art" = "art" :=
    toLowerCase_of_ascii "art" "art" (by decide) (by decide)
  refine ⟨?_, ?_, ?_, ?_, ?_, ?_⟩
  rotate_left 2
  · simp only [findMatchingKeyword, mkRule, hcat, hdog]
    decide
  · simp only [findMatchingKeyword, mkRule, hcat, hdog]
    decide
  · simp only [findMatchingKeyword, mkRule, hnews]
    decide
  · simp only [findMatchingKeyword, mkRule, hart]
    decide
  · rw [findMatchingKeyword_none]
    constructor
    · intro h k hk hin
      have := h k hk
      rw [← includes_iff] at hin
      simp [hin] at this
    · intro h k hk
      have := h k hk
      rw [← includes_iff] at this
      simpa using this
  · intro r hr
    obtain ⟨before, after, h1, h2, h3⟩ := findMatchingKeyword_some text keywords r hr
    refine ⟨before, after, h1, (includes_iff _ _).mp h2, ?_⟩
    intro k hk hin
    have := h3 k hk
    rw [← includes_iff] at hin
    simp [hin] at this

/-- Witness of C1: on "a dog and cat" with the order [dog, cat] the returned rule is
"dog", the first of the list, and its keyword is a substring of the text. -/
theorem findMatchingKeyword_first_match_witness :
    ∃ before after,
      [mkRule 2 "dog" "hide", mkRule 1 "cat" "hide"] = before ++ mkRule 2 "dog" "hide" :: after ∧
        (toLowerCase (mkRule 2 "dog" "hide").keyword).data <:+: "a dog and cat".data ∧
        ∀ k ∈ before, ¬ (toLowerCase k.keyword).data <:+: "a dog and cat".data :=
  (findMatchingKeyword_first_match "a dog and cat"
    [mkRule 2 "dog" "hide", mkRule 1 "cat" "hide"]).2.1 (mkRule 2 "dog" "hide") (by decide)

/-- C2 as stated fails: a rule with the empty keyword, and a rule whose keyword is one
blank, are returned for the text "hello world", and each takes the place of the "hello"
rule, which is returned when the blank rule is absent. -/
theorem blank_keyword_is_returned :
    findMatchingKeyword "hello world" [mkRule 1 "" "hide", mkRule 2 "hello" "blur"]
      = some (mkRule 1 "" "hide") ∧
    findMatchingKeyword "hello world" [mkRule 1 " " "hide", mkRule 2 "hello" "blur"]
      = some (mkRule 1 " " "hide") ∧
    findMatchingKeyword "hello world" [mkRule 2 "hello" "blur"]
      = some (mkRule 2 "hello" "blur") := by
  decide

/-- C2, amended: the empty keyword is included in every text; a rule (blank or not) whose
lower-cased keyword is included in the text is returned when no rule before it matches;
a rule whose lower-cased keyword is not included in the text is never returned, and its
presence does not change which of the other rules is returned. -/
theorem findMatchingKeyword_blank_keyword [Browser] (text : String) (before after : List Rule)
    (r : Rule) :
    includes text (toLowerCase "") = true ∧
    (includes text (toLowerCase r.keyword) = true →
      (∀ k ∈ before, includes text (toLowerCase k.keyword) = false) →
      findMatchingKeyword text (before ++ r :: after) = some r) ∧
    (includes text (toLowerCase r.keyword) = false →
      findMatchingKeyword text (before ++ r :: after) ≠ some r ∧
      findMatchingKeyword text (before ++ r :: after)
        = findMatchingKeyword text (before ++ after)) := by
  refine ⟨includes_empty text, ?_, ?_⟩
  · intro hr hb
    rw [findMatchingKeyword_append text before _ hb]
    simp [findMatchingKeyword, hr]
  · intro hr
    constructor
    · intro h
      obtain ⟨-, -, -, h2, -⟩ := findMatchingKeyword_some _ _ _ h
      simp [hr] at h2
    · induction before with
      | nil => simp [findMatchingKeyword, hr]
      | cons k ks ih =>
        show findMatchingKeyword text (k :: (ks ++ r :: after))
          = findMatchingKeyword text (k :: (ks ++ after))
        simp only [findMatchingKeyword, ih]

/-- Witness of C2 (amended): the rule with the empty keyword after a rule "xyz" that does
not match "hello" is returned; the rule "xyz" before the rule "hello" changes nothing. -/
theorem findMatchingKeyword_blank_keyword_witness :
    findMatchingKeyword "hello" ([mkRule 1 "xyz" "hide"] ++ mkRule 2 "" "blur" :: [])
      = some (mkRule 2 "" "blur") ∧
    (findMatchingKeyword "hello" ([] ++ mkRule 1 "xyz" "hide" :: [mkRule 3 "hello" "flag"])
        ≠ some (mkRule 1 "xyz" "hide") ∧
      findMatchingKeyword "hello" ([] ++ mkRule 1 "xyz" "hide" :: [mkRule 3 "hello" "flag"])
        = findMatchingKeyword "hello" ([] ++ [mkRule 3 "hello" "flag"])) :=
  ⟨(findMatchingKeyword_blank_keyword "hello" [mkRule 1 "xyz" "hide"] [] (mkRule 2 "" "blur")).2.1
      (by decide) (by decide),
    (findMatchingKeyword_blank_keyword "hello" [] [mkRule 3 "hello" "flag"]
      (mkRule 1 "xyz" "hide")).2.2 (by decide)⟩

/-! ## Container resolver -/

theorem closest_none (sel : Selector) (chain : List Elem) :
    closest sel chain = none ↔
      ∀ m, m < chain.length → matchesSel sel (chain.drop m) = false := by
  induction chain with
  | nil => simp [closest]
  | cons e up ih =>
    by_cases h : matchesSel sel (e :: up) = true
    · simp only [closest, h, if_true]
      constructor
      · intro hc; cases hc
      · intro hall
        have := hall 0 (by simp)
        simp [h] at this
    · have h2 : matchesSel sel (e :: up) = false := by simpa using h
      simp only [closest, h2, Bool.false_eq_true, if_false, ih]
      constructor
      · intro hall m hm
        cases m with
        | zero => simpa using h
        | succ n => exact hall n (by simpa using hm)
      · intro hall m hm
        exact hall (m + 1) (by simpa using hm)

theorem closest_some (sel : Selector) (chain : List Elem) (c : Elem)
    (h : closest sel chain = some c) :
    ∃ k, chain[k]? = some c ∧ matchesSel sel (chain.drop k) = true ∧
      ∀ m, m < k → matchesSel sel (chain.drop m) = false := by
  induction chain with
  | nil => simp [closest] at h
  | cons e up ih =>
    by_cases hm : matchesSel sel (e :: up) = true
    · simp only [closest, hm, if_true, Option.some.injEq] at h
      subst h
      exact ⟨0, by simp, by simpa using hm, by simp⟩
    · have hm2 : matchesSel sel (e :: up) = false := by simpa using hm
      simp only [closest, hm2, Bool.false_eq_true, if_false] at h
      obtain ⟨k, h1, h2, h3⟩ := ih h
      refine ⟨k + 1, by simpa using h1, by simpa using h2, ?_⟩
      intro m hmk
      cases m with
      | zero => simpa using hm
      | succ n => exact h3 n (by omega)

theorem firstClosest_none (sels : List Selector) (chain : List Elem) :
    firstClosest sels chain = none ↔ ∀ s ∈ sels, closest s chain = none := by
  induction sels with
  | nil => simp [firstClosest]
  | cons s rest ih =>
    cases hc : closest s chain with
    | none => simp [firstClosest, hc, ih]
    | some c => simp [firstClosest, hc]

theorem firstClosest_some (sels : List Selector) (chain : List Elem) (c : Elem)
    (h : firstClosest sels chain = some c) :
    ∃ (i : Nat) (sel : Selector), sels[i]? = some sel ∧ closest sel chain = some c ∧
      ∀ j : Nat, j < i → ∀ s : Selector, sels[j]? = some s → closest s chain = none := by
  induction sels with
  | nil => simp [firstClosest] at h
  | cons s rest ih =>
    cases hc : closest s chain with
    | some d =>
      simp only [firstClosest, hc, Option.some.injEq] at h
      subst h
      exact ⟨0, s, by simp, hc, by simp⟩
    | none =>
      simp only [firstClosest, hc] at h
      obtain ⟨i, sel, h1, h2, h3⟩ := ih h
      refine ⟨i + 1, sel, by simpa using h1, h2, ?_⟩
      intro j hj t ht
      cases j with
      | zero =>
        simp at ht
        subst ht
        exact hc
      | succ n => exact h3 n (by omega) t (by simpa using ht)

theorem fallbackParent_some (parents : List Elem) (depth : Nat) (a : Elem)
    (h : fallbackParent parents depth = some a) :
    ∃ k, depth + k < 5 ∧ parents[k]? = some a ∧ (a.offsetHeight > 50 ∨ a.offsetWidth > 100) ∧
      ∀ j, j < k → ∀ b, parents[j]? = some b → ¬ (b.offsetHeight > 50 ∨ b.offsetWidth > 100) := by
  induction parents generalizing depth with
  | nil => simp [fallbackParent] at h
  | cons p up ih =>
    by_cases hd : depth < 5
    · by_cases hb : p.offsetHeight > 50 ∨ p.offsetWidth > 100
      · have hb2 : (decide (p.offsetHeight > 50) || decide (p.offsetWidth > 100)) = true := by
          simpa using hb
        simp only [fallbackParent, hd, if_true, hb2, Option.some.injEq] at h
        subst h
        exact ⟨0, by omega, by simp, hb, by simp⟩
      · have hb2 : (decide (p.offsetHeight > 50) || decide (p.offsetWidth > 100)) = false := by
          simpa using hb
        simp only [fallbackParent, hd, if_true, hb2] at h
        obtain ⟨k, h1, h2, h3, h4⟩ := ih (depth + 1) (by simpa using h)
        refine ⟨k + 1, by omega, by simpa using h2, h3, ?_⟩
        intro j hj b hbj
        cases j with
        | zero =>
          simp at hbj
          subst hbj
          exact hb
        | succ n => exact h4 n (by omega) b (by simpa using hbj)
    · simp [fallbackParent, hd] at h

theorem fallbackParent_none (parents : List Elem) (depth : Nat)
    (h : fallbackParent parents depth = none) :
    ∀ j b, depth + j < 5 → parents[j]? = some b →
      ¬ (b.offsetHeight > 50 ∨ b.offsetWidth > 100) := by
  induction parents generalizing depth with
  | nil => simp
  | cons p up ih =>
    intro j b hj hbj
    have hd : depth < 5 := by omega
    by_cases hb : p.offsetHeight > 50 ∨ p.offsetWidth > 100
    · have hb2 : (decide (p.offsetHeight > 50) || decide (p.offsetWidth > 100)) = true := by
        simpa using hb
      simp [fallbackParent, hd, hb2] at h
    · have hb2 : (decide (p.offsetHeight > 50) || decide (p.offsetWidth > 100)) = false := by
        simpa using hb
      simp only [fallbackParent, hd, if_true, hb2] at h
      cases j with
      | zero =>
        simp at hbj
        subst hbj
        exact hb
      | succ n => exact ih (depth + 1) (by simpa using h) n b (by omega) (by simpa using hbj)

/-- C4 as stated fails: for a paragraph inside an `article` inside a `.Post`, the nearest
ancestor-or-self matching a semantic-unit selector is the `article` (one level up), and
`findFilterContainer` returns the `.Post` (two levels up). -/
theorem findFilterContainer_not_nearest :
    selTag "article" ∈ containerSelectors ∧
    matchesSel (selTag "article") [articleInPost, postDiv] = true ∧
    [paragraphInArticle, articleInPost, postDiv][1]? = some articleInPost ∧
    [paragraphInArticle, articleInPost, postDiv][2]? = some postDiv ∧
    findFilterContainer paragraphInArticle [articleInPost, postDiv] = postDiv := by
  decide

/-- C4, amended: for every node with an ancestor-or-self matching one of the semantic-unit
selectors, `findFilterContainer` returns the nearest ancestor-or-self that matches the
selector `sel`, where `sel` is the first selector of the list, in the order
`[data-testid="tweet"]`, `.Post`, `article`, `.g`, `.ytd-rich-grid-media`,
`.ytd-compact-video-renderer`, that any ancestor-or-self matches. -/
theorem findFilterContainer_first_selector (element : Elem) (parents : List Elem)
    (h : ∃ sel ∈ containerSelectors, ∃ m, m < (element :: parents).length ∧
      matchesSel sel ((element :: parents).drop m) = true) :
    ∃ (i : Nat) (sel : Selector) (k : Nat) (c : Elem),
      containerSelectors[i]? = some sel ∧ (element :: parents)[k]? = some c ∧
      findFilterContainer element parents = c ∧
      matchesSel sel ((element :: parents).drop k) = true ∧
      (∀ m, m < k → matchesSel sel ((element :: parents).drop m) = false) ∧
      (∀ j : Nat, j < i → ∀ s : Selector, containerSelectors[j]? = some s →
        ∀ m, m < (element :: parents).length →
          matchesSel s ((element :: parents).drop m) = false) := by
  cases hf : firstClosest containerSelectors (element :: parents) with
  | none =>
    obtain ⟨sel, hsel, m, hm, hmatch⟩ := h
    have := (closest_none sel _).mp ((firstClosest_none _ _).mp hf sel hsel) m hm
    simp [hmatch] at this
  | some c =>
    obtain ⟨i, sel, h1, h2, h3⟩ := firstClosest_some _ _ _ hf
    obtain ⟨k, h4, h5, h6⟩ := closest_some _ _ _ h2
    refine ⟨i, sel, k, c, h1, h4, ?_, h5, h6, ?_⟩
    · simp [findFilterContainer, hf]
    · intro j hj s hs
      exact (closest_none s _).mp (h3 j hj s hs)

/-- Witness of C4 (amended): the paragraph inside an `article` inside a `.Post`. -/
theorem findFilterContainer_first_selector_witness :
    ∃ (i : Nat) (sel : Selector) (k : Nat) (c : Elem),
      containerSelectors[i]? = some sel ∧
      (paragraphInArticle :: [articleInPost, postDiv])[k]? = some c ∧
      findFilterContainer paragraphInArticle [articleInPost, postDiv] = c ∧
      matchesSel sel ((paragraphInArticle :: [articleInPost, postDiv]).drop k) = true ∧
      (∀ m, m < k →
        matchesSel sel ((paragraphInArticle :: [articleInPost, postDiv]).drop m) = false) ∧
      (∀ j : Nat, j < i → ∀ s : Selector, containerSelectors[j]? = some s →
        ∀ m, m < (paragraphInArticle :: [articleInPost, postDiv]).length →
          matchesSel s ((paragraphInArticle :: [articleInPost, postDiv]).drop m) = false) :=
  findFilterContainer_first_selector paragraphInArticle [articleInPost, postDiv]
    ⟨selTag "article", by decide, 1, by decide, by decide⟩

/-- C5: for every node with no ancestor-or-self matching a semantic-unit selector,
`findFilterContainer` returns the nearest of the first 5 proper ancestors whose height is
greater than 50 or whose width is greater than 100, and the node itself when none of
these ancestors qualifies; the result is a node in every case. -/
theorem findFilterContainer_fallback (element : Elem) (parents : List Elem)
    (h : ∀ sel ∈ containerSelectors, ∀ m, m < (element :: parents).length →
      matchesSel sel ((element :: parents).drop m) = false) :
    (∃ (k : Nat) (a : Elem), k < 5 ∧ parents[k]? = some a ∧
      findFilterContainer element parents = a ∧
      (a.offsetHeight > 50 ∨ a.offsetWidth > 100) ∧
      ∀ j : Nat, j < k → ∀ b : Elem, parents[j]? = some b →
        ¬ (b.offsetHeight > 50 ∨ b.offsetWidth > 100)) ∨
    (findFilterContainer element parents = element ∧
      ∀ (j : Nat) (b : Elem), j < 5 → parents[j]? = some b →
        ¬ (b.offsetHeight > 50 ∨ b.offsetWidth > 100)) := by
  have hf : firstClosest containerSelectors (element :: parents) = none :=
    (firstClosest_none _ _).mpr (fun s hs => (closest_none s _).mpr (h s hs))
  cases hp : fallbackParent parents 0 with
  | some a =>
    obtain ⟨k, h1, h2, h3, h4⟩ := fallbackParent_some _ _ _ hp
    exact Or.inl ⟨k, a, by omega, h2, by simp [findFilterContainer, hf, hp], h3, h4⟩
  | none =>
    refine Or.inr ⟨by simp [findFilterContainer, hf, hp], ?_⟩
    intro j b hj hb
    exact fallbackParent_none _ _ hp j b (by omega) hb

/-- Witness of C5: a `span` below five small `div`s and a big one, six levels up. -/
theorem findFilterContainer_fallback_witness :
    (∃ (k : Nat) (a : Elem), k < 5 ∧
      [smallDiv 6, smallDiv 5, smallDiv 4, smallDiv 3, smallDiv 2, bigDiv 1][k]? = some a ∧
      findFilterContainer (mkElem 7 "span" 10 30)
        [smallDiv 6, smallDiv 5, smallDiv 4, smallDiv 3, smallDiv 2, bigDiv 1] = a ∧
      (a.offsetHeight > 50 ∨ a.offsetWidth > 100) ∧
      ∀ j : Nat, j < k → ∀ b : Elem,
        [smallDiv 6, smallDiv 5, smallDiv 4, smallDiv 3, smallDiv 2, bigDiv 1][j]? = some b →
        ¬ (b.offsetHeight > 50 ∨ b.offsetWidth > 100)) ∨
    (findFilterContainer (mkElem 7 "span" 10 30)
        [smallDiv 6, smallDiv 5, smallDiv 4, smallDiv 3, smallDiv 2, bigDiv 1]
        = mkElem 7 "span" 10 30 ∧
      ∀ (j : Nat) (b : Elem), j < 5 →
        [smallDiv 6, smallDiv 5, smallDiv 4, smallDiv 3, smallDiv 2, bigDiv 1][j]? = some b →
        ¬ (b.offsetHeight > 50 ∨ b.offsetWidth > 100)) :=
  findFilterContainer_fallback (mkElem 7 "span" 10 30)
    [smallDiv 6, smallDiv 5, smallDiv 4, smallDiv 3, smallDiv 2, bigDiv 1] (by decide)

/-! ## The scan pass and the settings -/

/-- C3 fails on the code: the popup saves the master toggle as `settings.enabled` and the
options page writes `settings.enabledSites`; the content script loads both into
`this.settings` and never reads them.  With the enable flag off and no enabled site, a scan
pass on `example.com` with the rule blur "politics" runs to its end, blurs the container of
the paragraph "Local politics update" and marks the paragraph processed. -/
theorem scan_runs_whatever_the_settings :
    settingsOff.enabled = false ∧ settingsOff.enabledSites = [] ∧
    threw (scanAndFilter ⟨[politicsRule], settingsOff, 0, "example.com", ⟨politicsDoc, 100⟩⟩)
      = false ∧
    (endState (scanAndFilter
      ⟨[politicsRule], settingsOff, 0, "example.com", ⟨politicsDoc, 100⟩⟩)).page.dom.classesOf 3
      = ["content-guardian-blurred"] ∧
    ((endState (scanAndFilter
      ⟨[politicsRule], settingsOff, 0, "example.com", ⟨politicsDoc, 100⟩⟩)).page.dom.get? 4).map
        Elem.processed = some true := by
  decide

/-! ## The applier on concrete documents -/

/-- C6 fails on the code: on `html > body > article > h1 > "Cat news"` with the rule blur
"cat", one scan pass calls `applyFilter` for the `h1` and for the `article`, both resolving
to the `article`.  The second call does not find the wrapper made by the first (it is the
parent of the container, and `container.querySelector` looks below the container) and makes
another: the container ends inside two wrappers, 103 and 100, and the wrapper of the first
call is no longer its parent. -/
theorem applyFilter_makes_second_wrapper :
    threw (scanAndFilter (engineOn [mkRule 1 "cat" "blur"] articleDoc)) = false ∧
    ((endState (scanAndFilter (engineOn [mkRule 1 "cat" "blur"] articleDoc))).page.dom.ancestorsOf
        3).map (fun a => (a.nid, a.isWrapper))
      = [(103, true), (100, true), (2, false), (1, false)] ∧
    (applyFilter ⟨articleDoc, 100⟩ 4 (mkRule 1 "cat" "blur")).map (fun p => p.dom.parentOf 3)
      = some (some 100) ∧
    ((applyFilter ⟨articleDoc, 100⟩ 4 (mkRule 1 "cat" "blur")).bind
        (fun p => applyFilter p 3 (mkRule 1 "cat" "blur"))).map
        (fun p => (p.dom.parentOf 3, p.dom.parentOf 103))
      = some (some 103, some 100) := by
  decide

/-- C7 as stated fails: on `html > body > article > [h1 > "Cat news", p > "Dog news"]`
with the rules blur "cat" and flag "dog", one scan pass leaves the `article` inside three
wrappers, each with a control of its own (button, flag indicator, button); and on the
nested document with the rules flag "cat" and blur "dog", wrapper 100 ends with two control
children, an unblur button and a flag indicator. -/
theorem controls_are_duplicated :
    (((endState (scanAndFilter (engineOn [mkRule 1 "cat" "blur", mkRule 2 "dog" "flag"]
        twoMatchDoc))).page.dom.ancestorsOf 3).filter Elem.isWrapper).map
        (fun w => (w.nid,
          (((endState (scanAndFilter (engineOn [mkRule 1 "cat" "blur", mkRule 2 "dog" "flag"]
            twoMatchDoc))).page.dom.childrenOf w.nid).filter Elem.isControl).map
              (fun c => c.classes)))
      = [(106, [["content-guardian-unblur"]]), (103, [["content-guardian-flag"]]),
         (100, [["content-guardian-unblur"]])] ∧
    (((endState (scanAndFilter (engineOn [mkRule 1 "cat" "flag", mkRule 2 "dog" "blur"]
        nestedDoc))).page.dom.childrenOf 100).filter Elem.isControl).map (fun c => c.classes)
      = [["content-guardian-unblur"], ["content-guardian-flag"]] := by
  decide

/-- C8 as stated fails: on the nested document, `applyFilter` for the `h1` with the rule
flag "cat" and then for the paragraph with the rule flag "dog": the second call resolves to
the `.Post` container 3, uses wrapper 100 (found below the container), flags the container,
and wrapper 100 holds the one indicator labelled "cat"; no node is labelled "dog". -/
theorem flag_label_of_earlier_keyword :
    ((applyFilter ⟨nestedDoc, 100⟩ 5 (mkRule 1 "cat" "flag")).bind
        (fun p => (ensureWrapper p ⟨3, "div", ["Post"], [], "", 300, 400⟩).map (fun r => r.2)))
      = some 100 ∧
    ((applyFilter ⟨nestedDoc, 100⟩ 5 (mkRule 1 "cat" "flag")).bind
        (fun p => applyFilter p 7 (mkRule 2 "dog" "flag"))).map
        (fun q => (q.dom.classesOf 3,
          ((q.dom.descendantsOf 100).filter
            (fun b => decide ("content-guardian-flag" ∈ b.classes))).map (fun b => b.nid),
          (q.dom.descendantsOf 101).map (fun t => t.text),
          q.dom.nodes.all (fun t => t.text != flagLabel (mkRule 2 "dog" "flag"))))
      = some (["Post", "content-guardian-flagged"], [101],
          [flagLabel (mkRule 1 "cat" "flag")], true) := by
  decide

/-- C9 as stated fails: from the unannotated document
`html > body > article > [h1 > "Cat news", p > "Dog news"]`, one scan pass with the rules
hide "cat" and blur "dog" leaves the `article` both hidden and blurred. -/
theorem container_hidden_and_blurred :
    twoMatchDoc.nodes.all (fun e => e.presentation.isEmpty) = true ∧
    threw (scanAndFilter (engineOn [mkRule 1 "cat" "hide", mkRule 2 "dog" "blur"] twoMatchDoc))
      = false ∧
    ((endState (scanAndFilter (engineOn [mkRule 1 "cat" "hide", mkRule 2 "dog" "blur"]
        twoMatchDoc))).page.dom.get? 3).map Elem.presentation
      = some ["content-guardian-hidden", "content-guardian-blurred"] := by
  decide

/-- C10 as stated fails: the `article` bears the processed mark and is hidden, without any
control; a scan pass with the rule blur "dog" matches the unprocessed paragraph inside it,
and the `article` ends hidden and blurred, inside a new wrapper with an unblur button. -/
theorem marked_container_changes :
    (markedDoc.get? 3).map (fun e => (e.processed, e.classes))
      = some (true, ["content-guardian-hidden"]) ∧
    markedDoc.nodes.filter Elem.isControl = [] ∧
    (endState (scanAndFilter (engineOn [mkRule 2 "dog" "blur"] markedDoc))).page.dom.classesOf 3
      = ["content-guardian-hidden", "content-guardian-blurred"] ∧
    (endState (scanAndFilter (engineOn [mkRule 2 "dog" "blur"] markedDoc))).page.dom.parentOf 3
      = some 100 ∧
    (((endState (scanAndFilter (engineOn [mkRule 2 "dog" "blur"] markedDoc))).page.dom.childrenOf
        100).filter Elem.isControl).map (fun c => c.classes)
      = [["content-guardian-unblur"]] := by
  decide

/-! ## The nodes of a document after a mutation -/

theorem Dom.nodes_modify (i : Nat) (g : Elem → Elem) (d : Dom) :
    (d.modify i g).nodes = d.nodes.map (fun e => if e.nid = i then g e else e) := by
  induction d with
  | nil => rfl
  | node e c s ihc ihs => simp [Dom.modify, Dom.nodes, ihc, ihs]

theorem Dom.nodes_wrap (i : Nat) (w : Elem) (d : Dom) :
    (d.wrap i w).nodes = d.nodes.flatMap (fun e => if e.nid = i then [w, e] else [e]) := by
  induction d with
  | nil => rfl
  | node e c s ihc ihs =>
    by_cases h : e.nid = i <;>
      simp [Dom.wrap, Dom.nodes, ihc, ihs, h, List.flatMap_append]

theorem Dom.nodes_prepend (i : Nat) (b : Elem) (k : Dom) (d : Dom) :
    (Dom.prepend i b k d).nodes =
      d.nodes.flatMap (fun e => if e.nid = i then e :: b :: k.nodes else [e]) := by
  induction d with
  | nil => rfl
  | node e c s ihc ihs =>
    by_cases h : e.nid = i <;>
      simp [Dom.prepend, Dom.nodes, ihc, ihs, h, List.flatMap_append]

theorem Dom.forall_nodes_modify (Q : Elem → Prop) (i : Nat) (g : Elem → Elem) (d : Dom)
    (hg : ∀ e, Q e → Q (g e)) (h : ∀ x ∈ d.nodes, Q x) : ∀ x ∈ (d.modify i g).nodes, Q x := by
  intro x hx
  rw [Dom.nodes_modify, List.mem_map] at hx
  obtain ⟨y, hy, rfl⟩ := hx
  split
  · exact hg y (h y hy)
  · exact h y hy

theorem Dom.forall_nodes_wrap (Q : Elem → Prop) (i : Nat) (w : Elem) (d : Dom)
    (hw : Q w) (h : ∀ x ∈ d.nodes, Q x) : ∀ x ∈ (d.wrap i w).nodes, Q x := by
  intro x hx
  rw [Dom.nodes_wrap, List.mem_flatMap] at hx
  obtain ⟨y, hy, hxy⟩ := hx
  split at hxy
  · simp at hxy
    rcases hxy with rfl | rfl
    · exact hw
    · exact h _ hy
  · simp at hxy
    subst hxy
    exact h _ hy

theorem Dom.forall_nodes_prepend (Q : Elem → Prop) (i : Nat) (b : Elem) (k : Dom) (d : Dom)
    (hb : Q b) (hk : ∀ x ∈ k.nodes, Q x) (h : ∀ x ∈ d.nodes, Q x) :
    ∀ x ∈ (Dom.prepend i b k d).nodes, Q x := by
  intro x hx
  rw [Dom.nodes_prepend, List.mem_flatMap] at hx
  obtain ⟨y, hy, hxy⟩ := hx
  split at hxy
  · simp at hxy
    rcases hxy with rfl | rfl | hxk
    · exact h _ hy
    · exact hb
    · exact hk _ hxk
  · simp at hxy
    subst hxy
    exact h _ hy

/-! ## Looking a node up after a mutation -/

theorem find?_flatMap_same (P : Elem → Bool) (f : Elem → List Elem) (l : List Elem)
    (h : ∀ e, (f e).find? P = [e].find? P) : (l.flatMap f).find? P = l.find? P := by
  induction l with
  | nil => rfl
  | cons a l ih =>
    simp only [List.flatMap_cons, List.find?_append, ih, h a]
    cases hP : P a <;> simp [List.find?, hP]

theorem Dom.get?_modify (i j : Nat) (g : Elem → Elem) (d : Dom)
    (hg : ∀ e, (g e).nid = e.nid) :
    (d.modify i g).get? j = (d.get? j).map (fun e => if e.nid = i then g e else e) := by
  simp only [Dom.get?, Dom.nodes_modify, List.find?_map]
  congr 1
  have : ((fun e : Elem => e.nid == j) ∘ fun e => if e.nid = i then g e else e)
      = fun e : Elem => e.nid == j := by
    funext e
    simp only [Function.comp]
    split <;> simp [hg]
  rw [this]

theorem Dom.get?_wrap (i j : Nat) (w : Elem) (d : Dom) (hw : w.nid ≠ j) :
    (d.wrap i w).get? j = d.get? j := by
  simp only [Dom.get?, Dom.nodes_wrap]
  apply find?_flatMap_same
  intro e
  have hw2 : (w.nid == j) = false := by simpa using hw
  split <;> simp [List.find?, hw2]

theorem Dom.get?_prepend (i j : Nat) (b : Elem) (k : Dom) (d : Dom) (hb : b.nid ≠ j)
    (hk : ∀ x ∈ k.nodes, x.nid ≠ j) :
    (Dom.prepend i b k d).get? j = d.get? j := by
  simp only [Dom.get?, Dom.nodes_prepend]
  apply find?_flatMap_same
  intro e
  split
  · have : k.nodes.find? (fun e => e.nid == j) = none := by
      rw [List.find?_eq_none]
      intro x hx
      simpa using hk x hx
    have hb2 : (b.nid == j) = false := by simpa using hb
    cases he : (e.nid == j) <;> simp [List.find?, he, hb2, this]
  · rfl

theorem Dom.get?_some_mem (d : Dom) (j : Nat) (e : Elem) (h : d.get? j = some e) :
    e ∈ d.nodes ∧ e.nid = j := by
  refine ⟨List.mem_of_find?_eq_some h, ?_⟩
  simpa using List.find?_some h

theorem Dom.get?_isSome_of_mem (d : Dom) (e : Elem) (h : e ∈ d.nodes) :
    ∃ x, d.get? e.nid = some x := by
  cases hg : d.get? e.nid with
  | some x => exact ⟨x, rfl⟩
  | none =>
    simp only [Dom.get?, List.find?_eq_none] at hg
    have := hg e h
    simp at this

theorem Dom.locate_spec (anc : List Elem) (d : Dom) (i : Nat) :
    match d.locate anc i with
    | none => d.get? i = none
    | some (chain, kids) =>
      ∃ x up, chain = x :: up ∧ d.get? i = some x ∧ ∀ y ∈ kids.nodes, y ∈ d.nodes := by
  induction d generalizing anc with
  | nil => simp [Dom.locate, Dom.get?, Dom.nodes]
  | node e c s ihc ihs =>
    by_cases h : e.nid = i
    · simp only [Dom.locate, h, if_true]
      refine ⟨e, anc, rfl, ?_, ?_⟩
      · simp [Dom.get?, Dom.nodes, List.find?, h]
      · intro y hy
        simp [Dom.nodes, hy]
    · have hne : (e.nid == i) = false := by simpa using h
      simp only [Dom.locate, h, if_false]
      have h1 := ihc (e :: anc)
      cases hc : c.locate (e :: anc) i with
      | some r =>
        rw [hc] at h1
        obtain ⟨x, up, hx1, hx2, hx3⟩ := h1
        refine ⟨x, up, hx1, ?_, ?_⟩
        · simp only [Dom.get?] at hx2
          simp [Dom.get?, Dom.nodes, List.find?, hne, List.find?_append, hx2]
        · intro y hy
          simp [Dom.nodes, hx3 y hy]
      | none =>
        rw [hc] at h1
        have h2 := ihs anc
        simp only [Dom.get?] at h1
        cases hs : s.locate anc i with
        | some r =>
          rw [hs] at h2
          obtain ⟨x, up, hx1, hx2, hx3⟩ := h2
          refine ⟨x, up, hx1, ?_, ?_⟩
          · simp only [Dom.get?] at hx2
            simp [Dom.get?, Dom.nodes, List.find?, hne, List.find?_append, hx2, h1]
          · intro y hy
            simp [Dom.nodes, hx3 y hy]
        | none =>
          rw [hs] at h2
          simp only [Dom.get?] at h2
          simp [Dom.get?, Dom.nodes, List.find?, hne, List.find?_append, h2, h1]

theorem Dom.locate_isSome_of_mem (anc : List Elem) (d : Dom) (e : Elem) (h : e ∈ d.nodes) :
    ∃ chain kids, d.locate anc e.nid = some (chain, kids) := by
  have := Dom.locate_spec anc d e.nid
  cases hl : d.locate anc e.nid with
  | some r => exact ⟨r.1, r.2, rfl⟩
  | none =>
    rw [hl] at this
    obtain ⟨x, hx⟩ := Dom.get?_isSome_of_mem d e h
    simp [hx] at this

theorem Dom.locate_prepend (anc : List Elem) (d : Dom) (i : Nat) (b : Elem) (k : Dom) :
    (Dom.prepend i b k d).locate anc i =
      (d.locate anc i).map (fun r => (r.1, Dom.node b k (Dom.prepend i b k r.2))) := by
  induction d generalizing anc with
  | nil => rfl
  | node e c s ihc ihs =>
    by_cases h : e.nid = i
    · simp [Dom.prepend, Dom.locate, h]
    · simp only [Dom.prepend, Dom.locate, h, if_false, ihc, ihs]
      cases c.locate (e :: anc) i <;> simp

theorem Dom.locate_modify (anc : List Elem) (d : Dom) (i j : Nat) (g : Elem → Elem)
    (hg : ∀ e, (g e).nid = e.nid) :
    (d.modify i g).locate (anc.map (fun e => if e.nid = i then g e else e)) j =
      (d.locate anc j).map (fun r =>
        (r.1.map (fun e => if e.nid = i then g e else e), r.2.modify i g)) := by
  induction d generalizing anc with
  | nil => rfl
  | node e c s ihc ihs =>
    have hn : (if e.nid = i then g e else e).nid = e.nid := by split <;> simp [hg]
    by_cases h : e.nid = j
    · subst h
      simp only [Dom.modify, Dom.locate, hn, if_true]
      simp
    · simp only [Dom.modify, Dom.locate, hn, h, if_false]
      have := ihc (e :: anc)
      simp only [List.map_cons] at this
      rw [this, ihs]
      cases c.locate (e :: anc) j <;> simp

/-! ## Class selectors -/

theorem matchesSel_selClass (c : String) (e : Elem) (up : List Elem) :
    matchesSel (selClass c) (e :: up) = (e.tag != "#text" && decide (c ∈ e.classes)) := by
  simp [matchesSel, selClass, matchesComplex, matchAncestors, Compound.holds]

theorem queryAll_selClass (c : String) (anc : List Elem) (d : Dom) :
    queryAll (selClass c) anc d =
      d.nodes.filter (fun e => e.tag != "#text" && decide (c ∈ e.classes)) := by
  induction d generalizing anc with
  | nil => rfl
  | node e k s ihk ihs =>
    simp only [queryAll, matchesSel_selClass, ihk, ihs, Dom.nodes, List.filter_cons,
      List.filter_append]
    split <;> simp

theorem Page.Extends.refl (p : Page) (h : p.Fresh) : p.Extends p :=
  ⟨h, Nat.le_refl _, fun _ _ => rfl⟩

theorem filter_flatMap_same (P : Elem → Bool) (f : Elem → List Elem) (l : List Elem)
    (h : ∀ e, (f e).filter P = [e].filter P) : (l.flatMap f).filter P = l.filter P := by
  induction l with
  | nil => rfl
  | cons a l ih =>
    simp only [List.flatMap_cons, List.filter_append, ih, h a]
    simp [List.filter_cons]
    split <;> simp

/-! ## A node and its children after a mutation -/

theorem Dom.locate_view (anc : List Elem) (d : Dom) (i : Nat) :
    (d.locate anc i).map (fun r => (r.1.head?, r.2))
      = (d.view i).map (fun r => (some r.1, r.2)) := by
  induction d generalizing anc with
  | nil => rfl
  | node e c s ihc ihs =>
    by_cases h : e.nid = i
    · simp [Dom.locate, Dom.view, h]
    · simp only [Dom.locate, Dom.view, h, if_false]
      have h1 := ihc (e :: anc)
      have h2 := ihs anc
      cases hc : c.locate (e :: anc) i with
      | some r =>
        rw [hc] at h1
        cases hv : c.view i with
        | some r2 => rw [hv] at h1; simpa using h1
        | none => rw [hv] at h1; simp at h1
      | none =>
        rw [hc] at h1
        cases hv : c.view i with
        | some r2 => rw [hv] at h1; simp at h1
        | none => simpa using h2

theorem Dom.view_of_locate (anc : List Elem) (d : Dom) (i : Nat) (e : Elem) (up : List Elem)
    (kids : Dom) (h : d.locate anc i = some (e :: up, kids)) : d.view i = some (e, kids) := by
  have := Dom.locate_view anc d i
  rw [h] at this
  cases hv : d.view i with
  | none => rw [hv] at this; simp at this
  | some r =>
    rw [hv] at this
    simp only [Option.map_some', List.head?_cons, Option.some.injEq, Prod.mk.injEq] at this
    obtain ⟨h1, h2⟩ := this
    cases r
    simp_all

theorem Dom.locate_of_view (anc : List Elem) (d : Dom) (i : Nat) (e : Elem) (kids : Dom)
    (h : d.view i = some (e, kids)) : ∃ up, d.locate anc i = some (e :: up, kids) := by
  have := Dom.locate_view anc d i
  rw [h] at this
  cases hl : d.locate anc i with
  | none => rw [hl] at this; simp at this
  | some r =>
    rw [hl] at this
    obtain ⟨chain, k⟩ := r
    simp only [Option.map_some', Option.some.injEq, Prod.mk.injEq] at this
    cases chain with
    | nil => simp at this
    | cons x up =>
      simp only [List.head?_cons, Option.some.injEq] at this
      exact ⟨up, by rw [this.1, this.2]⟩

theorem Dom.view_none_of_locate (anc : List Elem) (d : Dom) (i : Nat)
    (h : d.locate anc i = none) : d.view i = none := by
  have := Dom.locate_view anc d i
  rw [h] at this
  cases hv : d.view i with
  | none => rfl
  | some r => rw [hv] at this; simp at this

theorem Dom.locate_cons (anc : List Elem) (d : Dom) (i : Nat) (chain : List Elem) (kids : Dom)
    (h : d.locate anc i = some (chain, kids)) : ∃ e up, chain = e :: up := by
  induction d generalizing anc with
  | nil => simp [Dom.locate] at h
  | node e c s ihc ihs =>
    by_cases he : e.nid = i
    · simp only [Dom.locate, he, if_true, Option.some.injEq, Prod.mk.injEq] at h
      exact ⟨e, anc, h.1.symm⟩
    · simp only [Dom.locate, he, if_false] at h
      cases hc : c.locate (e :: anc) i with
      | some r =>
        rw [hc] at h
        simp only [Option.some.injEq] at h
        subst h
        exact ihc _ hc
      | none =>
        rw [hc] at h
        exact ihs _ h

theorem Dom.view_spec (d : Dom) (i : Nat) :
    match d.view i with
    | none => d.get? i = none
    | some (e, kids) => d.get? i = some e ∧ ∀ y ∈ kids.nodes, y ∈ d.nodes := by
  have h := Dom.locate_spec [] d i
  cases hl : d.locate [] i with
  | none =>
    rw [hl] at h
    rw [Dom.view_none_of_locate [] d i hl]
    exact h
  | some r =>
    rw [hl] at h
    obtain ⟨x, up, hx, hg, hk⟩ := h
    obtain ⟨chain, kids⟩ := r
    simp only at hx hk
    subst hx
    rw [Dom.view_of_locate [] d i x up kids hl]
    exact ⟨hg, hk⟩

theorem Dom.view_some_nid (d : Dom) (i : Nat) (e : Elem) (kids : Dom)
    (h : d.view i = some (e, kids)) : e.nid = i ∧ e ∈ d.nodes := by
  have := Dom.view_spec d i
  rw [h] at this
  have := Dom.get?_some_mem d i e this.1
  exact ⟨this.2, this.1⟩

theorem Dom.view_none_of_not_mem (d : Dom) (i : Nat) (h : ∀ x ∈ d.nodes, x.nid ≠ i) :
    d.view i = none := by
  cases hv : d.view i with
  | none => rfl
  | some r =>
    have := Dom.view_some_nid d i r.1 r.2 hv
    exact absurd this.1 (h _ this.2)

theorem Dom.descendantsOf_view (d : Dom) (i : Nat) :
    d.descendantsOf i = match d.view i with
      | some r => r.2.nodes
      | none => [] := by
  unfold Dom.descendantsOf
  cases hl : d.locate [] i with
  | none => rw [Dom.view_none_of_locate [] d i hl]
  | some r =>
    obtain ⟨chain, kids⟩ := r
    obtain ⟨x, up, rfl⟩ := Dom.locate_cons [] d i chain kids hl
    rw [Dom.view_of_locate [] d i x up kids hl]

theorem Dom.childrenOf_view (d : Dom) (i : Nat) :
    d.childrenOf i = match d.view i with
      | some r => r.2.roots
      | none => [] := by
  unfold Dom.childrenOf
  cases hl : d.locate [] i with
  | none => rw [Dom.view_none_of_locate [] d i hl]
  | some r =>
    obtain ⟨chain, kids⟩ := r
    obtain ⟨x, up, rfl⟩ := Dom.locate_cons [] d i chain kids hl
    rw [Dom.view_of_locate [] d i x up kids hl]

theorem settled_view [Browser] (kws : List Rule) (d : Dom) (i : Nat) :
    settled kws d i = match d.view i with
      | some r => r.1.processed || (findMatchingKeyword (getElementText r.1 r.2) kws).isNone
      | none => true := by
  unfold settled
  cases hl : d.locate [] i with
  | none => rw [Dom.view_none_of_locate [] d i hl]
  | some r =>
    obtain ⟨chain, kids⟩ := r
    obtain ⟨x, up, rfl⟩ := Dom.locate_cons [] d i chain kids hl
    rw [Dom.view_of_locate [] d i x up kids hl]

theorem Dom.view_wrap (i j : Nat) (w : Elem) (d : Dom) (hw : w.nid ≠ j) :
    (d.wrap i w).view j = (d.view j).map (fun r => (r.1, r.2.wrap i w)) := by
  induction d with
  | nil => rfl
  | node e c s ihc ihs =>
    by_cases hj : e.nid = j
    · subst hj
      by_cases hi : e.nid = i
      · subst hi
        simp [Dom.wrap, Dom.view, hw]
      · simp [Dom.wrap, Dom.view, hi]
    · by_cases hi : e.nid = i
      · simp only [Dom.wrap, Dom.view, hi, hj, hw, if_true, if_false, ihc, ihs]
        have : ¬ i = j := fun h => hj (hi.trans h)
        simp only [this, if_false]
        cases c.view j <;> simp
      · simp only [Dom.wrap, Dom.view, hi, hj, if_false, ihc, ihs]
        cases c.view j <;> simp

theorem Dom.view_modify (i j : Nat) (g : Elem → Elem) (d : Dom)
    (hg : ∀ e, (g e).nid = e.nid) :
    (d.modify i g).view j
      = (d.view j).map (fun r => (if r.1.nid = i then g r.1 else r.1, r.2.modify i g)) := by
  induction d with
  | nil => rfl
  | node e c s ihc ihs =>
    have hn : (if e.nid = i then g e else e).nid = e.nid := by split <;> simp [hg]
    by_cases hj : e.nid = j
    · subst hj
      simp [Dom.modify, Dom.view, hn]
    · simp only [Dom.modify, Dom.view, hn, hj, if_false, ihc, ihs]
      cases c.view j <;> simp

theorem Dom.view_prepend (i j : Nat) (b : Elem) (k : Dom) (d : Dom) (hb : b.nid ≠ j)
    (hk : ∀ x ∈ k.nodes, x.nid ≠ j) :
    (Dom.prepend i b k d).view j
      = (d.view j).map (fun r =>
          (r.1, if r.1.nid = i then Dom.node b k (Dom.prepend i b k r.2)
            else Dom.prepend i b k r.2)) := by
  have hkv : k.view j = none := Dom.view_none_of_not_mem k j hk
  induction d with
  | nil => rfl
  | node e c s ihc ihs =>
    by_cases hj : e.nid = j
    · subst hj
      by_cases hi : e.nid = i
      · simp [Dom.prepend, Dom.view, hi]
      · simp [Dom.prepend, Dom.view, hi]
    · by_cases hi : e.nid = i
      · simp only [Dom.prepend, Dom.view, hi, hb, hkv, if_true, if_false, ihc, ihs]
        have : ¬ i = j := fun h => hj (hi.trans h)
        simp only [this, if_false]
        cases c.view j <;> simp
      · simp only [Dom.prepend, Dom.view, hi, hj, if_false, ihc, ihs]
        cases c.view j <;> simp

/-! ## The text of a forest after a mutation -/

theorem Dom.textContent_wrap (i : Nat) (w : Elem) (d : Dom) (hw : w.tag ≠ "#text") :
    (d.wrap i w).textContent = d.textContent := by
  induction d with
  | nil => rfl
  | node e c s ihc ihs =>
    by_cases hi : e.nid = i
    · simp [Dom.wrap, Dom.textContent, hi, hw, ihc, ihs, String.append_assoc]
    · simp [Dom.wrap, Dom.textContent, hi, ihc, ihs]

theorem Dom.textContent_modify (i : Nat) (g : Elem → Elem) (d : Dom)
    (hg : ∀ e, (g e).tag = e.tag ∧ (g e).text = e.text) :
    (d.modify i g).textContent = d.textContent := by
  induction d with
  | nil => rfl
  | node e c s ihc ihs =>
    by_cases hi : e.nid = i
    · simp [Dom.modify, Dom.textContent, hi, hg, ihc, ihs]
    · simp [Dom.modify, Dom.textContent, hi, ihc, ihs]

/-! ## The nodes outside the controls after a mutation -/

theorem flatMap_ite_nil {α β : Type} (c : Prop) [Decidable c] (l : List α) (f : α → List β) :
    (if c then [] else l).flatMap f = if c then [] else l.flatMap f := by
  split <;> simp

theorem map_ite_nil {α β : Type} (c : Prop) [Decidable c] (l : List α) (f : α → β) :
    (if c then [] else l).map f = if c then [] else l.map f := by
  split <;> simp

theorem Dom.outer_wrap (i : Nat) (w : Elem) (d : Dom) (hw : w.isControl = false) :
    (d.wrap i w).outer = d.outer.flatMap (fun e => if e.nid = i then [w, e] else [e]) := by
  induction d with
  | nil => rfl
  | node e c s ihc ihs =>
    by_cases hi : e.nid = i
    · simp only [Dom.wrap, hi, if_true, Dom.outer, hw, Bool.false_eq_true, if_false, ihc, ihs,
        List.flatMap_cons, List.flatMap_append, flatMap_ite_nil]
      simp
    · simp only [Dom.wrap, hi, if_false, Dom.outer, ihc, ihs, List.flatMap_cons,
        List.flatMap_append, flatMap_ite_nil]
      simp

theorem Dom.outer_modify (i : Nat) (g : Elem → Elem) (d : Dom)
    (hg : ∀ e, (g e).isControl = e.isControl) :
    (d.modify i g).outer = d.outer.map (fun e => if e.nid = i then g e else e) := by
  induction d with
  | nil => rfl
  | node e c s ihc ihs =>
    have hc : (if e.nid = i then g e else e).isControl = e.isControl := by split <;> simp [hg]
    simp only [Dom.modify, Dom.outer, hc, ihc, ihs, List.map_cons, List.map_append, map_ite_nil]

theorem Dom.outer_prepend (i : Nat) (b : Elem) (k : Dom) (d : Dom) (hb : b.isControl = true) :
    (Dom.prepend i b k d).outer
      = d.outer.flatMap (fun e => if e.nid = i ∧ e.isControl = false then [e, b] else [e]) := by
  induction d with
  | nil => rfl
  | node e c s ihc ihs =>
    by_cases hi : e.nid = i
    · by_cases hc : e.isControl = true
      · simp [Dom.prepend, hi, Dom.outer, hc, ihs]
      · simp only [Bool.not_eq_true] at hc
        simp [Dom.prepend, hi, Dom.outer, hc, hb, ihc, ihs]
    · simp only [Dom.prepend, hi, if_false, Dom.outer, ihc, ihs, List.flatMap_cons,
        List.flatMap_append, flatMap_ite_nil, false_and]
      simp

theorem Dom.outer_subset_nodes (d : Dom) : ∀ x ∈ d.outer, x ∈ d.nodes := by
  induction d with
  | nil => simp [Dom.outer]
  | node e c s ihc ihs =>
    intro x hx
    simp only [Dom.outer, List.mem_cons, List.mem_append] at hx
    rcases hx with rfl | hx | hx
    · simp [Dom.nodes]
    · split at hx
      · simp at hx
      · simp [Dom.nodes, ihc x hx]
    · simp [Dom.nodes, ihs x hx]

/-! ## Node lists of a selector after a mutation -/

theorem Compound.holds_congr (c : Compound) (e x : Elem) (ht : e.tag = x.tag)
    (hc : e.classes = x.classes) (ha : e.attrs = x.attrs) : c.holds e = c.holds x := by
  have hg : ∀ n, e.getAttribute n = x.getAttribute n := by
    intro n
    simp only [Elem.getAttribute, ha]
  have ht2 : ∀ t : AttrTest, t.holds e = t.holds x := by
    intro t
    cases t <;> simp only [AttrTest.holds, hg]
  simp only [Compound.holds, ht, hc, hg, ht2]

theorem matchAncestors_nil (up : List Elem) : matchAncestors [] up = true := by
  cases up <;> rfl

theorem matchAncestors_cons_unseen (cs : List Compound) (a : Elem) (up : List Elem)
    (h : ∀ c ∈ cs, c.holds a = false) : matchAncestors cs (a :: up) = matchAncestors cs up := by
  cases cs with
  | nil => simp [matchAncestors_nil]
  | cons c rest => simp [matchAncestors, h c (by simp)]

theorem seenBy_of_holds (sel : Selector) (cs : List Compound) (c : Compound) (e : Elem)
    (hcs : cs ∈ sel) (hc : c ∈ cs) (h : c.holds e = true) : seenBy sel e = true := by
  simp only [seenBy, List.any_eq_true]
  exact ⟨cs, hcs, c, hc, h⟩

theorem matchAncestors_filter (sel : Selector) (up : List Elem) :
    ∀ cs : List Compound, (∀ c ∈ cs, ∀ e, c.holds e = true → seenBy sel e = true) →
      matchAncestors cs (up.filter (seenBy sel)) = matchAncestors cs up := by
  induction up with
  | nil => intro cs _; rfl
  | cons a up ih =>
    intro cs hcs
    by_cases ha : seenBy sel a = true
    · simp only [List.filter_cons, ha, if_true]
      cases cs with
      | nil => simp [matchAncestors_nil]
      | cons c rest =>
        simp only [matchAncestors]
        rw [ih rest (fun x hx => hcs x (by simp [hx])), ih (c :: rest) hcs]
    · have ha2 : seenBy sel a = false := by simpa using ha
      simp only [List.filter_cons, ha2, Bool.false_eq_true, if_false]
      rw [ih cs hcs, matchAncestors_cons_unseen]
      intro c hc
      cases h : c.holds a with
      | false => rfl
      | true => exact absurd (hcs c hc a h) ha

theorem matchesComplex_filter (sel : Selector) (cs : List Compound) (hcs : cs ∈ sel) (e : Elem)
    (up anc : List Elem) (h : up.filter (seenBy sel) = anc.filter (seenBy sel)) :
    matchesComplex cs (e :: up) = matchesComplex cs (e :: anc) := by
  unfold matchesComplex
  cases hr : cs.reverse with
  | nil => rfl
  | cons c outer =>
    have hsub : ∀ x ∈ outer, ∀ y, x.holds y = true → seenBy sel y = true := by
      intro x hx y hy
      apply seenBy_of_holds sel cs x y hcs _ hy
      have : x ∈ cs.reverse := by rw [hr]; simp [hx]
      simpa using this
    simp only
    rw [← matchAncestors_filter sel up outer hsub, ← matchAncestors_filter sel anc outer hsub, h]

theorem matchesSel_filter (sel : Selector) (e : Elem) (up anc : List Elem)
    (h : up.filter (seenBy sel) = anc.filter (seenBy sel)) :
    matchesSel sel (e :: up) = matchesSel sel (e :: anc) := by
  rw [Bool.eq_iff_iff]
  simp only [matchesSel, List.any_eq_true]
  constructor
  · rintro ⟨cs, hcs, hm⟩
    exact ⟨cs, hcs, by rw [← matchesComplex_filter sel cs hcs e up anc h]; exact hm⟩
  · rintro ⟨cs, hcs, hm⟩
    exact ⟨cs, hcs, by rw [matchesComplex_filter sel cs hcs e up anc h]; exact hm⟩

theorem matchesSel_unseen (sel : Selector) (e : Elem) (up : List Elem)
    (h : seenBy sel e = false) : matchesSel sel (e :: up) = false := by
  cases hm : matchesSel sel (e :: up) with
  | false => rfl
  | true =>
    simp only [matchesSel, List.any_eq_true] at hm
    obtain ⟨cs, hcs, hc⟩ := hm
    unfold matchesComplex at hc
    cases hr : cs.reverse with
    | nil => rw [hr] at hc; simp at hc
    | cons c outer =>
      rw [hr] at hc
      simp only [Bool.and_eq_true] at hc
      have hmem : c ∈ cs := by
        have : c ∈ cs.reverse := by rw [hr]; simp
        simpa using this
      have := seenBy_of_holds sel cs c e hcs hmem hc.1
      rw [h] at this
      cases this

theorem queryAll_wrap (sel : Selector) (i : Nat) (w : Elem) (hw : seenBy sel w = false)
    (d : Dom) :
    ∀ up anc : List Elem, up.filter (seenBy sel) = anc.filter (seenBy sel) →
      queryAll sel up (d.wrap i w) = queryAll sel anc d := by
  induction d with
  | nil => intro _ _ _; rfl
  | node e c s ihc ihs =>
    intro up anc h
    have h1 : (e :: w :: up).filter (seenBy sel) = (e :: anc).filter (seenBy sel) := by
      simp only [List.filter_cons, hw, Bool.false_eq_true, if_false, h]
    have h2 : (w :: up).filter (seenBy sel) = anc.filter (seenBy sel) := by
      simp only [List.filter_cons, hw, Bool.false_eq_true, if_false, h]
    by_cases hi : e.nid = i
    · simp only [Dom.wrap, hi, if_true, queryAll, matchesSel_unseen sel w up hw,
        Bool.false_eq_true, if_false, List.nil_append, List.append_nil]
      rw [matchesSel_filter sel e (w :: up) anc h2, ihc (e :: w :: up) (e :: anc) h1,
        ihs up anc h, List.append_assoc]
    · simp only [Dom.wrap, hi, if_false, queryAll]
      rw [matchesSel_filter sel e up anc h, ihs up anc h,
        ihc (e :: up) (e :: anc) (by simp only [List.filter_cons, h])]

theorem matchAncestors_map (m : Elem → Elem) (up : List Elem) :
    ∀ cs : List Compound, (∀ c ∈ cs, ∀ e, c.holds (m e) = c.holds e) →
      matchAncestors cs (up.map m) = matchAncestors cs up := by
  induction up with
  | nil => intro cs _; rfl
  | cons a up ih =>
    intro cs hcs
    cases cs with
    | nil => simp [matchAncestors_nil]
    | cons c rest =>
      simp only [List.map_cons, matchAncestors]
      rw [hcs c (by simp), ih rest (fun x hx => hcs x (by simp [hx])), ih (c :: rest) hcs]

theorem matchesSel_map (sel : Selector) (m : Elem → Elem)
    (hm : ∀ cs ∈ sel, ∀ c ∈ cs, ∀ e, c.holds (m e) = c.holds e) (e : Elem) (up : List Elem) :
    matchesSel sel (m e :: up.map m) = matchesSel sel (e :: up) := by
  have key : ∀ cs ∈ sel, matchesComplex cs (m e :: up.map m) = matchesComplex cs (e :: up) := by
    intro cs hcs
    unfold matchesComplex
    cases hr : cs.reverse with
    | nil => rfl
    | cons c outer =>
      have hc : c ∈ cs := by
        have : c ∈ cs.reverse := by rw [hr]; simp
        simpa using this
      have hout : ∀ x ∈ outer, ∀ y, x.holds (m y) = x.holds y := by
        intro x hx y
        apply hm cs hcs x _ y
        have : x ∈ cs.reverse := by rw [hr]; simp [hx]
        simpa using this
      simp only
      rw [hm cs hcs c hc e, matchAncestors_map m up outer hout]
  rw [Bool.eq_iff_iff]
  simp only [matchesSel, List.any_eq_true]
  constructor
  · rintro ⟨cs, hcs, h⟩
    exact ⟨cs, hcs, by rw [← key cs hcs]; exact h⟩
  · rintro ⟨cs, hcs, h⟩
    exact ⟨cs, hcs, by rw [key cs hcs]; exact h⟩

theorem queryAll_modify (sel : Selector) (i : Nat) (g : Elem → Elem)
    (hg : ∀ cs ∈ sel, ∀ c ∈ cs, ∀ e, c.holds (g e) = c.holds e) (d : Dom) :
    ∀ anc : List Elem,
      queryAll sel (anc.map (fun e => if e.nid = i then g e else e)) (d.modify i g)
        = (queryAll sel anc d).map (fun e => if e.nid = i then g e else e) := by
  have hm : ∀ cs ∈ sel, ∀ c ∈ cs, ∀ e,
      c.holds ((fun e : Elem => if e.nid = i then g e else e) e) = c.holds e := by
    intro cs hcs c hc e
    dsimp only
    split
    · exact hg cs hcs c hc e
    · rfl
  induction d with
  | nil => intro _; rfl
  | node e c s ihc ihs =>
    intro anc
    simp only [Dom.modify, queryAll]
    have h1 := matchesSel_map sel _ hm e anc
    rw [h1, ihs anc]
    have h2 := ihc (e :: anc)
    simp only [List.map_cons] at h2
    rw [h2]
    split <;> simp

/-! ## Inert selectors -/

theorem mem_classListAdd (x cls : String) (l : List String) :
    x ∈ classListAdd cls l ↔ x = cls ∨ x ∈ l := by
  unfold classListAdd
  split
  · constructor
    · exact Or.inr
    · rintro (rfl | h)
      · assumption
      · exact h
  · simp [or_comm]

theorem all_congr_mem {α : Type} (l : List α) (f g : α → Bool) (h : ∀ x ∈ l, f x = g x) :
    l.all f = l.all g := by
  induction l with
  | nil => rfl
  | cons a l ih =>
    simp only [List.all_cons, h a (by simp), ih (fun x hx => h x (by simp [hx]))]

theorem find?_setAttr_ne (name value n : String) (h : n ≠ name)
    (attrs : List (String × String)) :
    (setAttr name value attrs).find? (fun a => a.1 == n) = attrs.find? (fun a => a.1 == n) := by
  have hne : (name == n) = false := by simpa using fun hh => h hh.symm
  induction attrs with
  | nil => simp [setAttr, List.find?, hne]
  | cons a rest ih =>
    by_cases ha : (a.1 == name) = true
    · have han : a.1 = name := by simpa using ha
      have h2 : (a.1 == n) = false := by rw [han]; exact hne
      simp [setAttr, ha, List.find?, hne, h2]
    · simp only [setAttr, ha, Bool.false_eq_true, if_false, List.find?_cons, ih]

theorem getAttribute_markProcessed (e : Elem) (n : String)
    (h : n ≠ "data-content-guardian-processed") :
    (markProcessed e).getAttribute n = e.getAttribute n := by
  simp only [Elem.getAttribute, markProcessed, find?_setAttr_ne _ _ n h]

theorem Compound.inert_wrapper (c : Compound) (h : c.inert = true) (n : Nat) (x : Elem) :
    c.holds (wrapperElem n x) = false := by
  simp only [Compound.inert, Bool.and_eq_true, Bool.not_eq_true'] at h
  rw [← h.1.1.1.1]
  exact Compound.holds_congr c _ _ rfl rfl rfl

theorem Compound.inert_unblur (c : Compound) (h : c.inert = true) (n : Nat) :
    c.holds (unblurElem n) = false := by
  simp only [Compound.inert, Bool.and_eq_true, Bool.not_eq_true'] at h
  rw [← h.1.1.1.2]
  exact Compound.holds_congr c _ _ rfl rfl rfl

theorem Compound.inert_flag (c : Compound) (h : c.inert = true) (n : Nat) :
    c.holds (flagElem n) = false := by
  simp only [Compound.inert, Bool.and_eq_true, Bool.not_eq_true'] at h
  rw [← h.1.1.2]
  exact Compound.holds_congr c _ _ rfl rfl rfl

theorem Compound.inert_addClass (c : Compound) (h : c.inert = true) (cls : String)
    (hcls : cls ∈ presentationClasses) (e : Elem) :
    c.holds { e with classes := classListAdd cls e.classes } = c.holds e := by
  simp only [Compound.inert, Bool.and_eq_true, List.all_eq_true, decide_eq_true_eq] at h
  have hk := h.1.2
  have hall : c.classes.all (fun k => decide (k ∈ classListAdd cls e.classes))
      = c.classes.all (fun k => decide (k ∈ e.classes)) := by
    apply all_congr_mem
    intro k hkm
    have : k ≠ cls := fun hh => hk k hkm (hh ▸ hcls)
    simp [mem_classListAdd, this]
  have hg : ∀ n, ({ e with classes := classListAdd cls e.classes } : Elem).getAttribute n
      = e.getAttribute n := fun _ => rfl
  have ht : ∀ t : AttrTest, t.holds { e with classes := classListAdd cls e.classes }
      = t.holds e := by
    intro t
    cases t <;> simp only [AttrTest.holds, hg]
  simp only [Compound.holds, hg, ht]
  rw [show (List.all c.classes fun k => decide (k ∈ classListAdd cls e.classes))
    = List.all c.classes fun k => decide (k ∈ e.classes) from hall]

theorem Compound.inert_mark (c : Compound) (h : c.inert = true) (e : Elem) :
    c.holds (markProcessed e) = c.holds e := by
  simp only [Compound.inert, Bool.and_eq_true, List.all_eq_true] at h
  have ha := h.2
  have hid : (markProcessed e).getAttribute "id" = e.getAttribute "id" :=
    getAttribute_markProcessed e "id" (by decide)
  have hall : c.attrs.all (fun t => t.holds (markProcessed e))
      = c.attrs.all (fun t => t.holds e) := by
    apply all_congr_mem
    intro t ht
    have := ha t ht
    cases t with
    | has n =>
      simp only [bne_iff_ne, ne_eq] at this
      simp only [AttrTest.holds, getAttribute_markProcessed e n this]
    | eq n v =>
      simp only [bne_iff_ne, ne_eq] at this
      simp only [AttrTest.holds, getAttribute_markProcessed e n this]
    | contains n v =>
      simp only [bne_iff_ne, ne_eq] at this
      simp only [AttrTest.holds, getAttribute_markProcessed e n this]
  simp only [Compound.holds, hid, hall]
  rfl

theorem inertSel_seenBy (sel : Selector) (h : inertSel sel = true) (e : Elem)
    (he : ∀ c : Compound, c.inert = true → c.holds e = false) : seenBy sel e = false := by
  rw [Bool.eq_false_iff]
  intro hs
  simp only [seenBy, List.any_eq_true] at hs
  obtain ⟨cs, hcs, c, hc, hh⟩ := hs
  simp only [inertSel, List.all_eq_true] at h
  rw [he c (h cs hcs c hc)] at hh
  cases hh

theorem inertSel_getPlatformSelectors (hostname : String) :
    ∀ sel ∈ getPlatformSelectors hostname, inertSel sel = true := by
  unfold getPlatformSelectors
  split
  · decide
  · split
    · decide
    · split
      · decide
      · split
        · decide
        · split
          · decide
          · split
            · decide
            · decide

/-! ## Elementary changes and runs -/

theorem has_of_modify (d : Dom) (i j : Nat) (g : Elem → Elem) (hg : ∀ e, (g e).nid = e.nid)
    (h : ∃ x ∈ d.nodes, x.nid = j) : ∃ x ∈ (d.modify i g).nodes, x.nid = j := by
  obtain ⟨x, hx, hxj⟩ := h
  refine ⟨(fun e : Elem => if e.nid = i then g e else e) x, ?_, ?_⟩
  · rw [Dom.nodes_modify]
    exact List.mem_map_of_mem _ hx
  · dsimp only
    split <;> simp [hg, hxj]

theorem has_of_wrap (d : Dom) (i j : Nat) (w : Elem) (h : ∃ x ∈ d.nodes, x.nid = j) :
    ∃ x ∈ (d.wrap i w).nodes, x.nid = j := by
  obtain ⟨x, hx, hxj⟩ := h
  refine ⟨x, ?_, hxj⟩
  rw [Dom.nodes_wrap, List.mem_flatMap]
  exact ⟨x, hx, by split <;> simp⟩

theorem has_of_prepend (d : Dom) (i j : Nat) (b : Elem) (k : Dom)
    (h : ∃ x ∈ d.nodes, x.nid = j) : ∃ x ∈ (Dom.prepend i b k d).nodes, x.nid = j := by
  obtain ⟨x, hx, hxj⟩ := h
  refine ⟨x, ?_, hxj⟩
  rw [Dom.nodes_prepend, List.mem_flatMap]
  exact ⟨x, hx, by split <;> simp⟩

theorem find?_setAttr (name value : String) (attrs : List (String × String)) :
    (setAttr name value attrs).find? (fun a => a.1 == name) = some (name, value) := by
  induction attrs with
  | nil => simp [setAttr]
  | cons a rest ih =>
    by_cases h : (a.1 == name) = true
    · simp [setAttr, h]
    · simp only [setAttr, h, Bool.false_eq_true, if_false, List.find?_cons, ih]

theorem processed_markProcessed (e : Elem) : (markProcessed e).processed = true := by
  simp [Elem.processed, Elem.getAttribute, markProcessed, find?_setAttr]

theorem plainText_append (a b : String) : plainText (a ++ b) = (plainText a && plainText b) := by
  simp [plainText, String.data_append, List.all_append]

theorem append_ne_empty (s t : String) (h : s ≠ "") : s ++ t ≠ "" := by
  intro hst
  apply h
  have := congrArg String.data hst
  simp only [String.data_append] at this
  have h2 : s.data = [] := (List.append_eq_nil.mp this).1
  exact String.ext h2

theorem plainText_flagLabel (kw : Rule) (h : plainText kw.keyword = true) :
    plainText (flagLabel kw) = true ∧ flagLabel kw ≠ "" := by
  constructor
  · simp only [flagLabel, plainText_append, h, Bool.and_true, Bool.and_eq_true]
    exact ⟨by decide, by decide⟩
  · simp only [flagLabel, String.append_assoc]
    exact append_ne_empty _ _ (by decide)

theorem Run.trans [Browser] {p0 p1 p2 : Page} {ms1 ms2 : List Mutation}
    (h1 : Run p0 p1 ms1) (h2 : Run p1 p2 ms2) : Run p0 p2 (ms1 ++ ms2) := by
  induction h2 with
  | nil => simpa using h1
  | snoc p ms m _ hv ih =>
    rw [← List.append_assoc]
    exact Run.snoc p _ m ih hv

theorem Run.single [Browser] (p : Page) (m : Mutation) (hv : m.Valid p) :
    Run p (m.apply p) [m] := by
  have := Run.snoc p [] m Run.nil hv
  simpa using this

theorem Mutation.touch_nid (m : Mutation) (e : Elem) : (m.touch e).nid = e.nid := by
  cases m <;> simp only [Mutation.touch]
  · split <;> rfl
  · split <;> rfl

theorem Mutation.touch_processed (m : Mutation) (e : Elem) (h : e.processed = true) :
    (m.touch e).processed = true := by
  cases m <;> simp only [Mutation.touch]
  all_goals first
    | exact h
    | (split
       · first
         | exact h
         | exact processed_markProcessed e
       · exact h)

theorem Mutation.touch_of_ne (m : Mutation) (e : Elem)
    (h1 : ∀ cls, m ≠ .addClass e.nid cls) (h2 : m ≠ .mark e.nid) : m.touch e = e := by
  cases m with
  | addClass cid cls =>
    simp only [Mutation.touch]
    split
    · next h => exact absurd (by rw [h]) (h1 cls)
    · rfl
  | mark el =>
    simp only [Mutation.touch]
    split
    · next h => exact absurd (by rw [h]) h2
    · rfl
  | wrap c => rfl
  | unblur w kw => rfl
  | flag w kw => rfl

theorem Mutation.touch_classes (m : Mutation) (e : Elem)
    (h1 : ∀ cls, m ≠ .addClass e.nid cls) : (m.touch e).classes = e.classes := by
  cases m with
  | addClass cid cls =>
    simp only [Mutation.touch]
    split
    · next h => exact absurd (by rw [h]) (h1 cls)
    · rfl
  | mark el =>
    simp only [Mutation.touch]
    split <;> rfl
  | wrap c => rfl
  | unblur w kw => rfl
  | flag w kw => rfl

theorem Mutation.fresh_apply [Browser] (p : Page) (m : Mutation) (h : p.Fresh) :
    (m.apply p).Fresh ∧ p.next ≤ (m.apply p).next := by
  cases m with
  | wrap c =>
    refine ⟨?_, Nat.le_succ _⟩
    apply Dom.forall_nodes_wrap (fun x => x.nid < p.next + 1)
    · simp [wrapperElem]
    · intro y hy
      exact Nat.lt_succ_of_lt (h y hy)
  | addClass cid cls =>
    exact ⟨Dom.forall_nodes_modify (fun x => x.nid < p.next) _ _ _ (fun _ hx => hx) h,
      Nat.le_refl _⟩
  | mark el =>
    exact ⟨Dom.forall_nodes_modify (fun x => x.nid < p.next) _ _ _ (fun _ hx => hx) h,
      Nat.le_refl _⟩
  | unblur w kw =>
    have hf := Browser.parseFragment_fresh (unblurLabel kw) (p.next + 1)
    refine ⟨?_, by simp only [Mutation.apply]; omega⟩
    apply Dom.forall_nodes_prepend
      (fun y => y.nid < (parseFragment (unblurLabel kw) (p.next + 1)).2)
    · simp only [unblurElem]
      omega
    · intro y hy
      exact (hf.2 y hy).2
    · intro y hy
      have := h y hy
      omega
  | flag w kw =>
    have hf := Browser.parseFragment_fresh (flagLabel kw) (p.next + 1)
    refine ⟨?_, by simp only [Mutation.apply]; omega⟩
    apply Dom.forall_nodes_prepend
      (fun y => y.nid < (parseFragment (flagLabel kw) (p.next + 1)).2)
    · simp only [flagElem]
      omega
    · intro y hy
      exact (hf.2 y hy).2
    · intro y hy
      have := h y hy
      omega

theorem Mutation.has_apply [Browser] (p : Page) (m : Mutation) (j : Nat)
    (h : ∃ x ∈ p.dom.nodes, x.nid = j) : ∃ x ∈ (m.apply p).dom.nodes, x.nid = j := by
  cases m with
  | wrap c => exact has_of_wrap _ _ _ _ h
  | addClass cid cls => exact has_of_modify _ _ _ _ (fun _ => rfl) h
  | mark el => exact has_of_modify _ _ _ _ (fun _ => rfl) h
  | unblur w kw => exact has_of_prepend _ _ _ _ _ h
  | flag w kw => exact has_of_prepend _ _ _ _ _ h

theorem Mutation.get?_apply [Browser] (p : Page) (m : Mutation) (j : Nat)
    (hj : j < p.next) : (m.apply p).dom.get? j = (p.dom.get? j).map m.touch := by
  cases m with
  | wrap c =>
    simp only [Mutation.apply]
    rw [Dom.get?_wrap _ _ _ _ (by simp only [wrapperElem]; omega)]
    cases p.dom.get? j <;> rfl
  | addClass cid cls =>
    simp only [Mutation.apply, Page.addClass]
    rw [Dom.get?_modify cid j
      (fun e : Elem => ({ e with classes := classListAdd cls e.classes } : Elem)) p.dom
      (fun _ => rfl)]
    rfl
  | mark el =>
    simp only [Mutation.apply]
    rw [Dom.get?_modify el j markProcessed p.dom (fun _ => rfl)]
    rfl
  | unblur w kw =>
    have hf := Browser.parseFragment_fresh (unblurLabel kw) (p.next + 1)
    simp only [Mutation.apply]
    rw [Dom.get?_prepend _ _ _ _ _ (by simp only [unblurElem]; omega)
      (fun x hx => by have := (hf.2 x hx).1; omega)]
    cases p.dom.get? j <;> rfl
  | flag w kw =>
    have hf := Browser.parseFragment_fresh (flagLabel kw) (p.next + 1)
    simp only [Mutation.apply]
    rw [Dom.get?_prepend _ _ _ _ _ (by simp only [flagElem]; omega)
      (fun x hx => by have := (hf.2 x hx).1; omega)]
    cases p.dom.get? j <;> rfl

theorem Run.fresh [Browser] {p0 p : Page} {ms : List Mutation} (hr : Run p0 p ms)
    (h : p0.Fresh) : p.Fresh ∧ p0.next ≤ p.next := by
  induction hr with
  | nil => exact ⟨h, Nat.le_refl _⟩
  | snoc p ms m _ _ ih =>
    have := Mutation.fresh_apply p m ih.1
    exact ⟨this.1, Nat.le_trans ih.2 this.2⟩

theorem Run.has [Browser] {p0 p : Page} {ms : List Mutation} (hr : Run p0 p ms) (j : Nat)
    (h : ∃ x ∈ p0.dom.nodes, x.nid = j) : ∃ x ∈ p.dom.nodes, x.nid = j := by
  induction hr with
  | nil => exact h
  | snoc p ms m _ _ ih => exact Mutation.has_apply p m j ih

theorem Run.get? [Browser] {p0 p : Page} {ms : List Mutation} (hr : Run p0 p ms)
    (h : p0.Fresh) (j : Nat) (hj : j < p0.next) :
    p.dom.get? j = (p0.dom.get? j).map (fun e => ms.foldl (fun x m => m.touch x) e) := by
  induction hr with
  | nil => cases p0.dom.get? j <;> rfl
  | snoc p ms m hr _ ih =>
    have hf := hr.fresh h
    rw [Mutation.get?_apply p m j (by omega), ih]
    cases p0.dom.get? j with
    | none => rfl
    | some e => simp [List.foldl_append]

theorem foldl_touch_processed (ms : List Mutation) (e : Elem) (h : e.processed = true) :
    (ms.foldl (fun x m => m.touch x) e).processed = true := by
  induction ms generalizing e with
  | nil => exact h
  | cons m ms ih =>
    rw [List.foldl_cons]
    exact ih _ (Mutation.touch_processed m e h)

theorem foldl_touch_of_ne (ms : List Mutation) (e : Elem)
    (h1 : ∀ cls, Mutation.addClass e.nid cls ∉ ms) (h2 : Mutation.mark e.nid ∉ ms) :
    ms.foldl (fun x m => m.touch x) e = e := by
  induction ms with
  | nil => rfl
  | cons m ms ih =>
    rw [List.foldl_cons, Mutation.touch_of_ne m e
      (fun cls hm => h1 cls (by simp [hm])) (fun hm => h2 (by simp [hm]))]
    exact ih (fun cls hm => h1 cls (by simp [hm])) (fun hm => h2 (by simp [hm]))

theorem foldl_touch_classes (ms : List Mutation) (e : Elem)
    (h1 : ∀ cls, Mutation.addClass e.nid cls ∉ ms) :
    (ms.foldl (fun x m => m.touch x) e).classes = e.classes := by
  induction ms generalizing e with
  | nil => rfl
  | cons m ms ih =>
    rw [List.foldl_cons, ih]
    · exact Mutation.touch_classes m e (fun cls hm => h1 cls (by simp [hm]))
    · intro cls hm
      rw [Mutation.touch_nid] at hm
      exact h1 cls (by simp [hm])

theorem Marked.of_get? (p : Page) (el : Nat) (e : Elem) (h : p.dom.get? el = some e)
    (hp : e.processed = true) : Marked p el := by
  simp [Marked, h, hp]

theorem Marked.lt_next (p : Page) (el : Nat) (hfresh : p.Fresh) (h : Marked p el) :
    el < p.next := by
  unfold Marked at h
  cases hg : p.dom.get? el with
  | none => simp [hg] at h
  | some e =>
    have := Dom.get?_some_mem _ _ _ hg
    have := hfresh e this.1
    omega

theorem Run.marked [Browser] {p0 p : Page} {ms : List Mutation} (hr : Run p0 p ms)
    (h : p0.Fresh) (el : Nat) (hm : Marked p0 el) : Marked p el := by
  have hlt := Marked.lt_next p0 el h hm
  unfold Marked at hm ⊢
  rw [hr.get? h el hlt]
  cases hg : p0.dom.get? el with
  | none => simp [hg] at hm
  | some e =>
    simp only [hg, Option.map_some', Option.some.injEq] at hm ⊢
    exact foldl_touch_processed ms e hm

/-! ## Presentation classes and controls along a run -/

theorem Dom.roots_modify (i : Nat) (g : Elem → Elem) (d : Dom) :
    (d.modify i g).roots = d.roots.map (fun e => if e.nid = i then g e else e) := by
  induction d with
  | nil => rfl
  | node e c s _ ihs => simp [Dom.modify, Dom.roots, ihs]

theorem Dom.roots_wrap (i : Nat) (w : Elem) (d : Dom) :
    (d.wrap i w).roots = d.roots.map (fun e => if e.nid = i then w else e) := by
  induction d with
  | nil => rfl
  | node e c s _ ihs =>
    by_cases h : e.nid = i <;> simp [Dom.wrap, Dom.roots, ihs, h]

theorem Dom.roots_prepend (i : Nat) (b : Elem) (k : Dom) (d : Dom) :
    (Dom.prepend i b k d).roots = d.roots := by
  induction d with
  | nil => rfl
  | node e c s _ ihs =>
    by_cases h : e.nid = i <;> simp [Dom.prepend, Dom.roots, ihs, h]

theorem Dom.roots_subset_nodes (d : Dom) : ∀ x ∈ d.roots, x ∈ d.nodes := by
  induction d with
  | nil => simp [Dom.roots]
  | node e c s _ ihs =>
    intro x hx
    simp only [Dom.roots, List.mem_cons] at hx
    rcases hx with rfl | hx
    · simp [Dom.nodes]
    · simp [Dom.nodes, ihs x hx]

theorem isControl_wrapperElem (n : Nat) (c : Elem) : (wrapperElem n c).isControl = false := by
  simp [wrapperElem, Elem.isControl, Elem.isUnblur, Elem.isFlag]

theorem isControl_unblurElem (n : Nat) : (unblurElem n).isControl = true := by
  simp [unblurElem, Elem.isControl, Elem.isUnblur]

theorem isControl_flagElem (n : Nat) : (flagElem n).isControl = true := by
  simp [flagElem, Elem.isControl, Elem.isFlag]

theorem isUnblur_addClass (cls : String) (hcls : cls ∈ presentationClasses) (e : Elem) :
    ({ e with classes := classListAdd cls e.classes } : Elem).isUnblur = e.isUnblur := by
  have : "content-guardian-unblur" ≠ cls := by
    intro h
    rw [← h] at hcls
    simp [presentationClasses] at hcls
  simp [Elem.isUnblur, mem_classListAdd, this]

theorem isFlag_addClass (cls : String) (hcls : cls ∈ presentationClasses) (e : Elem) :
    ({ e with classes := classListAdd cls e.classes } : Elem).isFlag = e.isFlag := by
  have : "content-guardian-flag" ≠ cls := by
    intro h
    rw [← h] at hcls
    simp [presentationClasses] at hcls
  simp [Elem.isFlag, mem_classListAdd, this]

theorem isControl_addClass (cls : String) (hcls : cls ∈ presentationClasses) (e : Elem) :
    ({ e with classes := classListAdd cls e.classes } : Elem).isControl = e.isControl := by
  simp only [Elem.isControl, isUnblur_addClass cls hcls, isFlag_addClass cls hcls]

theorem isControl_markProcessed (e : Elem) : (markProcessed e).isControl = e.isControl := rfl

theorem not_mem_of_presentation_nil (e : Elem) (h : e.presentation = []) (cls : String)
    (hcls : cls ∈ presentationClasses) : cls ∉ e.classes := by
  simp only [Elem.presentation, List.filter_eq_nil_iff] at h
  simpa using h cls hcls

theorem Run.outer_classes [Browser] {p0 p : Page} {ms : List Mutation} (hr : Run p0 p ms)
    (hfresh : p0.Fresh) (hun : ∀ e ∈ p0.dom.outer, e.presentation = []) :
    (∀ cid cls, Mutation.addClass cid cls ∈ ms → cid < p.next) ∧
    ∀ e ∈ p.dom.outer, ∀ cls ∈ presentationClasses,
      (cls ∈ e.classes ↔ Mutation.addClass e.nid cls ∈ ms) := by
  induction hr with
  | nil =>
    refine ⟨by simp, ?_⟩
    intro e he cls hcls
    simp [not_mem_of_presentation_nil e (hun e he) cls hcls]
  | snoc p ms m hr hv ih =>
    have hf := hr.fresh hfresh
    have hf2 := Mutation.fresh_apply p m hf.1
    have part1 : ∀ cid cls, Mutation.addClass cid cls ∈ ms ++ [m] → cid < (m.apply p).next := by
      intro cid cls hmem
      rcases List.mem_append.mp hmem with h | h
      · have := ih.1 cid cls h
        omega
      · simp only [List.mem_singleton] at h
        subst h
        obtain ⟨⟨x, hx, hxc⟩, _⟩ := hv
        have := hf.1 x hx
        omega
    refine ⟨part1, ?_⟩
    have old : ∀ y ∈ p.dom.outer, ∀ cls ∈ presentationClasses,
        (∀ c0, m ≠ .addClass y.nid c0) →
        (cls ∈ y.classes ↔ Mutation.addClass y.nid cls ∈ ms ++ [m]) := by
      intro y hy cls hcls hne
      rw [ih.2 y hy cls hcls]
      simp only [List.mem_append, List.mem_singleton]
      constructor
      · exact Or.inl
      · rintro (h | h)
        · exact h
        · exact absurd h.symm (hne cls)
    have fresh_none : ∀ cls, Mutation.addClass p.next cls ∉ ms := by
      intro cls h
      have := ih.1 _ _ h
      omega
    intro e he cls hcls
    cases m with
    | wrap c =>
      simp only [Mutation.apply] at he
      rw [Dom.outer_wrap _ _ _ (isControl_wrapperElem _ _), List.mem_flatMap] at he
      obtain ⟨y, hy, hey⟩ := he
      have hold := old y hy cls hcls (fun _ h => by cases h)
      split at hey
      · simp only [List.mem_cons, List.mem_singleton, List.not_mem_nil, or_false] at hey
        rcases hey with rfl | rfl
        · have h1 : cls ∉ (wrapperElem p.next c).classes := by
            simp only [wrapperElem, List.mem_singleton]
            rintro rfl
            simp [presentationClasses] at hcls
          have h2 : Mutation.addClass (wrapperElem p.next c).nid cls ∉ ms ++ [.wrap c] := by
            simp only [wrapperElem, List.mem_append, List.mem_singleton]
            rintro (h | h)
            · exact fresh_none cls h
            · cases h
          simp [h1, h2]
        · exact hold
      · simp only [List.mem_singleton] at hey
        subst hey
        exact hold
    | unblur w kw =>
      simp only [Mutation.apply] at he
      rw [Dom.outer_prepend _ _ _ _ (isControl_unblurElem _), List.mem_flatMap] at he
      obtain ⟨y, hy, hey⟩ := he
      have hold := old y hy cls hcls (fun _ h => by cases h)
      split at hey
      · simp only [List.mem_cons, List.mem_singleton, List.not_mem_nil, or_false] at hey
        rcases hey with rfl | rfl
        · exact hold
        · have h1 : cls ∉ (unblurElem p.next).classes := by
            simp only [unblurElem, List.mem_singleton]
            rintro rfl
            simp [presentationClasses] at hcls
          have h2 : Mutation.addClass (unblurElem p.next).nid cls ∉ ms ++ [.unblur w kw] := by
            simp only [unblurElem, List.mem_append, List.mem_singleton]
            rintro (h | h)
            · exact fresh_none cls h
            · cases h
          simp [h1, h2]
      · simp only [List.mem_singleton] at hey
        subst hey
        exact hold
    | flag w kw =>
      simp only [Mutation.apply] at he
      rw [Dom.outer_prepend _ _ _ _ (isControl_flagElem _), List.mem_flatMap] at he
      obtain ⟨y, hy, hey⟩ := he
      have hold := old y hy cls hcls (fun _ h => by cases h)
      split at hey
      · simp only [List.mem_cons, List.mem_singleton, List.not_mem_nil, or_false] at hey
        rcases hey with rfl | rfl
        · exact hold
        · have h1 : cls ∉ (flagElem p.next).classes := by
            simp only [flagElem, List.mem_singleton]
            rintro rfl
            simp [presentationClasses] at hcls
          have h2 : Mutation.addClass (flagElem p.next).nid cls ∉ ms ++ [.flag w kw] := by
            simp only [flagElem, List.mem_append, List.mem_singleton]
            rintro (h | h)
            · exact fresh_none cls h
            · cases h
          simp [h1, h2]
      · simp only [List.mem_singleton] at hey
        subst hey
        exact hold
    | mark el =>
      simp only [Mutation.apply] at he
      rw [Dom.outer_modify _ _ _ isControl_markProcessed, List.mem_map] at he
      obtain ⟨y, hy, rfl⟩ := he
      have hold := old y hy cls hcls (fun _ h => by cases h)
      split
      · exact hold
      · exact hold
    | addClass cid c0 =>
      have hc0 : c0 ∈ presentationClasses := hv.2
      simp only [Mutation.apply, Page.addClass] at he
      rw [Dom.outer_modify _ _ _ (isControl_addClass c0 hc0), List.mem_map] at he
      obtain ⟨y, hy, rfl⟩ := he
      split
      · next hyc =>
        simp only [mem_classListAdd, ih.2 y hy cls hcls, List.mem_append, List.mem_singleton,
          Mutation.addClass.injEq, hyc, true_and]
        constructor
        · rintro (h | h)
          · exact Or.inr h
          · exact Or.inl h
        · rintro (h | h)
          · exact Or.inr h
          · exact Or.inl h
      · next hyc =>
        apply old y hy cls hcls
        intro c1 h
        simp only [Mutation.addClass.injEq] at h
        exact hyc h.1.symm

theorem Mutation.controlChildren_apply [Browser] (p : Page) (m : Mutation) (v : Nat)
    (hv : v < p.next) (hm : ∀ kw, m ≠ .unblur v kw ∧ m ≠ .flag v kw) (hvalid : m.Valid p) :
    ∀ x ∈ (m.apply p).dom.childrenOf v, x.isControl = true →
      ∃ y ∈ p.dom.childrenOf v, y.nid = x.nid ∧ y.isControl = true := by
  intro x hx hxc
  rw [Dom.childrenOf_view] at hx
  rw [Dom.childrenOf_view]
  cases m with
  | wrap c =>
    simp only [Mutation.apply] at hx
    rw [Dom.view_wrap _ _ _ _ (by simp only [wrapperElem]; omega)] at hx
    cases hview : p.dom.view v with
    | none => simp [hview] at hx
    | some r =>
      simp only [hview, Option.map_some', Dom.roots_wrap, List.mem_map] at hx ⊢
      obtain ⟨y, hy, rfl⟩ := hx
      split at hxc
      · rw [isControl_wrapperElem] at hxc
        cases hxc
      · next hne => exact ⟨y, hy, by simp [hne], hxc⟩
  | addClass cid cls =>
    simp only [Mutation.apply, Page.addClass] at hx
    rw [Dom.view_modify cid v
      (fun e : Elem => ({ e with classes := classListAdd cls e.classes } : Elem)) p.dom
      (fun _ => rfl)] at hx
    cases hview : p.dom.view v with
    | none => simp [hview] at hx
    | some r =>
      simp only [hview, Option.map_some', Dom.roots_modify, List.mem_map] at hx ⊢
      obtain ⟨y, hy, rfl⟩ := hx
      refine ⟨y, hy, by split <;> rfl, ?_⟩
      split at hxc
      · rw [isControl_addClass cls hvalid.2] at hxc
        exact hxc
      · exact hxc
  | mark el =>
    simp only [Mutation.apply] at hx
    rw [Dom.view_modify el v markProcessed p.dom (fun _ => rfl)] at hx
    cases hview : p.dom.view v with
    | none => simp [hview] at hx
    | some r =>
      simp only [hview, Option.map_some', Dom.roots_modify, List.mem_map] at hx ⊢
      obtain ⟨y, hy, rfl⟩ := hx
      refine ⟨y, hy, by split <;> rfl, ?_⟩
      split at hxc
      · exact hxc
      · exact hxc
  | unblur w kw =>
    have hf := Browser.parseFragment_fresh (unblurLabel kw) (p.next + 1)
    have hwv : w ≠ v := fun h => (hm kw).1 (by rw [h])
    simp only [Mutation.apply] at hx
    rw [Dom.view_prepend _ _ _ _ _ (by simp only [unblurElem]; omega)
      (fun y hy => by have := (hf.2 y hy).1; omega)] at hx
    cases hview : p.dom.view v with
    | none => simp [hview] at hx
    | some r =>
      have hrn := (Dom.view_some_nid _ _ _ _ hview).1
      have : ¬ r.1.nid = w := fun h => hwv (h ▸ hrn)
      simp only [hview, Option.map_some', this, if_false, Dom.roots_prepend] at hx ⊢
      exact ⟨x, hx, rfl, hxc⟩
  | flag w kw =>
    have hf := Browser.parseFragment_fresh (flagLabel kw) (p.next + 1)
    have hwv : w ≠ v := fun h => (hm kw).2 (by rw [h])
    simp only [Mutation.apply] at hx
    rw [Dom.view_prepend _ _ _ _ _ (by simp only [flagElem]; omega)
      (fun y hy => by have := (hf.2 y hy).1; omega)] at hx
    cases hview : p.dom.view v with
    | none => simp [hview] at hx
    | some r =>
      have hrn := (Dom.view_some_nid _ _ _ _ hview).1
      have : ¬ r.1.nid = w := fun h => hwv (h ▸ hrn)
      simp only [hview, Option.map_some', this, if_false, Dom.roots_prepend] at hx ⊢
      exact ⟨x, hx, rfl, hxc⟩

theorem Run.controlChildren [Browser] {p0 p : Page} {ms : List Mutation} (hr : Run p0 p ms)
    (hfresh : p0.Fresh) (v : Nat) (hv : v < p0.next)
    (hms : ∀ kw, Mutation.unblur v kw ∉ ms ∧ Mutation.flag v kw ∉ ms) :
    ∀ x ∈ p.dom.childrenOf v, x.isControl = true →
      ∃ y ∈ p0.dom.childrenOf v, y.nid = x.nid ∧ y.isControl = true := by
  induction hr with
  | nil => exact fun x hx hxc => ⟨x, hx, rfl, hxc⟩
  | snoc p ms m hr hvalid ih =>
    intro x hx hxc
    have hf := hr.fresh hfresh
    obtain ⟨y, hy, hyn, hyc⟩ := Mutation.controlChildren_apply p m v (by omega)
      (fun kw => ⟨fun h => (hms kw).1 (by simp [h]), fun h => (hms kw).2 (by simp [h])⟩)
      hvalid x hx hxc
    obtain ⟨z, hz, hzn, hzc⟩ := ih
      (fun kw => ⟨fun h => (hms kw).1 (by simp [h]), fun h => (hms kw).2 (by simp [h])⟩)
      y hy hyc
    exact ⟨z, hz, hzn.trans hyn, hzc⟩

/-! ## Controls among the children of a node -/

theorem countP_map_le (P : Elem → Bool) (m : Elem → Elem) (l : List Elem)
    (h : ∀ e, P (m e) = true → P e = true) : (l.map m).countP P ≤ l.countP P := by
  induction l with
  | nil => simp
  | cons a l ih =>
    simp only [List.map_cons, List.countP_cons]
    have : (if P (m a) = true then 1 else 0) ≤ (if P a = true then 1 else 0) := by
      by_cases hm : P (m a) = true
      · simp [hm, h a hm]
      · simp [hm]
    omega

theorem Dom.controlsOnce_modify (i : Nat) (g : Elem → Elem) (d : Dom)
    (hg : ∀ e, (g e).isUnblur = e.isUnblur ∧ (g e).isFlag = e.isFlag)
    (h : d.ControlsOnce) : (d.modify i g).ControlsOnce := by
  induction d with
  | nil => trivial
  | node e c s ihc ihs =>
    obtain ⟨h1, h4⟩ := h
    refine ⟨?_, ihs h4⟩
    rcases h1 with h1 | ⟨⟨h1, h2⟩, h3⟩
    · left
      split
      · simpa [Elem.isControl, (hg e).1, (hg e).2] using h1
      · exact h1
    · right
      refine ⟨⟨?_, ?_⟩, ihc h3⟩
      · rw [Dom.roots_modify]
        refine Nat.le_trans (countP_map_le _ _ _ ?_) h1
        intro x
        split
        · rw [(hg x).1]
          exact id
        · exact id
      · rw [Dom.roots_modify]
        refine Nat.le_trans (countP_map_le _ _ _ ?_) h2
        intro x
        split
        · rw [(hg x).2]
          exact id
        · exact id

theorem Dom.controlsOnce_wrap (i : Nat) (w : Elem) (d : Dom)
    (hw : w.isUnblur = false ∧ w.isFlag = false) (h : d.ControlsOnce) :
    (d.wrap i w).ControlsOnce := by
  induction d with
  | nil => trivial
  | node e c s ihc ihs =>
    obtain ⟨h1, h4⟩ := h
    have hc : e.isControl = true ∨
        (((c.wrap i w).roots.countP Elem.isUnblur ≤ 1 ∧
          (c.wrap i w).roots.countP Elem.isFlag ≤ 1) ∧ (c.wrap i w).ControlsOnce) := by
      rcases h1 with h1 | ⟨⟨h1, h2⟩, h3⟩
      · exact Or.inl h1
      · right
        rw [Dom.roots_wrap]
        refine ⟨⟨?_, ?_⟩, ihc h3⟩
        · refine Nat.le_trans (countP_map_le _ _ _ ?_) h1
          intro x
          split
          · simp [hw.1]
          · exact id
        · refine Nat.le_trans (countP_map_le _ _ _ ?_) h2
          intro x
          split
          · simp [hw.2]
          · exact id
    by_cases he : e.nid = i
    · simp only [Dom.wrap, he, if_true]
      refine ⟨Or.inr ⟨⟨?_, ?_⟩, ⟨hc, trivial⟩⟩, ihs h4⟩
      · simp only [Dom.roots, List.countP_cons, List.countP_nil]
        split <;> omega
      · simp only [Dom.roots, List.countP_cons, List.countP_nil]
        split <;> omega
    · simp only [Dom.wrap, he, if_false]
      exact ⟨hc, ihs h4⟩

theorem Dom.prepend_of_not_mem (i : Nat) (b : Elem) (k : Dom) (d : Dom)
    (h : ∀ x ∈ d.nodes, x.nid ≠ i) : Dom.prepend i b k d = d := by
  induction d with
  | nil => rfl
  | node e c s ihc ihs =>
    have he : e.nid ≠ i := h e (by simp [Dom.nodes])
    simp only [Dom.prepend, he, if_false]
    rw [ihc (fun x hx => h x (by simp [Dom.nodes, hx])),
      ihs (fun x hx => h x (by simp [Dom.nodes, hx]))]

theorem Dom.locate_eq_none (anc : List Elem) (d : Dom) (i : Nat)
    (h : d.locate anc i = none) : ∀ x ∈ d.nodes, x.nid ≠ i := by
  have := Dom.locate_spec anc d i
  rw [h] at this
  simp only [Dom.get?, List.find?_eq_none] at this
  intro x hx
  simpa using this x hx

theorem Dom.controlsOnce_prepend (anc : List Elem) (i : Nat) (b : Elem) (k : Dom) (d : Dom)
    (chain : List Elem) (kids : Dom)
    (hnodup : d.ids.Nodup) (hloc : d.locate anc i = some (chain, kids))
    (hguard : (∀ x ∈ kids.nodes, x.isUnblur = false) ∧ b.isUnblur = true ∧ b.isFlag = false ∨
      (∀ x ∈ kids.nodes, x.isFlag = false) ∧ b.isFlag = true ∧ b.isUnblur = false)
    (h : d.ControlsOnce) : (Dom.prepend i b k d).ControlsOnce := by
  have hbc : b.isControl = true := by
    rcases hguard with ⟨_, hb, _⟩ | ⟨_, hb, _⟩ <;> simp [Elem.isControl, hb]
  induction d generalizing anc with
  | nil => trivial
  | node e c s ihc ihs =>
    obtain ⟨h1, h4⟩ := h
    simp only [Dom.ids, Dom.nodes, List.map_cons, List.map_append, List.nodup_cons,
      List.nodup_append, List.mem_append, List.mem_map, not_or, not_exists, not_and] at hnodup
    obtain ⟨⟨hec, hes⟩, hnc, hns, hdisj⟩ := hnodup
    by_cases he : e.nid = i
    · have hc : ∀ x ∈ c.nodes, x.nid ≠ i := fun x hx hxi => hec x hx (hxi.trans he.symm)
      have hs : ∀ x ∈ s.nodes, x.nid ≠ i := fun x hx hxi => hes x hx (hxi.trans he.symm)
      simp only [Dom.locate, he, if_true, Option.some.injEq, Prod.mk.injEq] at hloc
      simp only [Dom.prepend, he, if_true, Dom.prepend_of_not_mem i b k c hc,
        Dom.prepend_of_not_mem i b k s hs]
      refine ⟨?_, h4⟩
      rcases h1 with h1 | ⟨⟨h1, h2⟩, h3⟩
      · exact Or.inl h1
      · right
        refine ⟨⟨?_, ?_⟩, ⟨Or.inl hbc, h3⟩⟩
        · simp only [Dom.roots, List.countP_cons]
          rcases hguard with ⟨hg, _, _⟩ | ⟨_, _, hb⟩
          · have : c.roots.countP Elem.isUnblur = 0 := by
              rw [List.countP_eq_zero]
              intro x hx
              rw [← hloc.2] at hg
              simp [hg x (Dom.roots_subset_nodes c x hx)]
            rw [this]
            split <;> omega
          · simp only [hb, Bool.false_eq_true, if_false]
            omega
        · simp only [Dom.roots, List.countP_cons]
          rcases hguard with ⟨_, _, hb⟩ | ⟨hg, _, _⟩
          · simp only [hb, Bool.false_eq_true, if_false]
            omega
          · have : c.roots.countP Elem.isFlag = 0 := by
              rw [List.countP_eq_zero]
              intro x hx
              rw [← hloc.2] at hg
              simp [hg x (Dom.roots_subset_nodes c x hx)]
            rw [this]
            split <;> omega
    · simp only [Dom.locate, he, if_false] at hloc
      simp only [Dom.prepend, he, if_false]
      cases hlc : c.locate (e :: anc) i with
      | some r =>
        rw [hlc] at hloc
        simp only [Option.some.injEq] at hloc
        subst hloc
        have hspec := Dom.locate_spec (e :: anc) c i
        rw [hlc] at hspec
        obtain ⟨x, _, _, hx, _⟩ := hspec
        have hxm := Dom.get?_some_mem _ _ _ hx
        have hs : ∀ y ∈ s.nodes, y.nid ≠ i := by
          intro y hy hyi
          exact hdisj (List.mem_map.mpr ⟨x, hxm.1, hxm.2⟩) (List.mem_map.mpr ⟨y, hy, hyi⟩)
        rw [Dom.prepend_of_not_mem i b k s hs]
        refine ⟨?_, h4⟩
        rcases h1 with h1 | ⟨h1, h3⟩
        · exact Or.inl h1
        · right
          rw [Dom.roots_prepend]
          exact ⟨h1, ihc (e :: anc) (by simpa [Dom.ids] using hnc) hlc h3⟩
      | none =>
        rw [hlc] at hloc
        have hc := Dom.locate_eq_none _ _ _ hlc
        rw [Dom.prepend_of_not_mem i b k c hc]
        exact ⟨h1, ihs anc (by simpa [Dom.ids] using hns) hloc h4⟩

theorem Dom.locate_anc_subset (anc : List Elem) (d : Dom) (i : Nat) (chain : List Elem)
    (kids : Dom) (hloc : d.locate anc i = some (chain, kids)) : ∀ a ∈ anc, a ∈ chain := by
  induction d generalizing anc with
  | nil => simp [Dom.locate] at hloc
  | node e c s ihc ihs =>
    by_cases he : e.nid = i
    · simp only [Dom.locate, he, if_true, Option.some.injEq, Prod.mk.injEq] at hloc
      rw [← hloc.1]
      intro a ha
      simp [ha]
    · simp only [Dom.locate, he, if_false] at hloc
      cases hlc : c.locate (e :: anc) i with
      | some r =>
        rw [hlc] at hloc
        simp only [Option.some.injEq] at hloc
        subst hloc
        intro a ha
        exact ihc (e :: anc) hlc a (by simp [ha])
      | none =>
        rw [hlc] at hloc
        exact ihs anc hloc

theorem Dom.controlsOnce_locate (anc : List Elem) (d : Dom) (i : Nat) (chain : List Elem)
    (kids : Dom) (h : d.ControlsOnce) (hloc : d.locate anc i = some (chain, kids))
    (hout : ∀ a ∈ chain, a.isControl = false) :
    kids.roots.countP Elem.isUnblur ≤ 1 ∧ kids.roots.countP Elem.isFlag ≤ 1 := by
  induction d generalizing anc with
  | nil => simp [Dom.locate] at hloc
  | node e c s ihc ihs =>
    obtain ⟨h1, h4⟩ := h
    by_cases he : e.nid = i
    · simp only [Dom.locate, he, if_true, Option.some.injEq, Prod.mk.injEq] at hloc
      have hec : e.isControl = false := hout e (by rw [← hloc.1]; simp)
      rw [← hloc.2]
      rcases h1 with h1 | h1
      · rw [hec] at h1
        cases h1
      · exact h1.1
    · simp only [Dom.locate, he, if_false] at hloc
      cases hlc : c.locate (e :: anc) i with
      | some r =>
        rw [hlc] at hloc
        simp only [Option.some.injEq] at hloc
        subst hloc
        have hec : e.isControl = false :=
          hout e (Dom.locate_anc_subset (e :: anc) c i _ _ hlc e (by simp))
        rcases h1 with h1 | h1
        · rw [hec] at h1
          cases h1
        · exact ihc (e :: anc) h1.2 hlc
      | none =>
        rw [hlc] at hloc
        exact ihs anc h4 hloc

theorem Dom.controlsOnce_of_no_control (d : Dom) (h : ∀ x ∈ d.nodes, x.isControl = false) :
    d.ControlsOnce := by
  induction d with
  | nil => trivial
  | node e c s ihc ihs =>
    have hc : ∀ x ∈ c.nodes, x.isControl = false := fun x hx => h x (by simp [Dom.nodes, hx])
    have hs : ∀ x ∈ s.nodes, x.isControl = false := fun x hx => h x (by simp [Dom.nodes, hx])
    refine ⟨Or.inr ⟨⟨?_, ?_⟩, ihc hc⟩, ihs hs⟩
    · have : c.roots.countP Elem.isUnblur = 0 := by
        rw [List.countP_eq_zero]
        intro x hx
        have := hc x (Dom.roots_subset_nodes c x hx)
        simp only [Elem.isControl, Bool.or_eq_false_iff] at this
        simp [this.1]
      omega
    · have : c.roots.countP Elem.isFlag = 0 := by
        rw [List.countP_eq_zero]
        intro x hx
        have := hc x (Dom.roots_subset_nodes c x hx)
        simp only [Elem.isControl, Bool.or_eq_false_iff] at this
        simp [this.2]
      omega

/-! ## The invariant of the applier -/

theorem mem_flatMap_insert (L : List Nat) (i : Nat) (new : List Nat) (y : Nat)
    (h : y ∈ L.flatMap (fun x => if x = i then new else [x])) : y ∈ L ∨ (i ∈ L ∧ y ∈ new) := by
  rw [List.mem_flatMap] at h
  obtain ⟨x, hx, hy⟩ := h
  split at hy
  · next hxi => exact Or.inr ⟨hxi ▸ hx, hy⟩
  · simp at hy
    exact Or.inl (hy ▸ hx)

theorem nodup_flatMap_insert (L : List Nat) (i n : Nat) (new : List Nat) (hL : L.Nodup)
    (hlt : ∀ x ∈ L, x < n) (hnew : new.Nodup) (hmem : ∀ y ∈ new, y = i ∨ n ≤ y) :
    (L.flatMap (fun x => if x = i then new else [x])).Nodup := by
  induction L with
  | nil => simp
  | cons a L ih =>
    rw [List.nodup_cons] at hL
    have ih2 := ih hL.2 (fun x hx => hlt x (by simp [hx]))
    have ha : a < n := hlt a (by simp)
    rw [List.flatMap_cons, List.nodup_append]
    refine ⟨?_, ih2, ?_⟩
    · split
      · exact hnew
      · simp
    · intro y hy1 hy2
      rcases mem_flatMap_insert L i new y hy2 with h | ⟨hi, h⟩
      · split at hy1
        · next hai =>
          rcases hmem y hy1 with rfl | hge
          · exact hL.1 (hai ▸ h)
          · have := hlt y (by simp [h])
            omega
        · simp at hy1
          exact hL.1 (hy1 ▸ h)
      · split at hy1
        · next hai => exact hL.1 (hai ▸ hi)
        · simp at hy1
          subst hy1
          rcases hmem y h with rfl | hge
          · exact hL.1 hi
          · omega

theorem Dom.ids_modify (i : Nat) (g : Elem → Elem) (d : Dom) (hg : ∀ e, (g e).nid = e.nid) :
    (d.modify i g).ids = d.ids := by
  simp only [Dom.ids, Dom.nodes_modify, List.map_map]
  congr 1
  funext e
  simp only [Function.comp]
  split <;> simp [hg]

theorem Dom.ids_wrap (i : Nat) (w : Elem) (d : Dom) :
    (d.wrap i w).ids = d.ids.flatMap (fun x => if x = i then [w.nid, i] else [x]) := by
  simp only [Dom.ids, Dom.nodes_wrap, List.map_flatMap, List.flatMap_map]
  congr 1
  funext e
  split
  · next h => simp [h]
  · simp

theorem Dom.ids_prepend (i : Nat) (b : Elem) (k : Dom) (d : Dom) :
    (Dom.prepend i b k d).ids
      = d.ids.flatMap (fun x => if x = i then i :: b.nid :: k.ids else [x]) := by
  simp only [Dom.ids, Dom.nodes_prepend, List.map_flatMap, List.flatMap_map]
  congr 1
  funext e
  split
  · next h => simp [h, Dom.ids]
  · simp

theorem Page.Fresh.ids_lt (p : Page) (h : p.Fresh) : ∀ x ∈ p.dom.ids, x < p.next := by
  intro x hx
  obtain ⟨e, he, rfl⟩ := List.mem_map.mp hx
  exact h e he

theorem nodup_prepend_ids [Browser] (p : Page) (w : Nat) (b : Elem) (html : String)
    (h : p.Sound) (hw : w < p.next) (hb : b.nid = p.next) :
    (Dom.prepend w b (parseFragment html (p.next + 1)).1 p.dom).ids.Nodup := by
  have hf := Browser.parseFragment_fresh html (p.next + 1)
  have hn := Browser.parseFragment_nodup html (p.next + 1)
  rw [Dom.ids_prepend]
  apply nodup_flatMap_insert _ _ p.next _ h.2.1 (Page.Fresh.ids_lt p h.1)
  · rw [List.nodup_cons, List.nodup_cons]
    refine ⟨?_, ?_, hn⟩
    · simp only [List.mem_cons, Dom.ids, List.mem_map, not_or, not_exists, not_and]
      refine ⟨by omega, ?_⟩
      intro x hx hxw
      have := (hf.2 x hx).1
      omega
    · simp only [Dom.ids, List.mem_map, not_exists, not_and]
      intro x hx hxb
      have := (hf.2 x hx).1
      omega
  · intro y hy
    simp only [List.mem_cons, Dom.ids, List.mem_map] at hy
    rcases hy with rfl | rfl | ⟨x, hx, rfl⟩
    · exact Or.inl rfl
    · exact Or.inr (by omega)
    · have := (hf.2 x hx).1
      exact Or.inr (by omega)

theorem Mutation.sound_apply [Browser] (p : Page) (m : Mutation) (h : p.Sound)
    (hv : m.Valid p) : (m.apply p).Sound := by
  refine ⟨(Mutation.fresh_apply p m h.1).1, ?_, ?_⟩
  · cases m with
    | wrap c =>
      obtain ⟨x, hx, hxc⟩ := hv
      show (p.dom.wrap c.nid (wrapperElem p.next c)).ids.Nodup
      rw [Dom.ids_wrap]
      apply nodup_flatMap_insert _ _ p.next _ h.2.1 (Page.Fresh.ids_lt p h.1)
      · have : c.nid < p.next := by
          have := h.1 x hx
          omega
        simp [wrapperElem]
        omega
      · intro y hy
        simp [wrapperElem] at hy
        rcases hy with rfl | rfl
        · exact Or.inr (Nat.le_refl _)
        · exact Or.inl rfl
    | addClass cid cls =>
      show (p.dom.modify cid _).ids.Nodup
      rw [Dom.ids_modify cid
        (fun e : Elem => ({ e with classes := classListAdd cls e.classes } : Elem)) p.dom
        (fun _ => rfl)]
      exact h.2.1
    | mark el =>
      show (p.dom.modify el markProcessed).ids.Nodup
      rw [Dom.ids_modify el markProcessed p.dom (fun _ => rfl)]
      exact h.2.1
    | unblur w kw =>
      obtain ⟨e, kids, hview, _⟩ := hv
      have hm := Dom.view_some_nid _ _ _ _ hview
      exact nodup_prepend_ids p w _ _ h (by have := h.1 e hm.2; omega) rfl
    | flag w kw =>
      obtain ⟨e, kids, hview, _⟩ := hv
      have hm := Dom.view_some_nid _ _ _ _ hview
      exact nodup_prepend_ids p w _ _ h (by have := h.1 e hm.2; omega) rfl
  · cases m with
    | wrap c =>
      exact Dom.controlsOnce_wrap _ _ _ (by simp [wrapperElem, Elem.isUnblur, Elem.isFlag])
        h.2.2
    | addClass cid cls =>
      apply Dom.controlsOnce_modify _ _ _ _ h.2.2
      intro e
      exact ⟨isUnblur_addClass cls hv.2 e, isFlag_addClass cls hv.2 e⟩
    | mark el =>
      apply Dom.controlsOnce_modify _ _ _ _ h.2.2
      intro e
      exact ⟨rfl, rfl⟩
    | unblur w kw =>
      obtain ⟨e, kids, hview, hg⟩ := hv
      obtain ⟨up, hloc⟩ := Dom.locate_of_view [] _ _ _ _ hview
      exact Dom.controlsOnce_prepend [] w _ _ _ _ kids h.2.1 hloc
        (Or.inl ⟨hg, by simp [unblurElem, Elem.isUnblur], by simp [unblurElem, Elem.isFlag]⟩)
        h.2.2
    | flag w kw =>
      obtain ⟨e, kids, hview, hg⟩ := hv
      obtain ⟨up, hloc⟩ := Dom.locate_of_view [] _ _ _ _ hview
      exact Dom.controlsOnce_prepend [] w _ _ _ _ kids h.2.1 hloc
        (Or.inr ⟨hg, by simp [flagElem, Elem.isFlag], by simp [flagElem, Elem.isUnblur]⟩)
        h.2.2

theorem Run.sound [Browser] {p0 p : Page} {ms : List Mutation} (hr : Run p0 p ms)
    (h : p0.Sound) : p.Sound := by
  induction hr with
  | nil => exact h
  | snoc p ms m _ hv ih => exact Mutation.sound_apply p m ih hv

/-! ## A scan pass as a run of elementary changes -/

theorem Justified.mono (log other : List Application) (m : Mutation) (h : Justified log m)
    (hsub : ∀ a ∈ log, a ∈ other) : Justified other m := by
  cases m with
  | wrap c =>
    obtain ⟨a, ha, h1⟩ := h
    exact ⟨a, hsub a ha, h1⟩
  | addClass cid cls =>
    obtain ⟨a, ha, h1⟩ := h
    exact ⟨a, hsub a ha, h1⟩
  | unblur w kw =>
    obtain ⟨a, ha, h1⟩ := h
    exact ⟨a, hsub a ha, h1⟩
  | flag w kw =>
    obtain ⟨a, ha, h1⟩ := h
    exact ⟨a, hsub a ha, h1⟩
  | mark el =>
    obtain ⟨a, ha, h1⟩ := h
    exact ⟨a, hsub a ha, h1⟩

theorem Explains.same [Browser] (p : Page) : Explains p p [] :=
  ⟨[], Run.nil, by simp, by simp⟩

theorem Explains.append [Browser] {p q r : Page} {l1 l2 : List Application}
    (h1 : Explains p q l1) (h2 : Explains q r l2) : Explains p r (l1 ++ l2) := by
  obtain ⟨ms1, hr1, hj1, hc1⟩ := h1
  obtain ⟨ms2, hr2, hj2, hc2⟩ := h2
  refine ⟨ms1 ++ ms2, hr1.trans hr2, ?_, ?_⟩
  · intro m hm
    rcases List.mem_append.mp hm with h | h
    · exact Justified.mono l1 _ m (hj1 m h) (fun a ha => by simp [ha])
    · exact Justified.mono l2 _ m (hj2 m h) (fun a ha => by simp [ha])
  · intro a ha cls hcls
    rcases List.mem_append.mp ha with h | h
    · exact List.mem_append_left _ (hc1 a h cls hcls)
    · exact List.mem_append_right _ (hc2 a h cls hcls)

theorem Explains.run [Browser] {p q : Page} {log : List Application} (h : Explains p q log) :
    ∃ ms, Run p q ms := by
  obtain ⟨ms, hr, _, _⟩ := h
  exact ⟨ms, hr⟩

theorem Explains.keeps_fresh [Browser] {p q : Page} {log : List Application}
    (h : Explains p q log) (hf : p.Fresh) : q.Fresh ∧ p.next ≤ q.next := by
  obtain ⟨ms, hr, _, _⟩ := h
  exact hr.fresh hf

theorem Explains.keeps_sound [Browser] {p q : Page} {log : List Application}
    (h : Explains p q log) (hs : p.Sound) : q.Sound := by
  obtain ⟨ms, hr, _, _⟩ := h
  exact hr.sound hs

theorem Explains.keeps_marks [Browser] {p q : Page} {log : List Application}
    (h : Explains p q log) (hf : p.Fresh) (el : Nat) (hm : Marked p el) : Marked q el := by
  obtain ⟨ms, hr, _, _⟩ := h
  exact hr.marked hf el hm

theorem Explains.keeps_nodes [Browser] {p q : Page} {log : List Application}
    (h : Explains p q log) (j : Nat) (hj : ∃ x ∈ p.dom.nodes, x.nid = j) :
    ∃ x ∈ q.dom.nodes, x.nid = j := by
  obtain ⟨ms, hr, _, _⟩ := h
  exact hr.has j hj

theorem ensureWrapper_run [Browser] (p q : Page) (c : Elem) (w : Nat)
    (he : ensureWrapper p c = some (q, w)) :
    ∃ ms, Run p q ms ∧ (∀ m ∈ ms, m = .wrap c) ∧ (∃ x ∈ q.dom.nodes, x.nid = w) ∧
      ∃ x ∈ p.dom.nodes, x.nid = c.nid := by
  unfold ensureWrapper at he
  split at he
  · cases he
  · next chain kids hloc =>
    have hspec := Dom.locate_spec [] p.dom c.nid
    rw [hloc] at hspec
    obtain ⟨x, _, _, hx, hsub⟩ := hspec
    have hxm := Dom.get?_some_mem _ _ _ hx
    split at he
    · next wr rest hq =>
      simp only [Option.some.injEq, Prod.mk.injEq] at he
      obtain ⟨rfl, rfl⟩ := he
      refine ⟨[], Run.nil, by simp, ⟨wr, ?_, rfl⟩, ⟨x, hxm.1, hxm.2⟩⟩
      have hmem : wr ∈ queryAll (selClass "content-guardian-wrapper") chain kids := by
        rw [hq]; simp
      rw [queryAll_selClass] at hmem
      exact hsub wr (List.mem_filter.mp hmem).1
    · split at he
      · cases he
      · simp only [Option.some.injEq, Prod.mk.injEq] at he
        obtain ⟨rfl, rfl⟩ := he
        refine ⟨[.wrap c], Run.single p (.wrap c) ⟨x, hxm.1, hxm.2⟩, by simp, ?_,
          ⟨x, hxm.1, hxm.2⟩⟩
        refine ⟨wrapperElem p.next c, ?_, rfl⟩
        show wrapperElem p.next c ∈ (p.dom.wrap c.nid (wrapperElem p.next c)).nodes
        rw [Dom.nodes_wrap, List.mem_flatMap]
        exact ⟨x, hxm.1, by simp [hxm.2]⟩

theorem addUnblurButton_eq [Browser] (p : Page) (w : Nat) (keyword : Rule) :
    addUnblurButton p w keyword
      = addControl "content-guardian-unblur" unblurElem (unblurLabel keyword) p w := rfl

theorem addFlagIndicator_eq [Browser] (p : Page) (w : Nat) (keyword : Rule) :
    addFlagIndicator p w keyword
      = addControl "content-guardian-flag" flagElem (flagLabel keyword) p w := rfl

theorem applyAction_hide [Browser] (p : Page) (c w : Nat) (k : Rule) (h : k.action = "hide") :
    applyAction p c w k = p.addClass c "content-guardian-hidden" := by
  simp [applyAction, h, Page.addClass]

theorem applyAction_blur [Browser] (p : Page) (c w : Nat) (k : Rule) (h : k.action = "blur") :
    applyAction p c w k
      = addUnblurButton (p.addClass c "content-guardian-blurred") w k := by
  simp [applyAction, h, Page.addClass]

theorem applyAction_flag [Browser] (p : Page) (c w : Nat) (k : Rule) (h : k.action = "flag") :
    applyAction p c w k
      = addFlagIndicator (p.addClass c "content-guardian-flagged") w k := by
  simp [applyAction, h, Page.addClass]

theorem applyAction_other [Browser] (p : Page) (c w : Nat) (k : Rule) (h1 : k.action ≠ "hide")
    (h2 : k.action ≠ "blur") (h3 : k.action ≠ "flag") : applyAction p c w k = p := by
  simp [applyAction, h1, h2, h3]

theorem addUnblurButton_run [Browser] (p : Page) (w : Nat) (kw : Rule) :
    ∃ ms, Run p (addUnblurButton p w kw) ms ∧ ∀ m ∈ ms, m = .unblur w kw := by
  unfold addUnblurButton
  split
  · exact ⟨[], Run.nil, by simp⟩
  · next chain kids hloc =>
    split
    · next hq =>
      refine ⟨[.unblur w kw], Run.single p (.unblur w kw) ?_, by simp⟩
      obtain ⟨e, up, rfl⟩ := Dom.locate_cons [] _ _ _ _ hloc
      refine ⟨e, kids, Dom.view_of_locate [] _ _ _ _ _ hloc, ?_⟩
      rw [queryAll_selClass] at hq
      simp only [List.isEmpty_eq_true, List.filter_eq_nil_iff] at hq
      intro x hx
      simpa [Elem.isUnblur] using hq x hx
    · exact ⟨[], Run.nil, by simp⟩

theorem addFlagIndicator_run [Browser] (p : Page) (w : Nat) (kw : Rule) :
    ∃ ms, Run p (addFlagIndicator p w kw) ms ∧ ∀ m ∈ ms, m = .flag w kw := by
  unfold addFlagIndicator
  split
  · exact ⟨[], Run.nil, by simp⟩
  · next chain kids hloc =>
    split
    · next hq =>
      refine ⟨[.flag w kw], Run.single p (.flag w kw) ?_, by simp⟩
      obtain ⟨e, up, rfl⟩ := Dom.locate_cons [] _ _ _ _ hloc
      refine ⟨e, kids, Dom.view_of_locate [] _ _ _ _ _ hloc, ?_⟩
      rw [queryAll_selClass] at hq
      simp only [List.isEmpty_eq_true, List.filter_eq_nil_iff] at hq
      intro x hx
      simpa [Elem.isFlag] using hq x hx
    · exact ⟨[], Run.nil, by simp⟩

theorem classOfAction_hide (cls : String) :
    ClassOfAction "hide" cls ↔ cls = "content-guardian-hidden" := by
  simp [ClassOfAction]

theorem classOfAction_blur (cls : String) :
    ClassOfAction "blur" cls ↔ cls = "content-guardian-blurred" := by
  simp [ClassOfAction]

theorem classOfAction_flag (cls : String) :
    ClassOfAction "flag" cls ↔ cls = "content-guardian-flagged" := by
  simp [ClassOfAction]

theorem classOfAction_other (action cls : String) (h1 : action ≠ "hide") (h2 : action ≠ "blur")
    (h3 : action ≠ "flag") : ¬ ClassOfAction action cls := by
  simp [ClassOfAction, h1, h2, h3]

theorem applyAction_run [Browser] (p : Page) (cid w : Nat) (kw : Rule)
    (hc : ∃ x ∈ p.dom.nodes, x.nid = cid) :
    ∃ ms, Run p (applyAction p cid w kw) ms ∧
      (∀ m ∈ ms, (∃ cls, m = .addClass cid cls ∧ ClassOfAction kw.action cls) ∨
        m = .unblur w kw ∨ m = .flag w kw) ∧
      ∀ cls, ClassOfAction kw.action cls → Mutation.addClass cid cls ∈ ms := by
  by_cases h1 : kw.action = "hide"
  · rw [applyAction_hide _ _ _ _ h1]
    refine ⟨[.addClass cid "content-guardian-hidden"],
      Run.single p (.addClass cid "content-guardian-hidden") ⟨hc, by decide⟩, ?_, ?_⟩
    · intro m hm
      simp only [List.mem_singleton] at hm
      exact Or.inl ⟨_, hm, by rw [h1, classOfAction_hide]⟩
    · intro cls hcls
      rw [h1, classOfAction_hide] at hcls
      simp [hcls]
  · by_cases h2 : kw.action = "blur"
    · rw [applyAction_blur _ _ _ _ h2]
      obtain ⟨ms, hr, hms⟩ := addUnblurButton_run (p.addClass cid "content-guardian-blurred") w kw
      refine ⟨.addClass cid "content-guardian-blurred" :: ms,
        (Run.single p (.addClass cid "content-guardian-blurred") ⟨hc, by decide⟩).trans hr,
        ?_, ?_⟩
      · intro m hm
        rcases List.mem_cons.mp hm with h | h
        · exact Or.inl ⟨_, h, by rw [h2, classOfAction_blur]⟩
        · exact Or.inr (Or.inl (hms m h))
      · intro cls hcls
        rw [h2, classOfAction_blur] at hcls
        simp [hcls]
    · by_cases h3 : kw.action = "flag"
      · rw [applyAction_flag _ _ _ _ h3]
        obtain ⟨ms, hr, hms⟩ :=
          addFlagIndicator_run (p.addClass cid "content-guardian-flagged") w kw
        refine ⟨.addClass cid "content-guardian-flagged" :: ms,
          (Run.single p (.addClass cid "content-guardian-flagged") ⟨hc, by decide⟩).trans hr,
          ?_, ?_⟩
        · intro m hm
          rcases List.mem_cons.mp hm with h | h
          · exact Or.inl ⟨_, h, by rw [h3, classOfAction_flag]⟩
          · exact Or.inr (Or.inr (hms m h))
        · intro cls hcls
          rw [h3, classOfAction_flag] at hcls
          simp [hcls]
      · rw [applyAction_other _ _ _ _ h1 h2 h3]
        exact ⟨[], Run.nil, by simp, fun cls hcls =>
          absurd hcls (classOfAction_other _ _ h1 h2 h3)⟩

theorem applyFilter_run [Browser] (p q : Page) (el : Nat) (kw : Rule) (e : Elem)
    (parents : List Elem) (kids : Dom)
    (hloc : p.dom.locate [] el = some (e :: parents, kids))
    (he : applyFilter p el kw = some q) :
    ∃ q1 w, ensureWrapper p (findFilterContainer e parents) = some (q1, w) ∧
      Explains p q [⟨el, (findFilterContainer e parents).nid, w, kw⟩] := by
  simp only [applyFilter, hloc] at he
  cases hens : ensureWrapper p (findFilterContainer e parents) with
  | none => simp [hens] at he
  | some r =>
    obtain ⟨q1, w⟩ := r
    simp only [hens, Option.some.injEq] at he
    subst he
    obtain ⟨ms1, hr1, hm1, _, hcex⟩ := ensureWrapper_run p q1 _ w hens
    obtain ⟨ms2, hr2, hm2, hcls⟩ :=
      applyAction_run q1 (findFilterContainer e parents).nid w kw (hr1.has _ hcex)
    refine ⟨q1, w, rfl, ms1 ++ ms2, hr1.trans hr2, ?_, ?_⟩
    · intro m hm
      rcases List.mem_append.mp hm with h | h
      · rw [hm1 m h]
        exact ⟨_, List.mem_singleton.mpr rfl, rfl⟩
      · rcases hm2 m h with ⟨cls, rfl, hc⟩ | rfl | rfl
        · exact ⟨_, List.mem_singleton.mpr rfl, rfl, hc⟩
        · exact ⟨_, List.mem_singleton.mpr rfl, rfl, rfl⟩
        · exact ⟨_, List.mem_singleton.mpr rfl, rfl, rfl⟩
    · intro a ha cls hc
      simp only [List.mem_singleton] at ha
      subst ha
      exact List.mem_append_right _ (hcls cls hc)

theorem scanElement_run [Browser] (kws : List Rule) (st : ContentFilter) (el : Nat) :
    Explains st.page (endState (scanElement kws st el)).page (applicationOf kws st el).toList := by
  unfold scanElement applicationOf
  split
  · next e parents kids hloc =>
    split
    · exact Explains.same _
    · split
      · exact Explains.same _
      · next kw hkw =>
        cases hq : applyFilter st.page el kw with
        | none =>
          have : ensureWrapper st.page (findFilterContainer e parents) = none := by
            cases hens : ensureWrapper st.page (findFilterContainer e parents) with
            | none => rfl
            | some r => simp [applyFilter, hloc, hens] at hq
          simp only [this, endState]
          exact Explains.same _
        | some q =>
          obtain ⟨q1, w, hens, ms, hr, hj, hc⟩ := applyFilter_run st.page q el kw e parents kids
            hloc hq
          simp only [hens, endState, Option.toList]
          have hel : ∃ x ∈ st.page.dom.nodes, x.nid = el := by
            have hspec := Dom.locate_spec [] st.page.dom el
            rw [hloc] at hspec
            obtain ⟨x, _, _, hx, _⟩ := hspec
            have := Dom.get?_some_mem _ _ _ hx
            exact ⟨x, this.1, this.2⟩
          refine ⟨ms ++ [Mutation.mark el], Run.snoc q ms (Mutation.mark el) hr (hr.has el hel),
            ?_, ?_⟩
          · intro m hm
            rcases List.mem_append.mp hm with h | h
            · exact hj m h
            · simp only [List.mem_singleton] at h
              subst h
              exact ⟨_, List.mem_singleton.mpr rfl, rfl⟩
          · intro a ha cls hcls
            exact List.mem_append_left _ (hc a ha cls hcls)
  · exact Explains.same _

theorem scanElements_run [Browser] (kws : List Rule) (els : List Nat) (st : ContentFilter) :
    Explains st.page (endState (scanElements kws els st)).page
      (applicationsOfElements kws els st) := by
  induction els generalizing st with
  | nil => exact Explains.same _
  | cons el rest ih =>
    have h1 := scanElement_run kws st el
    simp only [scanElements, applicationsOfElements]
    cases hs : scanElement kws st el with
    | ok st1 =>
      rw [hs] at h1
      exact h1.append (ih st1)
    | error st1 =>
      rw [hs] at h1
      simpa using h1

theorem scanSelectors_run [Browser] (kws : List Rule) (sels : List Selector)
    (st : ContentFilter) :
    Explains st.page (endState (scanSelectors kws sels st)).page
      (applicationsOfSelectors kws sels st) := by
  induction sels generalizing st with
  | nil => exact Explains.same _
  | cons sel rest ih =>
    have h1 := scanElements_run kws ((queryAll sel [] st.page.dom).map (fun e => e.nid)) st
    simp only [scanSelectors, applicationsOfSelectors]
    cases hs : scanElements kws ((queryAll sel [] st.page.dom).map (fun e => e.nid)) st with
    | ok st1 =>
      rw [hs] at h1
      exact h1.append (ih st1)
    | error st1 =>
      rw [hs] at h1
      simpa using h1

theorem scanAndFilter_run [Browser] (st : ContentFilter) :
    Explains st.page (endState (scanAndFilter st)).page (applications st) := by
  unfold scanAndFilter applications
  split
  · exact Explains.same _
  · exact scanSelectors_run _ _ st

theorem Trace.explains [Browser] {init st : ContentFilter} {log : List Application}
    (h : Trace init st log) : Explains init.page st.page log := by
  induction h with
  | start => exact Explains.same _
  | scan st log _ ih => exact ih.append (scanAndFilter_run st)

theorem Trace.of_reachable [Browser] {init st : ContentFilter} (h : Reachable init st) :
    ∃ log, Trace init st log := by
  induction h with
  | start => exact ⟨[], Trace.start⟩
  | scan st _ ih =>
    obtain ⟨log, hl⟩ := ih
    exact ⟨_, Trace.scan st log hl⟩

/-! ## The applications of a scan pass -/

theorem scanElement_keeps_rules [Browser] (kws : List Rule) (st : ContentFilter) (el : Nat) :
    (endState (scanElement kws st el)).keywords = st.keywords ∧
    (endState (scanElement kws st el)).hostname = st.hostname := by
  unfold scanElement
  split
  · split
    · exact ⟨rfl, rfl⟩
    · split
      · exact ⟨rfl, rfl⟩
      · split <;> exact ⟨rfl, rfl⟩
  · exact ⟨rfl, rfl⟩

theorem scanElements_keeps_rules [Browser] (kws : List Rule) (els : List Nat) (st : ContentFilter) :
    (endState (scanElements kws els st)).keywords = st.keywords ∧
    (endState (scanElements kws els st)).hostname = st.hostname := by
  induction els generalizing st with
  | nil => exact ⟨rfl, rfl⟩
  | cons el rest ih =>
    have h1 := scanElement_keeps_rules kws st el
    simp only [scanElements]
    cases hs : scanElement kws st el with
    | ok st1 =>
      rw [hs] at h1
      have h2 := ih st1
      exact ⟨h2.1.trans h1.1, h2.2.trans h1.2⟩
    | error st1 =>
      rw [hs] at h1
      exact h1

theorem scanSelectors_keeps_rules [Browser] (kws : List Rule) (sels : List Selector)
    (st : ContentFilter) :
    (endState (scanSelectors kws sels st)).keywords = st.keywords ∧
    (endState (scanSelectors kws sels st)).hostname = st.hostname := by
  induction sels generalizing st with
  | nil => exact ⟨rfl, rfl⟩
  | cons sel rest ih =>
    have h1 := scanElements_keeps_rules kws
      ((queryAll sel [] st.page.dom).map (fun e => e.nid)) st
    simp only [scanSelectors]
    cases hs : scanElements kws ((queryAll sel [] st.page.dom).map (fun e => e.nid)) st with
    | ok st1 =>
      rw [hs] at h1
      have h2 := ih st1
      exact ⟨h2.1.trans h1.1, h2.2.trans h1.2⟩
    | error st1 =>
      rw [hs] at h1
      exact h1

theorem scanAndFilter_keeps_rules [Browser] (st : ContentFilter) :
    (endState (scanAndFilter st)).keywords = st.keywords ∧
    (endState (scanAndFilter st)).hostname = st.hostname := by
  unfold scanAndFilter
  split
  · exact ⟨rfl, rfl⟩
  · exact scanSelectors_keeps_rules _ _ st

theorem applicationOf_spec [Browser] (kws : List Rule) (st : ContentFilter) (el : Nat)
    (a : Application) (h : applicationOf kws st el = some a) :
    a.element = el ∧ a.rule ∈ kws ∧
    ∃ e parents kids, st.page.dom.locate [] el = some (e :: parents, kids) ∧
      e.processed = false ∧ findMatchingKeyword (getElementText e kids) kws = some a.rule ∧
      a.container = (findFilterContainer e parents).nid ∧
      ∃ q1, ensureWrapper st.page (findFilterContainer e parents) = some (q1, a.wrapper) := by
  unfold applicationOf at h
  split at h
  · next e parents kids hloc =>
    split at h
    · cases h
    · next hp =>
      split at h
      · cases h
      · next kw hkw =>
        split at h
        · next q1 w hens =>
          simp only [Option.some.injEq] at h
          subst h
          exact ⟨rfl, findMatchingKeyword_mem _ _ _ hkw, e, parents, kids, hloc,
            by simpa using hp, hkw, rfl, q1, hens⟩
        · cases h
  · cases h

theorem not_marked_of_locate (p : Page) (el : Nat) (e : Elem) (parents : List Elem) (kids : Dom)
    (hloc : p.dom.locate [] el = some (e :: parents, kids)) (hp : e.processed = false) :
    ¬ Marked p el := by
  have hspec := Dom.locate_spec [] p.dom el
  rw [hloc] at hspec
  obtain ⟨x, up, hx, hg, _⟩ := hspec
  simp only [List.cons.injEq] at hx
  unfold Marked
  rw [hg, ← hx.1]
  simp [hp]

theorem applicationsOfElements_spec [Browser] (kws : List Rule) (els : List Nat)
    (st : ContentFilter) (hf : st.page.Fresh) :
    ∀ a ∈ applicationsOfElements kws els st, ¬ Marked st.page a.element ∧ a.rule ∈ kws := by
  induction els generalizing st with
  | nil => intro a ha; simp [applicationsOfElements] at ha
  | cons el rest ih =>
    intro a ha
    simp only [applicationsOfElements, List.mem_append] at ha
    rcases ha with h | h
    · have h2 : applicationOf kws st el = some a := by
        cases ho : applicationOf kws st el with
        | none => rw [ho] at h; simp at h
        | some b =>
          rw [ho] at h
          simp only [Option.toList, List.mem_singleton] at h
          rw [h]
      obtain ⟨h3, h4, e, parents, kids, hloc, hp, _⟩ := applicationOf_spec kws st el a h2
      rw [h3]
      exact ⟨not_marked_of_locate _ _ _ _ _ hloc hp, h4⟩
    · have hrun := scanElement_run kws st el
      cases hs : scanElement kws st el with
      | ok st1 =>
        rw [hs] at h hrun
        have := ih st1 (hrun.keeps_fresh hf).1 a h
        exact ⟨fun hm => this.1 (hrun.keeps_marks hf _ hm), this.2⟩
      | error st1 =>
        rw [hs] at h
        simp at h

theorem applicationsOfSelectors_spec [Browser] (kws : List Rule) (sels : List Selector)
    (st : ContentFilter) (hf : st.page.Fresh) :
    ∀ a ∈ applicationsOfSelectors kws sels st, ¬ Marked st.page a.element ∧ a.rule ∈ kws := by
  induction sels generalizing st with
  | nil => intro a ha; simp [applicationsOfSelectors] at ha
  | cons sel rest ih =>
    intro a ha
    simp only [applicationsOfSelectors, List.mem_append] at ha
    rcases ha with h | h
    · exact applicationsOfElements_spec kws _ st hf a h
    · have hrun := scanElements_run kws ((queryAll sel [] st.page.dom).map (fun e => e.nid)) st
      cases hs : scanElements kws ((queryAll sel [] st.page.dom).map (fun e => e.nid)) st with
      | ok st1 =>
        rw [hs] at h hrun
        have := ih st1 (hrun.keeps_fresh hf).1 a h
        exact ⟨fun hm => this.1 (hrun.keeps_marks hf _ hm), this.2⟩
      | error st1 =>
        rw [hs] at h
        simp at h

theorem applications_spec [Browser] (st : ContentFilter) (hf : st.page.Fresh) :
    ∀ a ∈ applications st, ¬ Marked st.page a.element ∧
      a.rule ∈ st.keywords ∧ a.rule.enabled = true := by
  intro a ha
  unfold applications at ha
  split at ha
  · simp at ha
  · have := applicationsOfSelectors_spec _ _ st hf a ha
    exact ⟨this.1, List.mem_filter.mp this.2⟩

theorem Trace.spec [Browser] {init st : ContentFilter} {log : List Application}
    (h : Trace init st log) (hf : init.page.Fresh) :
    st.keywords = init.keywords ∧ st.hostname = init.hostname ∧ st.page.Fresh ∧
      ∀ a ∈ log, a.rule ∈ init.keywords ∧ a.rule.enabled = true := by
  induction h with
  | start => exact ⟨rfl, rfl, hf, by simp⟩
  | scan st log _ ih =>
    have hk := scanAndFilter_keeps_rules st
    refine ⟨hk.1.trans ih.1, hk.2.trans ih.2.1, ((scanAndFilter_run st).keeps_fresh ih.2.2.1).1, ?_⟩
    intro a ha
    rcases List.mem_append.mp ha with h | h
    · exact ih.2.2.2 a h
    · have := (applications_spec st ih.2.2.1 a h).2
      rw [ih.1] at this
      exact this

/-! ## Controls, presentation classes and the frame of a scan pass -/

theorem presentation_length_le_one (action : String) (e : Elem) (h : OnlyClassOf action e) :
    e.presentation.length ≤ 1 := by
  have hh := h "content-guardian-hidden"
  have hb := h "content-guardian-blurred"
  have hf := h "content-guardian-flagged"
  simp only [presentationClasses, ClassOfAction] at hh hb hf
  simp only [Elem.presentation, presentationClasses, List.filter]
  by_cases h1 : "content-guardian-hidden" ∈ e.classes <;>
  by_cases h2 : "content-guardian-blurred" ∈ e.classes <;>
  by_cases h3 : "content-guardian-flagged" ∈ e.classes <;>
  simp [h1, h2, h3] at hh hb hf ⊢
  all_goals
    first
    | (rw [hh] at hb; simp at hb)
    | (rw [hh] at hf; simp at hf)
    | (rw [hb] at hf; simp at hf)

/-- C7, amended: in every state reachable by scan passes from a tree with distinct handles
and without controls, controls of one kind are never duplicated within a wrapper: every
node that is not a control and does not lie inside one has at most one unblur button and at
most one flag indicator among its children (it may have one of each).  What the parser puts
inside a control, where the keyword is written unescaped, is left out. -/
theorem controls_once_per_kind [Browser] (init : ContentFilter) (hfresh : init.page.Fresh)
    (hnodup : init.page.dom.ids.Nodup)
    (hun : ∀ e ∈ init.page.dom.nodes, e.isControl = false)
    (st : ContentFilter) (hr : Reachable init st) (w : Nat)
    (hself : ∀ e ∈ (st.page.dom.get? w).toList, e.isControl = false)
    (hanc : ∀ a ∈ st.page.dom.ancestorsOf w, a.isControl = false) :
    ((st.page.dom.childrenOf w).filter Elem.isUnblur).length ≤ 1 ∧
    ((st.page.dom.childrenOf w).filter Elem.isFlag).length ≤ 1 := by
  obtain ⟨log, ht⟩ := Trace.of_reachable hr
  have key : st.page.Sound :=
    ht.explains.keeps_sound ⟨hfresh, hnodup, Dom.controlsOnce_of_no_control _ hun⟩
  unfold Dom.childrenOf
  cases hl : st.page.dom.locate [] w with
  | none => simp
  | some r =>
    obtain ⟨chain, kids⟩ := r
    have hspec := Dom.locate_spec [] st.page.dom w
    rw [hl] at hspec
    obtain ⟨x, up, hx, hg, _⟩ := hspec
    subst hx
    have hout : ∀ a ∈ x :: up, a.isControl = false := by
      intro a ha
      rcases List.mem_cons.mp ha with rfl | ha
      · exact hself a (by simp [hg])
      · apply hanc
        simp [Dom.ancestorsOf, hl, ha]
    have := Dom.controlsOnce_locate [] _ w _ kids key.2.2 hl hout
    simpa [List.countP_eq_length_filter] using this

/-- Witness of C7 (amended): the nested document after one scan pass with the rules flag
"cat" and blur "dog"; wrapper 100 lies outside the controls. -/
theorem controls_once_per_kind_witness :
    (((endState (scanAndFilter (engineOn [mkRule 1 "cat" "flag", mkRule 2 "dog" "blur"]
        nestedDoc))).page.dom.childrenOf 100).filter Elem.isUnblur).length ≤ 1 ∧
    (((endState (scanAndFilter (engineOn [mkRule 1 "cat" "flag", mkRule 2 "dog" "blur"]
        nestedDoc))).page.dom.childrenOf 100).filter Elem.isFlag).length ≤ 1 :=
  controls_once_per_kind (engineOn [mkRule 1 "cat" "flag", mkRule 2 "dog" "blur"] nestedDoc)
    (by unfold Page.Fresh; decide) (by decide) (by decide) _ (Reachable.scan _ Reachable.start)
    100 (by decide) (by decide)

/-- C9, amended: in every state reachable by scan passes from an unannotated tree, a node
that does not lie inside a control carries exactly the presentation classes of the actions
of the rules that `applyFilter` applied with that node as resolved container (`log` lists
these applications).  So it carries at most one presentation class when all the rules
applied to it have the same action, in particular when all enabled rules have the same
action; rules with different actions applied to one container leave it with several. -/
theorem presentation_classes_by_application [Browser] (init : ContentFilter)
    (hfresh : init.page.Fresh) (hun : ∀ e ∈ init.page.dom.nodes, e.presentation = [])
    (st : ContentFilter) (hr : Reachable init st) :
    ∃ log, Trace init st log ∧ ∀ e ∈ st.page.dom.outer,
      (∀ cls ∈ presentationClasses,
        (cls ∈ e.classes ↔
          ∃ a ∈ log, a.container = e.nid ∧ ClassOfAction a.rule.action cls)) ∧
      ((∀ a ∈ log, ∀ b ∈ log, a.container = e.nid → b.container = e.nid →
          a.rule.action = b.rule.action) → e.presentation.length ≤ 1) ∧
      (∀ action, (∀ k ∈ init.keywords, k.enabled = true → k.action = action) →
        e.presentation.length ≤ 1) := by
  obtain ⟨log, ht⟩ := Trace.of_reachable hr
  refine ⟨log, ht, ?_⟩
  obtain ⟨ms, hrun, hj, hc⟩ := ht.explains
  have hcl := (hrun.outer_classes hfresh
    (fun e he => hun e (Dom.outer_subset_nodes _ e he))).2
  intro e he
  have hiff : ∀ cls ∈ presentationClasses,
      (cls ∈ e.classes ↔
        ∃ a ∈ log, a.container = e.nid ∧ ClassOfAction a.rule.action cls) := by
    intro cls hcls
    rw [hcl e he cls hcls]
    constructor
    · intro hm
      exact hj _ hm
    · rintro ⟨a, ha, hac, hcoa⟩
      rw [← hac]
      exact hc a ha cls hcoa
  have hsame : (∀ a ∈ log, ∀ b ∈ log, a.container = e.nid → b.container = e.nid →
      a.rule.action = b.rule.action) → e.presentation.length ≤ 1 := by
    intro hs
    by_cases hex : ∃ a ∈ log, a.container = e.nid
    · obtain ⟨a0, ha0, hac0⟩ := hex
      apply presentation_length_le_one a0.rule.action
      intro cls hcls hp
      obtain ⟨a, ha, hac, hcoa⟩ := (hiff cls hp).mp hcls
      rw [hs a0 ha0 a ha hac0 hac]
      exact hcoa
    · have : e.presentation = [] := by
        simp only [Elem.presentation, List.filter_eq_nil_iff]
        intro cls hcls
        simp only [decide_eq_true_eq]
        intro hmem
        obtain ⟨a, ha, hac, _⟩ := (hiff cls hcls).mp hmem
        exact hex ⟨a, ha, hac⟩
      simp [this]
  refine ⟨hiff, hsame, ?_⟩
  intro action hact
  apply hsame
  intro a ha b hb _ _
  have h1 := (ht.spec hfresh).2.2.2 a ha
  have h2 := (ht.spec hfresh).2.2.2 b hb
  rw [hact a.rule h1.1 h1.2, hact b.rule h2.1 h2.2]

/-- C10, amended: a scan pass skips every node that bears the processed mark: the body of
the loop returns at once for it, and the pass makes no application for it.  The pass changes
the classes of a node only by an application that resolves to that node as container, so a
marked container for which the pass makes no application is left as it is, whatever else
the pass matches and whatever the rules are; and it adds a control to the children of a
node only by an application that uses that node as wrapper. -/
theorem scan_frame [Browser] (st : ContentFilter) (hfresh : st.page.Fresh) :
    (∀ kws el, Marked st.page el → scanElement kws st el = .ok st) ∧
    (∀ a ∈ applications st, ¬ Marked st.page a.element) ∧
    (∀ c e, st.page.dom.get? c = some e → (∀ a ∈ applications st, a.container ≠ c) →
      ((endState (scanAndFilter st)).page.dom.get? c).map Elem.classes = some e.classes) ∧
    (∀ c e, st.page.dom.get? c = some e → e.processed = true →
      (∀ a ∈ applications st, a.container ≠ c) →
      (endState (scanAndFilter st)).page.dom.get? c = some e) ∧
    (∀ w, (∃ x ∈ st.page.dom.nodes, x.nid = w) → (∀ a ∈ applications st, a.wrapper ≠ w) →
      ∀ x ∈ (endState (scanAndFilter st)).page.dom.childrenOf w, x.isControl = true →
        ∃ y ∈ st.page.dom.childrenOf w, y.nid = x.nid ∧ y.isControl = true) := by
  have hspec := applications_spec st hfresh
  obtain ⟨ms, hrun, hj, _⟩ := scanAndFilter_run st
  have hnoclass : ∀ c, (∀ a ∈ applications st, a.container ≠ c) →
      ∀ cls, Mutation.addClass c cls ∉ ms := by
    intro c hc cls hm
    obtain ⟨a, ha, hac, _⟩ := hj _ hm
    exact hc a ha hac
  refine ⟨?_, fun a ha => (hspec a ha).1, ?_, ?_, ?_⟩
  · intro kws el hm
    unfold scanElement
    split
    · next e up kids hloc =>
      have hloc_spec := Dom.locate_spec [] st.page.dom el
      rw [hloc] at hloc_spec
      obtain ⟨x, up1, hx, hg, _⟩ := hloc_spec
      simp only [List.cons.injEq] at hx
      unfold Marked at hm
      rw [hg, ← hx.1] at hm
      simp only [Option.map_some', Option.some.injEq] at hm
      simp [hm]
    · rfl
  · intro c e hg hc
    have hm := Dom.get?_some_mem _ _ _ hg
    rw [hrun.get? hfresh c (by have := hfresh e hm.1; omega), hg]
    simp only [Option.map_some', Option.some.injEq]
    apply foldl_touch_classes
    rw [hm.2]
    exact hnoclass c hc
  · intro c e hg hp hc
    have hm := Dom.get?_some_mem _ _ _ hg
    rw [hrun.get? hfresh c (by have := hfresh e hm.1; omega), hg]
    simp only [Option.map_some', Option.some.injEq]
    apply foldl_touch_of_ne
    · rw [hm.2]
      exact hnoclass c hc
    · rw [hm.2]
      intro hmark
      obtain ⟨a, ha, hae⟩ := hj _ hmark
      apply (hspec a ha).1
      rw [hae]
      exact Marked.of_get? _ _ _ hg hp
  · rintro w ⟨x, hx, hxw⟩ hw
    apply hrun.controlChildren hfresh w (by have := hfresh x hx; omega)
    intro kw
    constructor
    · intro hm
      obtain ⟨a, ha, haw, _⟩ := hj _ hm
      exact hw a ha haw
    · intro hm
      obtain ⟨a, ha, haw, _⟩ := hj _ hm
      exact hw a ha haw

/-- Witness of C9 (amended): `html > body > article > [h1 > "Cat news", p > "Dog news"]`
after one scan pass with the rules hide "cat" and blur "dog". -/
theorem presentation_classes_by_application_witness :
    ∃ log, Trace (engineOn [mkRule 1 "cat" "hide", mkRule 2 "dog" "blur"] twoMatchDoc)
        (endState (scanAndFilter
          (engineOn [mkRule 1 "cat" "hide", mkRule 2 "dog" "blur"] twoMatchDoc))) log ∧
      ∀ e ∈ (endState (scanAndFilter
          (engineOn [mkRule 1 "cat" "hide", mkRule 2 "dog" "blur"] twoMatchDoc))).page.dom.outer,
        (∀ cls ∈ presentationClasses,
          (cls ∈ e.classes ↔
            ∃ a ∈ log, a.container = e.nid ∧ ClassOfAction a.rule.action cls)) ∧
        ((∀ a ∈ log, ∀ b ∈ log, a.container = e.nid → b.container = e.nid →
            a.rule.action = b.rule.action) → e.presentation.length ≤ 1) ∧
        (∀ action, (∀ k ∈ (engineOn [mkRule 1 "cat" "hide", mkRule 2 "dog" "blur"]
            twoMatchDoc).keywords, k.enabled = true → k.action = action) →
          e.presentation.length ≤ 1) :=
  presentation_classes_by_application
    (engineOn [mkRule 1 "cat" "hide", mkRule 2 "dog" "blur"] twoMatchDoc)
    (by unfold Page.Fresh; decide) (by decide) _ (Reachable.scan _ Reachable.start)

/-- Witness of C10 (amended): in `html > body > [article > p > "Dog news", article > h1 >
"Cat news"]` the first `article` is hidden and marked, and so is its paragraph; the rules
are now blur "dog" and blur "cat".  The pass makes two applications, both for the second
`article`, and leaves the first one as it is. -/
theorem scan_frame_witness :
    (applications (engineOn [mkRule 2 "dog" "blur", mkRule 1 "cat" "blur"] feedDoc)).map
      (fun a => (a.element, a.container)) = [(7, 6), (6, 6)] ∧
    (endState (scanAndFilter
      (engineOn [mkRule 2 "dog" "blur", mkRule 1 "cat" "blur"] feedDoc))).page.dom.get? 3
      = some ⟨3, "article", ["content-guardian-hidden"],
          [("data-content-guardian-processed", "true")], "", 100, 400⟩ :=
  ⟨by decide,
    (scan_frame (engineOn [mkRule 2 "dog" "blur", mkRule 1 "cat" "blur"] feedDoc)
      (by unfold Page.Fresh; decide)).2.2.2.1 3 _ (by decide) (by decide) (by decide)⟩

/-! ## Joining the text sources -/

theorem joinNonEmpty_cons_ne (a : String) (r : List String) (ha : a ≠ "") :
    joinNonEmpty (a :: r) ≠ "" := by
  simp only [joinNonEmpty, ha, if_false]
  split
  · exact ha
  · rw [String.append_assoc]
    exact append_ne_empty _ _ ha

theorem joinNonEmpty_single (a : String) : joinNonEmpty [a] = a := by
  by_cases ha : a = "" <;> simp [joinNonEmpty, ha]

theorem joinNonEmpty_cons (a : String) (r : List String) (ha : a ≠ "")
    (hr : joinNonEmpty r ≠ "") : joinNonEmpty (a :: r) = a ++ " " ++ joinNonEmpty r := by
  simp only [joinNonEmpty, ha, hr, if_false]

theorem intercalate_go_eq (acc : String) (l : List String) (hl : ∀ s ∈ l, s ≠ "") :
    String.intercalate.go acc " " l
      = if joinNonEmpty l = "" then acc else acc ++ " " ++ joinNonEmpty l := by
  induction l generalizing acc with
  | nil => simp [String.intercalate.go, joinNonEmpty]
  | cons a r ih =>
    have ha : a ≠ "" := hl a (by simp)
    have hne := joinNonEmpty_cons_ne a r ha
    simp only [String.intercalate.go, ih (acc ++ " " ++ a) (fun s hs => hl s (by simp [hs])),
      hne, if_false]
    simp only [joinNonEmpty, ha, if_false]
    split
    · rfl
    · simp only [String.append_assoc]

theorem intercalate_eq_joinNonEmpty (l : List String) (hl : ∀ s ∈ l, s ≠ "") :
    " ".intercalate l = joinNonEmpty l := by
  cases l with
  | nil => rfl
  | cons a r =>
    have ha : a ≠ "" := hl a (by simp)
    simp only [String.intercalate, intercalate_go_eq a r (fun s hs => hl s (by simp [hs]))]
    simp only [joinNonEmpty, ha, if_false]

theorem joinNonEmpty_filter (l : List String) :
    joinNonEmpty (l.filter (fun s => s != "")) = joinNonEmpty l := by
  induction l with
  | nil => rfl
  | cons a r ih =>
    by_cases ha : a = ""
    · simp [List.filter_cons, ha, joinNonEmpty, ih]
    · have : (a != "") = true := by simpa using ha
      simp only [List.filter_cons, this, if_true, joinNonEmpty, ha, if_false, ih]

/-! ## The browser of the examples stands for every browser -/

theorem plainText_unblurLabel (kw : Rule) (h : plainText kw.keyword = true) :
    plainText (unblurLabel kw) = true ∧ unblurLabel kw ≠ "" := by
  constructor
  · simp only [unblurLabel, plainText_append, h, Bool.and_true, Bool.and_eq_true]
    exact ⟨by decide, by decide⟩
  · simp only [unblurLabel, String.append_assoc]
    exact append_ne_empty _ _ (by decide)

theorem isAscii_append (a b : String) : isAscii (a ++ b) = (isAscii a && isAscii b) := by
  simp [isAscii, String.data_append, List.all_append]

theorem isAscii_joinNonEmpty (l : List String) (h : ∀ s ∈ l, isAscii s = true) :
    isAscii (joinNonEmpty l) = true := by
  induction l with
  | nil => decide
  | cons a r ih =>
    have hr := ih (fun s hs => h s (by simp [hs]))
    have ha := h a (by simp)
    simp only [joinNonEmpty]
    split
    · exact hr
    · split
      · exact ha
      · simp only [isAscii_append, ha, hr, Bool.and_true]
        decide

theorem Dom.isAscii_textContent (d : Dom) (h : d.ascii = true) :
    isAscii d.textContent = true := by
  induction d with
  | nil => decide
  | node e c s ihc ihs =>
    simp only [Dom.ascii, Dom.nodes, List.all_cons, List.all_append, Bool.and_eq_true] at h
    simp only [Dom.textContent, isAscii_append, Bool.and_eq_true]
    refine ⟨?_, ihc h.2.1, ihs h.2.2⟩
    split
    · have := h.1
      simp only [Elem.ascii, Bool.and_eq_true] at this
      exact this.1.1.1
    · decide

theorem Elem.isAscii_alt (e : Elem) (h : e.ascii = true) : isAscii e.alt = true := by
  simp only [Elem.ascii, Bool.and_eq_true] at h
  unfold Elem.alt
  split
  · exact h.1.2
  · decide

theorem getElementText_agree (B : Browser) (e : Elem) (kids : Dom) (he : e.ascii = true)
    (hk : kids.ascii = true) :
    @getElementText B e kids = @getElementText asciiBrowser e kids := by
  have hs : isAscii (" ".intercalate
      ([kids.textContent, (e.getAttribute "title").getD "", e.alt,
        (e.getAttribute "aria-label").getD ""].filter (fun s => s != ""))) = true := by
    rw [intercalate_eq_joinNonEmpty _ (fun s hs => by simpa using (List.mem_filter.mp hs).2),
      joinNonEmpty_filter]
    apply isAscii_joinNonEmpty
    have h1 := Dom.isAscii_textContent kids hk
    have h3 := Elem.isAscii_alt e he
    simp only [Elem.ascii, Bool.and_eq_true] at he
    intro s hs
    simp only [List.mem_cons, List.mem_singleton, List.not_mem_nil, or_false] at hs
    rcases hs with rfl | rfl | rfl | rfl
    · exact h1
    · exact he.1.1.2
    · exact h3
    · exact he.2
  unfold getElementText
  rw [@Browser.toLowerCase_ascii B _ hs]
  rfl

theorem findMatchingKeyword_agree (B : Browser) (text : String) (kws : List Rule)
    (h : ∀ k ∈ kws, k.ascii = true) :
    @findMatchingKeyword B text kws = @findMatchingKeyword asciiBrowser text kws := by
  induction kws with
  | nil => rfl
  | cons k rest ih =>
    have hk := h k (by simp)
    simp only [Rule.ascii, Bool.and_eq_true] at hk
    have e1 : @toLowerCase B k.keyword = @toLowerCase asciiBrowser k.keyword := by
      rw [@Browser.toLowerCase_ascii B _ hk.1]
      rfl
    simp only [findMatchingKeyword, e1, ih (fun x hx => h x (by simp [hx]))]

theorem parseFragment_agree (B : Browser) (html : String) (n : Nat)
    (hp : plainText html = true ∧ html ≠ "") :
    @parseFragment B html n = @parseFragment asciiBrowser html n := by
  rw [@Browser.parseFragment_plain B html n hp.1 hp.2]
  rfl

theorem applyFilter_agree (B : Browser) (p : Page) (el : Nat) (kw : Rule)
    (hk : kw.ascii = true) :
    @applyFilter B p el kw = @applyFilter asciiBrowser p el kw := by
  simp only [Rule.ascii, Bool.and_eq_true] at hk
  have h1 : ∀ n, @parseFragment B (unblurLabel kw) n
      = @parseFragment asciiBrowser (unblurLabel kw) n :=
    fun n => parseFragment_agree B _ n (plainText_unblurLabel kw hk.2)
  have h2 : ∀ n, @parseFragment B (flagLabel kw) n
      = @parseFragment asciiBrowser (flagLabel kw) n :=
    fun n => parseFragment_agree B _ n (plainText_flagLabel kw hk.2)
  simp only [applyFilter, applyAction, addUnblurButton, addFlagIndicator, h1, h2]

theorem Elem.ascii_of_attrs (e x : Elem) (ht : x.text = e.text)
    (ha : ∀ n, n ≠ "data-content-guardian-processed" → x.getAttribute n = e.getAttribute n)
    (h : e.ascii = true) : x.ascii = true := by
  simp only [Elem.ascii, ht, ha "title" (by decide), ha "alt" (by decide),
    ha "aria-label" (by decide)] at h ⊢
  exact h

theorem isAscii_unblurLabel (kw : Rule) (h : isAscii kw.keyword = true) :
    isAscii (unblurLabel kw) = true := by
  simp only [unblurLabel, isAscii_append, h, Bool.and_true, Bool.and_eq_true]
  exact ⟨by decide, by decide⟩

theorem isAscii_flagLabel (kw : Rule) (h : isAscii kw.keyword = true) :
    isAscii (flagLabel kw) = true := by
  simp only [flagLabel, isAscii_append, h, Bool.and_true, Bool.and_eq_true]
  exact ⟨by decide, by decide⟩

theorem ascii_textNode (n : Nat) (s : String) (h : isAscii s = true) :
    ∀ x ∈ (textNode n s).nodes, x.ascii = true := by
  intro x hx
  simp only [textNode, Dom.nodes, List.append_nil, List.mem_singleton] at hx
  subst hx
  simp only [Elem.ascii, Elem.getAttribute, List.find?_nil, Option.map_none', Option.getD_none,
    h, Bool.true_and]
  decide

theorem Mutation.ascii_apply [Browser] (p : Page) (m : Mutation) (hd : p.dom.ascii = true)
    (hm : ∀ w kw, m = .unblur w kw ∨ m = .flag w kw → kw.ascii = true) :
    (m.apply p).dom.ascii = true := by
  simp only [Dom.ascii, List.all_eq_true] at hd ⊢
  cases m with
  | wrap c =>
    exact Dom.forall_nodes_wrap (fun x => x.ascii = true) _ _ _
      (by simp [wrapperElem, Elem.ascii, Elem.getAttribute, isAscii]) hd
  | addClass cid cls =>
    exact Dom.forall_nodes_modify (fun x => x.ascii = true) _ _ _
      (fun e he => Elem.ascii_of_attrs e _ rfl (fun _ _ => rfl) he) hd
  | mark el =>
    exact Dom.forall_nodes_modify (fun x => x.ascii = true) _ _ _
      (fun e he => Elem.ascii_of_attrs e _ rfl
        (fun n hn => getAttribute_markProcessed e n hn) he) hd
  | unblur w kw =>
    have hk := hm w kw (Or.inl rfl)
    simp only [Rule.ascii, Bool.and_eq_true] at hk
    have hl := plainText_unblurLabel kw hk.2
    simp only [Mutation.apply, Browser.parseFragment_plain _ _ hl.1 hl.2]
    exact Dom.forall_nodes_prepend (fun x => x.ascii = true) _ _ _ _
      (by simp [unblurElem, Elem.ascii, Elem.getAttribute, isAscii])
      (ascii_textNode _ _ (isAscii_unblurLabel kw hk.1)) hd
  | flag w kw =>
    have hk := hm w kw (Or.inr rfl)
    simp only [Rule.ascii, Bool.and_eq_true] at hk
    have hl := plainText_flagLabel kw hk.2
    simp only [Mutation.apply, Browser.parseFragment_plain _ _ hl.1 hl.2]
    exact Dom.forall_nodes_prepend (fun x => x.ascii = true) _ _ _ _
      (by simp [flagElem, Elem.ascii, Elem.getAttribute, isAscii])
      (ascii_textNode _ _ (isAscii_flagLabel kw hk.1)) hd

theorem Explains.keeps_ascii [Browser] {p q : Page} {log : List Application}
    (h : Explains p q log) (hd : p.dom.ascii = true) (hk : ∀ a ∈ log, a.rule.ascii = true) :
    q.dom.ascii = true := by
  obtain ⟨ms, hr, hj, -⟩ := h
  induction hr with
  | nil => exact hd
  | snoc p1 ms m hr _ ih =>
    apply Mutation.ascii_apply p1 m (ih (fun x hx => hj x (by simp [hx])))
    intro w kw hm
    have := hj m (by simp)
    rcases hm with rfl | rfl
    · obtain ⟨a, ha, _, har⟩ := this
      rw [← har]
      exact hk a ha
    · obtain ⟨a, ha, _, har⟩ := this
      rw [← har]
      exact hk a ha

theorem scanElement_ascii [Browser] (kws : List Rule) (st : ContentFilter) (el : Nat)
    (hd : st.page.dom.ascii = true) (hk : ∀ k ∈ kws, k.ascii = true) :
    (endState (scanElement kws st el)).page.dom.ascii = true := by
  apply (scanElement_run kws st el).keeps_ascii hd
  intro a ha
  have : applicationOf kws st el = some a := by
    cases ho : applicationOf kws st el with
    | none => rw [ho] at ha; simp at ha
    | some b =>
      rw [ho] at ha
      simp only [Option.toList, List.mem_singleton] at ha
      rw [ha]
  exact hk _ (applicationOf_spec kws st el a this).2.1

theorem scanElement_agree (B : Browser) (kws : List Rule) (st : ContentFilter) (el : Nat)
    (hd : st.page.dom.ascii = true) (hk : ∀ k ∈ kws, k.ascii = true) :
    @scanElement B kws st el = @scanElement asciiBrowser kws st el := by
  unfold scanElement
  cases hl : st.page.dom.locate [] el with
  | none => rfl
  | some r =>
    obtain ⟨chain, kids⟩ := r
    cases chain with
    | nil => rfl
    | cons e up =>
      have hspec := Dom.locate_spec [] st.page.dom el
      rw [hl] at hspec
      obtain ⟨x, up1, hx, hg, hkids⟩ := hspec
      simp only [List.cons.injEq] at hx
      have hall : ∀ y ∈ st.page.dom.nodes, y.ascii = true := by
        simpa [Dom.ascii, List.all_eq_true] using hd
      have he : e.ascii = true := by
        rw [hx.1]
        exact hall x (Dom.get?_some_mem _ _ _ hg).1
      have hka : kids.ascii = true := by
        simp only [Dom.ascii, List.all_eq_true]
        exact fun y hy => hall y (hkids y hy)
      simp only [getElementText_agree B e kids he hka, findMatchingKeyword_agree B _ kws hk]
      split
      · rfl
      · cases hf : @findMatchingKeyword asciiBrowser
            (@getElementText asciiBrowser e kids) kws with
        | none => rfl
        | some kw =>
          have hm := @findMatchingKeyword_mem asciiBrowser _ _ _ hf
          simp only [applyFilter_agree B st.page el kw (hk kw hm)]

theorem scanElements_agree (B : Browser) (kws : List Rule) (els : List Nat)
    (hk : ∀ k ∈ kws, k.ascii = true) :
    ∀ st : ContentFilter, st.page.dom.ascii = true →
      @scanElements B kws els st = @scanElements asciiBrowser kws els st ∧
      (endState (@scanElements asciiBrowser kws els st)).page.dom.ascii = true := by
  induction els with
  | nil => intro st hd; exact ⟨rfl, hd⟩
  | cons el rest ih =>
    intro st hd
    have h1 := scanElement_agree B kws st el hd hk
    have h2 := @scanElement_ascii asciiBrowser kws st el hd hk
    simp only [scanElements, h1]
    cases hs : @scanElement asciiBrowser kws st el with
    | ok st1 =>
      rw [hs] at h2
      exact ih st1 h2
    | error st1 =>
      rw [hs] at h2
      exact ⟨rfl, h2⟩

theorem scanSelectors_agree (B : Browser) (kws : List Rule) (sels : List Selector)
    (hk : ∀ k ∈ kws, k.ascii = true) :
    ∀ st : ContentFilter, st.page.dom.ascii = true →
      @scanSelectors B kws sels st = @scanSelectors asciiBrowser kws sels st ∧
      (endState (@scanSelectors asciiBrowser kws sels st)).page.dom.ascii = true := by
  induction sels with
  | nil => intro st hd; exact ⟨rfl, hd⟩
  | cons sel rest ih =>
    intro st hd
    have h1 := scanElements_agree B kws ((queryAll sel [] st.page.dom).map (fun e => e.nid))
      hk st hd
    simp only [scanSelectors, h1.1]
    cases hs : @scanElements asciiBrowser kws
        ((queryAll sel [] st.page.dom).map (fun e => e.nid)) st with
    | ok st1 =>
      have h2 := h1.2
      rw [hs] at h2
      exact ih st1 h2
    | error st1 =>
      have h2 := h1.2
      rw [hs] at h2
      exact ⟨rfl, h2⟩

/-- On a document whose texts are ASCII strings, with enabled rules whose keywords are
ASCII strings without markup, a scan pass gives the same result in every browser as in the
browser of the examples, and the document it leaves is again of that kind.  So what is
evaluated for the examples holds in every browser. -/
theorem scanAndFilter_agree (B : Browser) (st : ContentFilter)
    (hd : st.page.dom.ascii = true)
    (hk : ∀ k ∈ st.keywords, k.enabled = true → k.ascii = true) :
    @scanAndFilter B st = @scanAndFilter asciiBrowser st ∧
    (endState (@scanAndFilter asciiBrowser st)).page.dom.ascii = true := by
  unfold scanAndFilter
  split
  · exact ⟨rfl, hd⟩
  · apply scanSelectors_agree B _ _ _ st hd
    intro k hkm
    have := List.mem_filter.mp hkm
    exact hk k this.1 this.2

theorem Dom.nodes_remove_subset (i : Nat) (d : Dom) : ∀ x ∈ (d.remove i).nodes, x ∈ d.nodes := by
  induction d with
  | nil => intro x hx; exact hx
  | node e c s ihc ihs =>
    intro x hx
    simp only [Dom.remove] at hx
    simp only [Dom.nodes, List.mem_cons, List.mem_append]
    split at hx
    · exact Or.inr (Or.inr (ihs x hx))
    · simp only [Dom.nodes, List.mem_cons, List.mem_append] at hx
      rcases hx with h | h | h
      · exact Or.inl h
      · exact Or.inr (Or.inl (ihc x h))
      · exact Or.inr (Or.inr (ihs x h))

theorem foldl_keeps {α : Type} (Q : Dom → Prop) (f : Dom → α → Dom)
    (hf : ∀ d a, Q d → Q (f d a)) (l : List α) : ∀ d, Q d → Q (l.foldl f d) := by
  induction l with
  | nil => intro d h; exact h
  | cons a r ih => intro d h; exact ih _ (hf d a h)

theorem getAttribute_clearProcessed (e : Elem) (n : String)
    (h : n ≠ "data-content-guardian-processed") :
    (clearProcessed e).getAttribute n = e.getAttribute n := by
  simp only [Elem.getAttribute, clearProcessed, removeAttr]
  congr 1
  induction e.attrs with
  | nil => rfl
  | cons a r ih =>
    by_cases ha : a.1 = "data-content-guardian-processed"
    · have hn : (a.1 == n) = false := by
        rw [beq_eq_false_iff_ne]
        exact fun hh => h (hh ▸ ha)
      have hf : (a.1 != "data-content-guardian-processed") = false := by simp [ha]
      rw [List.filter_cons, List.find?_cons]
      simp only [hf, hn, Bool.false_eq_true, if_false]
      exact ih
    · have hf : (a.1 != "data-content-guardian-processed") = true := by simp [ha]
      rw [List.filter_cons]
      simp only [hf, if_true, List.find?_cons]
      cases (a.1 == n) with
      | true => rfl
      | false => exact ih

theorem stripFilters_ascii (d : Dom) (h : d.ascii = true) : (stripFilters d).ascii = true := by
  have hmod : ∀ (g : Elem → Elem), (∀ e, e.ascii = true → (g e).ascii = true) →
      ∀ (t : Dom) (i : Nat), t.ascii = true → (t.modify i g).ascii = true := by
    intro g hg t i ht
    simp only [Dom.ascii, List.all_eq_true] at ht ⊢
    exact Dom.forall_nodes_modify (fun x => x.ascii = true) i g t hg ht
  have hrem : ∀ (t : Dom) (i : Nat), t.ascii = true → (t.remove i).ascii = true := by
    intro t i ht
    simp only [Dom.ascii, List.all_eq_true] at ht ⊢
    exact fun x hx => ht x (Dom.nodes_remove_subset i t x hx)
  unfold stripFilters
  apply foldl_keeps (fun t => t.ascii = true) _ hrem
  apply foldl_keeps (fun t => t.ascii = true) _
    (hmod clearPresentation (fun e he => Elem.ascii_of_attrs e _ rfl (fun _ _ => rfl) he))
  exact foldl_keeps (fun t => t.ascii = true) _
    (hmod clearProcessed (fun e he => Elem.ascii_of_attrs e _ rfl
      (fun n hn => getAttribute_clearProcessed e n hn) he)) _ d h

/-- The full reset gives the same result in every browser as in the browser of the
examples, on a document whose texts are ASCII strings and with enabled rules whose
keywords are ASCII strings without markup. -/
theorem refilterPage_agree (B : Browser) (st : ContentFilter)
    (hd : st.page.dom.ascii = true)
    (hk : ∀ k ∈ st.keywords, k.enabled = true → k.ascii = true) :
    @refilterPage B st = @refilterPage asciiBrowser st :=
  (scanAndFilter_agree B
    { st with page := ⟨stripFilters st.page.dom, st.page.next⟩, filteredCount := 0 }
    (stripFilters_ascii _ hd) hk).1

theorem find?_congr_mem {α : Type} (l : List α) (f g : α → Bool) (h : ∀ x ∈ l, f x = g x) :
    l.find? f = l.find? g := by
  induction l with
  | nil => rfl
  | cons a r ih =>
    simp only [List.find?_cons, h a (by simp), ih (fun x hx => h x (by simp [hx]))]

/-- The import gives the same rule list in every browser as in the browser of the
examples, when the keywords of the list and of the file are ASCII strings. -/
theorem importKeywords_agree (B : Browser) (keywords dataKeywords : List Rule)
    (h1 : ∀ k ∈ keywords, isAscii k.keyword = true)
    (h2 : ∀ k ∈ dataKeywords, isAscii k.keyword = true) :
    @importKeywords B keywords dataKeywords = @importKeywords asciiBrowser keywords dataKeywords ∧
    (@KeywordsDistinct B (@importKeywords B keywords dataKeywords) ↔
      @KeywordsDistinct asciiBrowser (@importKeywords asciiBrowser keywords dataKeywords)) := by
  have hl : ∀ s, isAscii s = true → @toLowerCase B s = @toLowerCase asciiBrowser s := by
    intro s hs
    rw [@Browser.toLowerCase_ascii B _ hs]
    rfl
  have himp : @importKeywords B keywords dataKeywords
      = @importKeywords asciiBrowser keywords dataKeywords := by
    unfold importKeywords
    congr 1
    apply List.filter_congr
    intro x hx
    congr 1
    apply find?_congr_mem
    intro y hy
    rw [hl _ (h1 y hy), hl _ (h2 x hx)]
  refine ⟨himp, ?_⟩
  rw [himp]
  unfold KeywordsDistinct
  have hmap : (@importKeywords asciiBrowser keywords dataKeywords).map
        (fun k => @toLowerCase B k.keyword)
      = (@importKeywords asciiBrowser keywords dataKeywords).map
        (fun k => @toLowerCase asciiBrowser k.keyword) := by
    apply List.map_congr_left
    intro k hk
    apply hl
    unfold importKeywords at hk
    rcases List.mem_append.mp hk with h | h
    · exact h1 k h
    · exact h2 k (List.mem_filter.mp h).1
  rw [hmap]

/-! ## One call of `applyFilter` -/

/-! ### Step 1: the wrapper -/

theorem ensureWrapper_spec (p : Page) (c : Elem) (chain : List Elem) (kids : Dom)
    (hfresh : p.Fresh) (hloc : p.dom.locate [] c.nid = some (chain, kids))
    (hlen : 2 ≤ chain.length) :
    ∃ q w, ensureWrapper p c = some (q, w) ∧ p.Extends q ∧ (∃ x ∈ q.dom.nodes, x.nid = w) ∧
      q.dom.controlIds = p.dom.controlIds := by
  unfold ensureWrapper
  rw [hloc]
  dsimp only
  cases hq : queryAll (selClass "content-guardian-wrapper") chain kids with
  | cons wr rest =>
    refine ⟨p, wr.nid, rfl, Page.Extends.refl p hfresh, ⟨wr, ?_, rfl⟩, rfl⟩
    have hmem : wr ∈ queryAll (selClass "content-guardian-wrapper") chain kids := by
      rw [hq]; simp
    rw [queryAll_selClass] at hmem
    have hk := (List.mem_filter.mp hmem).1
    have := Dom.locate_spec [] p.dom c.nid
    rw [hloc] at this
    obtain ⟨_, _, _, _, hsub⟩ := this
    exact hsub wr hk
  | nil =>
    have hl : ¬ chain.length ≤ 1 := by omega
    simp only [hl, if_false]
    have hspec := Dom.locate_spec [] p.dom c.nid
    rw [hloc] at hspec
    obtain ⟨x, up, _, hx, _⟩ := hspec
    have hxm := Dom.get?_some_mem _ _ _ hx
    refine ⟨_, _, rfl, ⟨?_, Nat.le_succ _, ?_⟩, ?_, ?_⟩
    · apply Dom.forall_nodes_wrap (fun x => x.nid < p.next + 1)
      · simp [wrapperElem]
      · intro y hy
        exact Nat.lt_succ_of_lt (hfresh y hy)
    · intro j hj
      apply Dom.get?_wrap
      simp [wrapperElem]
      omega
    · refine ⟨wrapperElem p.next c, ?_, rfl⟩
      rw [Dom.nodes_wrap, List.mem_flatMap]
      exact ⟨x, hxm.1, by simp [hxm.2]⟩
    · simp only [Dom.controlIds, Dom.nodes_wrap]
      rw [filter_flatMap_same]
      intro e
      split <;> simp [List.filter_cons, wrapperElem, Elem.isControl, Elem.isUnblur, Elem.isFlag]

/-! ### Step 2: the presentation class -/

theorem addClass_spec (p q : Page) (cid : Nat) (cls : String) (hfresh : p.Fresh)
    (hcls : cls ≠ "content-guardian-unblur" ∧ cls ≠ "content-guardian-flag")
    (hq : q = p.addClass cid cls) :
    q.Fresh ∧
    ((∃ x ∈ p.dom.nodes, x.nid = cid) →
      q.dom.classesOf cid = classListAdd cls (p.dom.classesOf cid)) ∧
    (∀ j, j ≠ cid → q.dom.get? j = p.dom.get? j) ∧
    q.dom.controlIds = p.dom.controlIds ∧
    (∀ w, (∃ x ∈ p.dom.nodes, x.nid = w) → ∃ x ∈ q.dom.nodes, x.nid = w) ∧
    (∀ w b, b ∈ q.dom.descendantsOf w → ∃ a ∈ p.dom.descendantsOf w,
      b.tag = a.tag ∧ b.nid = a.nid ∧
      ("content-guardian-unblur" ∈ b.classes ↔ "content-guardian-unblur" ∈ a.classes) ∧
      ("content-guardian-flag" ∈ b.classes ↔ "content-guardian-flag" ∈ a.classes)) := by
  subst hq
  have hg : ∀ e : Elem, ({ e with classes := classListAdd cls e.classes } : Elem).nid = e.nid :=
    fun _ => rfl
  refine ⟨?_, ?_, ?_, ?_, ?_, ?_⟩
  · exact Dom.forall_nodes_modify (fun x => x.nid < p.next) _ _ _ (fun _ h => h) hfresh
  · rintro ⟨x, hx, hxc⟩
    subst hxc
    obtain ⟨y, hy⟩ := Dom.get?_isSome_of_mem _ _ hx
    have hyn := (Dom.get?_some_mem _ _ _ hy).2
    simp only [Page.addClass, Dom.classesOf, Dom.get?_modify _ _ _ _ hg, hy, Option.map_some', hyn, if_true]
  · intro j hj
    simp only [Page.addClass, Dom.get?_modify _ _ _ _ hg]
    cases hy : p.dom.get? j with
    | none => rfl
    | some y =>
      have hyn := (Dom.get?_some_mem _ _ _ hy).2
      have : ¬ y.nid = cid := by omega
      simp [this]
  · simp only [Page.addClass, Dom.controlIds, Dom.nodes_modify, List.filter_map, List.map_map]
    have h1 : (Elem.isControl ∘ fun e : Elem =>
        if e.nid = cid then { e with classes := classListAdd cls e.classes } else e)
        = Elem.isControl := by
      funext e
      simp only [Function.comp]
      split
      · simp [Elem.isControl, Elem.isUnblur, Elem.isFlag, mem_classListAdd, hcls.1.symm,
          hcls.2.symm]
      · rfl
    have h2 : ((fun e : Elem => e.nid) ∘ fun e : Elem =>
        if e.nid = cid then { e with classes := classListAdd cls e.classes } else e)
        = fun e : Elem => e.nid := by
      funext e
      simp only [Function.comp]
      split <;> rfl
    rw [h1, h2]
  · rintro w ⟨x, hx, hxw⟩
    refine ⟨(fun e : Elem =>
      if e.nid = cid then { e with classes := classListAdd cls e.classes } else e) x, ?_, ?_⟩
    · simp only [Page.addClass, Dom.nodes_modify]
      exact List.mem_map_of_mem _ hx
    · dsimp only
      split <;> simp [hxw]
  · intro w b hb
    have hl := Dom.locate_modify [] p.dom cid w _ hg
    simp only [List.map_nil] at hl
    simp only [Page.addClass, Dom.descendantsOf, hl] at hb ⊢
    cases hp : p.dom.locate [] w with
    | none => simp [hp] at hb
    | some r =>
      simp only [hp, Option.map_some', Dom.nodes_modify, List.mem_map] at hb ⊢
      obtain ⟨a, ha, rfl⟩ := hb
      refine ⟨a, ha, ?_⟩
      split
      · simp [mem_classListAdd, hcls.1.symm, hcls.2.symm]
      · simp

theorem addControl_spec [Browser] (cls : String) (mk : Nat → Elem) (html : String) (p : Page)
    (w : Nat) (hmk : ∀ n, (mk n).nid = n ∧ (mk n).classes = [cls])
    (hfresh : p.Fresh) (hw : ∃ x ∈ p.dom.nodes, x.nid = w) :
    p.Extends (addControl cls mk html p w) ∧
    (∃ b ∈ (addControl cls mk html p w).dom.descendantsOf w, cls ∈ b.classes) ∧
    ((∀ b ∈ p.dom.descendantsOf w, b.tag = "#text" ∨ cls ∉ b.classes) →
      ∃ chain rest, (addControl cls mk html p w).dom.locate [] w
        = some (chain, .node (mk p.next) (parseFragment html (p.next + 1)).1 rest)) := by
  obtain ⟨x, hx, rfl⟩ := hw
  obtain ⟨chain, kids, hloc⟩ := Dom.locate_isSome_of_mem [] p.dom x hx
  have hf := Browser.parseFragment_fresh html (p.next + 1)
  unfold addControl
  rw [hloc]
  dsimp only
  split
  · next hq =>
    refine ⟨⟨?_, by show p.next ≤ (parseFragment html (p.next + 1)).2; omega, ?_⟩, ?_, ?_⟩
    · apply Dom.forall_nodes_prepend (fun y => y.nid < (parseFragment html (p.next + 1)).2)
      · rw [(hmk p.next).1]
        omega
      · intro y hy
        exact (hf.2 y hy).2
      · intro y hy
        have := hfresh y hy
        omega
    · intro j hj
      apply Dom.get?_prepend
      · rw [(hmk p.next).1]
        omega
      · intro y hy
        have := (hf.2 y hy).1
        omega
    · refine ⟨mk p.next, ?_, by simp [(hmk p.next).2]⟩
      simp [Dom.descendantsOf, Dom.locate_prepend, hloc, Dom.nodes]
    · intro _
      refine ⟨chain, Dom.prepend x.nid (mk p.next) (parseFragment html (p.next + 1)).1 kids, ?_⟩
      simp [Dom.locate_prepend, hloc]
  · next hq =>
    rw [queryAll_selClass] at hq
    simp only [List.isEmpty_eq_true, Bool.not_eq_true] at hq
    obtain ⟨b, hb⟩ := List.exists_mem_of_ne_nil _ hq
    rw [List.mem_filter] at hb
    have hb2 := hb.2
    simp only [Bool.and_eq_true, decide_eq_true_eq, bne_iff_ne] at hb2
    refine ⟨Page.Extends.refl p hfresh, ⟨b, ?_, hb2.2⟩, ?_⟩
    · simp [Dom.descendantsOf, hloc, hb.1]
    · intro hall
      have := hall b (by simp [Dom.descendantsOf, hloc, hb.1])
      rcases this with h | h
      · exact absurd h hb2.1
      · exact absurd hb2.2 h

theorem applyFilter_steps [Browser] (p : Page) (element : Nat) (keyword : Rule)
    (e : Elem) (parents : List Elem) (kids : Dom)
    (hloc : p.dom.locate [] element = some (e :: parents, kids))
    (hfresh : p.Fresh)
    (hparent : p.dom.ancestorsOf (findFilterContainer e parents).nid ≠ []) :
    ∃ q1 w q, ensureWrapper p (findFilterContainer e parents) = some (q1, w) ∧
      applyFilter p element keyword = some q ∧
      (∀ j, j ≠ (findFilterContainer e parents).nid → j < p.next →
        q.dom.get? j = p.dom.get? j) ∧
      (keyword.action = "hide" →
        q.dom.classesOf (findFilterContainer e parents).nid
          = classListAdd "content-guardian-hidden"
              (p.dom.classesOf (findFilterContainer e parents).nid) ∧
        q.dom.controlIds = p.dom.controlIds) ∧
      (keyword.action = "blur" →
        q.dom.classesOf (findFilterContainer e parents).nid
          = classListAdd "content-guardian-blurred"
              (p.dom.classesOf (findFilterContainer e parents).nid) ∧
        ∃ b ∈ q.dom.descendantsOf w, "content-guardian-unblur" ∈ b.classes) ∧
      (keyword.action = "flag" →
        q.dom.classesOf (findFilterContainer e parents).nid
          = classListAdd "content-guardian-flagged"
              (p.dom.classesOf (findFilterContainer e parents).nid) ∧
        (∃ b ∈ q.dom.descendantsOf w, "content-guardian-flag" ∈ b.classes) ∧
        ((∀ b ∈ q1.dom.descendantsOf w, b.tag = "#text" ∨ "content-guardian-flag" ∉ b.classes) →
          ∃ chain rest, q.dom.locate [] w
            = some (chain,
                .node (flagElem q1.next) (parseFragment (flagLabel keyword) (q1.next + 1)).1
                  rest))) := by
  generalize hc : findFilterContainer e parents = c at hparent ⊢
  -- the container is in the document, below an element
  obtain ⟨chain, ckids, hcloc, hlen⟩ :
      ∃ chain ckids, p.dom.locate [] c.nid = some (chain, ckids) ∧ 2 ≤ chain.length := by
    unfold Dom.ancestorsOf at hparent
    split at hparent
    · next x up ks hl => 
      refine ⟨_, _, hl, ?_⟩
      cases up with
      | nil => exact absurd rfl hparent
      | cons a b => simp
    · exact absurd rfl hparent
  have hcspec := Dom.locate_spec [] p.dom c.nid
  rw [hcloc] at hcspec
  obtain ⟨x, _, _, hx, _⟩ := hcspec
  have hxm := Dom.get?_some_mem _ _ _ hx
  have hcidlt : c.nid < p.next := by
    have := hfresh x hxm.1
    omega
  obtain ⟨q1, w, hens, hext, hwex, hctl⟩ := ensureWrapper_spec p c chain ckids hfresh hcloc hlen
  have happ : applyFilter p element keyword = some (applyAction q1 c.nid w keyword) := by
    simp [applyFilter, hloc, hc, hens]
  have hc1 : ∃ y ∈ q1.dom.nodes, y.nid = c.nid := by
    have := hext.2.2 c.nid hcidlt
    rw [hx] at this
    have := Dom.get?_some_mem _ _ _ this
    exact ⟨x, this.1, this.2⟩
  have hcls1 : q1.dom.classesOf c.nid = p.dom.classesOf c.nid := by
    simp [Dom.classesOf, hext.2.2 c.nid hcidlt]
  refine ⟨q1, w, _, hens, happ, ?_, ?_, ?_, ?_⟩
  · intro j hj hjlt
    have e0 : q1.dom.get? j = p.dom.get? j := hext.2.2 j hjlt
    have hjlt1 : j < q1.next := by
      have := hext.2.1
      omega
    by_cases h1 : keyword.action = "hide"
    · rw [applyAction_hide _ _ _ _ h1,
        (addClass_spec q1 _ c.nid "content-guardian-hidden" hext.1 (by decide) rfl).2.2.1 j hj]
      exact e0
    · by_cases h2 : keyword.action = "blur"
      · rw [applyAction_blur _ _ _ _ h2, addUnblurButton_eq]
        have hs := addClass_spec q1 _ c.nid "content-guardian-blurred" hext.1 (by decide) rfl
        have hcsp := addControl_spec "content-guardian-unblur" unblurElem (unblurLabel keyword)
          (q1.addClass c.nid "content-guardian-blurred") w (fun n => ⟨rfl, rfl⟩)
          hs.1 (hs.2.2.2.2.1 w hwex)
        rw [hcsp.1.2.2 j hjlt1, hs.2.2.1 j hj]
        exact e0
      · by_cases h3 : keyword.action = "flag"
        · rw [applyAction_flag _ _ _ _ h3, addFlagIndicator_eq]
          have hs := addClass_spec q1 _ c.nid "content-guardian-flagged" hext.1 (by decide) rfl
          have hcsp := addControl_spec "content-guardian-flag" flagElem (flagLabel keyword)
            (q1.addClass c.nid "content-guardian-flagged") w (fun n => ⟨rfl, rfl⟩)
            hs.1 (hs.2.2.2.2.1 w hwex)
          rw [hcsp.1.2.2 j hjlt1, hs.2.2.1 j hj]
          exact e0
        · rw [applyAction_other _ _ _ _ h1 h2 h3]
          exact e0
  · intro h1
    rw [applyAction_hide _ _ _ _ h1]
    have hs := addClass_spec q1 _ c.nid "content-guardian-hidden" hext.1 (by decide) rfl
    exact ⟨by rw [hs.2.1 hc1, hcls1], by rw [hs.2.2.2.1, hctl]⟩
  · intro h2
    rw [applyAction_blur _ _ _ _ h2, addUnblurButton_eq]
    have hs := addClass_spec q1 _ c.nid "content-guardian-blurred" hext.1 (by decide) rfl
    have hcsp := addControl_spec "content-guardian-unblur" unblurElem (unblurLabel keyword)
      (q1.addClass c.nid "content-guardian-blurred") w (fun n => ⟨rfl, rfl⟩)
      hs.1 (hs.2.2.2.2.1 w hwex)
    refine ⟨?_, hcsp.2.1⟩
    have hlt : c.nid < (q1.addClass c.nid "content-guardian-blurred").next := by
      have := hext.2.1
      simp only [Page.addClass]
      omega
    have e1 : (addControl "content-guardian-unblur" unblurElem (unblurLabel keyword)
        (q1.addClass c.nid "content-guardian-blurred") w).dom.classesOf c.nid
        = (q1.addClass c.nid "content-guardian-blurred").dom.classesOf c.nid := by
      simp only [Dom.classesOf, hcsp.1.2.2 c.nid hlt]
    rw [e1, hs.2.1 hc1, hcls1]
  · intro h3
    rw [applyAction_flag _ _ _ _ h3, addFlagIndicator_eq]
    have hs := addClass_spec q1 _ c.nid "content-guardian-flagged" hext.1 (by decide) rfl
    have hcsp := addControl_spec "content-guardian-flag" flagElem (flagLabel keyword)
      (q1.addClass c.nid "content-guardian-flagged") w (fun n => ⟨rfl, rfl⟩)
      hs.1 (hs.2.2.2.2.1 w hwex)
    refine ⟨?_, hcsp.2.1, ?_⟩
    · have hlt : c.nid < (q1.addClass c.nid "content-guardian-flagged").next := by
        have := hext.2.1
        simp only [Page.addClass]
        omega
      have e1 : (addControl "content-guardian-flag" flagElem (flagLabel keyword)
          (q1.addClass c.nid "content-guardian-flagged") w).dom.classesOf c.nid
          = (q1.addClass c.nid "content-guardian-flagged").dom.classesOf c.nid := by
        simp only [Dom.classesOf, hcsp.1.2.2 c.nid hlt]
      rw [e1, hs.2.1 hc1, hcls1]
    · intro hall
      apply hcsp.2.2
      intro b hb
      obtain ⟨a, ha, htag, _, _, hfl⟩ := hs.2.2.2.2.2 w b hb
      rcases hall a ha with h | h
      · exact Or.inl (htag.trans h)
      · exact Or.inr (fun hbf => h (hfl.mp hbf))

/-- C8, amended: for every matched node whose resolved container has a parent element,
`applyFilter` returns, leaves every other node of the tree as it was, and adds to the
container exactly the presentation class of the rule's action.  For hide no control is
added; for blur the wrapper holds an unblur control; for flag the wrapper holds a flag
indicator, and when the wrapper, once in place, held none, its first child is a new
indicator whose content is the flag template with the matched keyword in it, as the HTML
parser reads it: the one text "Filtered: keyword" when the keyword holds no markup.  On the
paragraph "Local politics update" with the rule blur "politics", one scan pass blurs the
container, leaves it in a wrapper with exactly one unblur control, and marks the paragraph
processed. -/
theorem applyFilter_effect [B : Browser] (p : Page) (element : Nat) (keyword : Rule)
    (e : Elem) (parents : List Elem) (kids : Dom)
    (hloc : p.dom.locate [] element = some (e :: parents, kids))
    (hfresh : p.Fresh)
    (hparent : p.dom.ancestorsOf (findFilterContainer e parents).nid ≠ []) :
    (∃ q1 w q, ensureWrapper p (findFilterContainer e parents) = some (q1, w) ∧
      applyFilter p element keyword = some q ∧
      (∀ j, j ≠ (findFilterContainer e parents).nid → j < p.next →
        q.dom.get? j = p.dom.get? j) ∧
      (keyword.action = "hide" →
        q.dom.classesOf (findFilterContainer e parents).nid
          = classListAdd "content-guardian-hidden"
              (p.dom.classesOf (findFilterContainer e parents).nid) ∧
        q.dom.controlIds = p.dom.controlIds) ∧
      (keyword.action = "blur" →
        q.dom.classesOf (findFilterContainer e parents).nid
          = classListAdd "content-guardian-blurred"
              (p.dom.classesOf (findFilterContainer e parents).nid) ∧
        ∃ b ∈ q.dom.descendantsOf w, "content-guardian-unblur" ∈ b.classes) ∧
      (keyword.action = "flag" →
        q.dom.classesOf (findFilterContainer e parents).nid
          = classListAdd "content-guardian-flagged"
              (p.dom.classesOf (findFilterContainer e parents).nid) ∧
        (∃ b ∈ q.dom.descendantsOf w, "content-guardian-flag" ∈ b.classes) ∧
        ((∀ b ∈ q1.dom.descendantsOf w, b.tag = "#text" ∨ "content-guardian-flag" ∉ b.classes) →
          ∃ chain rest, q.dom.locate [] w
            = some (chain,
                .node (flagElem q1.next) (parseFragment (flagLabel keyword) (q1.next + 1)).1
                  rest)))) ∧
    (plainText keyword.keyword = true → ∀ n,
      parseFragment (flagLabel keyword) n = (textNode n (flagLabel keyword), n + 1)) ∧
    threw (scanAndFilter (engineOn [politicsRule] politicsDoc)) = false ∧
    (endState (scanAndFilter
      (engineOn [politicsRule] politicsDoc))).page.dom.classesOf 3
      = ["content-guardian-blurred"] ∧
    (endState (scanAndFilter
      (engineOn [politicsRule] politicsDoc))).page.dom.parentOf 3 = some 100 ∧
    ((endState (scanAndFilter
      (engineOn [politicsRule] politicsDoc))).page.dom.get? 100).map Elem.isWrapper
      = some true ∧
    (((endState (scanAndFilter
      (engineOn [politicsRule] politicsDoc))).page.dom.childrenOf 100).filter
        Elem.isControl).map (fun c => c.classes) = [["content-guardian-unblur"]] ∧
    (endState (scanAndFilter
      (engineOn [politicsRule] politicsDoc))).page.dom.controlIds = [101] ∧
    ((endState (scanAndFilter
      (engineOn [politicsRule] politicsDoc))).page.dom.get? 4).map Elem.processed
      = some true := by
  have hag := (scanAndFilter_agree B (engineOn [politicsRule] politicsDoc) (by decide)
    (by decide)).1
  rw [hag]
  exact ⟨applyFilter_steps p element keyword e parents kids hloc hfresh hparent,
    fun hp n => Browser.parseFragment_plain _ n (plainText_flagLabel keyword hp).1
      (plainText_flagLabel keyword hp).2,
    by decide, by decide, by decide, by decide, by decide, by decide, by decide⟩

/-- Witness of C8 (amended): the paragraph "Local politics update" and the rule blur
"politics". -/
theorem applyFilter_effect_witness :
    ∃ q1 w q,
      ensureWrapper ⟨politicsDoc, 100⟩
          (findFilterContainer (mkElem 4 "p" 20 600)
            [mkElem 3 "div" 120 600, mkElem 2 "body" 40 90, mkElem 1 "html" 40 90])
        = some (q1, w) ∧
      applyFilter ⟨politicsDoc, 100⟩ 4 politicsRule = some q ∧
      q.dom.classesOf 3 = ["content-guardian-blurred"] ∧
      q.dom.get? 4 = politicsDoc.get? 4 ∧
      ∃ b ∈ q.dom.descendantsOf w, "content-guardian-unblur" ∈ b.classes := by
  obtain ⟨q1, w, q, h1, h2, h0, -, h3, -⟩ :=
    (applyFilter_effect ⟨politicsDoc, 100⟩ 4 politicsRule (mkElem 4 "p" 20 600)
      [mkElem 3 "div" 120 600, mkElem 2 "body" 40 90, mkElem 1 "html" 40 90]
      (textNode 5 "Local politics update") (by decide) (by unfold Page.Fresh; decide)
      (by decide)).1
  exact ⟨q1, w, q, h1, h2, (h3 rfl).1, h0 4 (by decide) (by decide), (h3 rfl).2⟩

/-! ## The processed mark -/

theorem marked_after_markProcessed (q : Page) (el : Nat) (h : ∃ x ∈ q.dom.nodes, x.nid = el) :
    Marked ⟨q.dom.modify el markProcessed, q.next⟩ el := by
  obtain ⟨x, hx, rfl⟩ := h
  obtain ⟨y, hy⟩ := Dom.get?_isSome_of_mem _ _ hx
  have hyn := (Dom.get?_some_mem _ _ _ hy).2
  unfold Marked
  have := Dom.get?_modify x.nid x.nid markProcessed q.dom (fun _ => rfl)
  show ((q.dom.modify x.nid markProcessed).get? x.nid).map Elem.processed = some true
  rw [this, hy]
  simp [hyn, processed_markProcessed]

theorem ensureWrapper_none_of_root (p : Page) (c : Elem)
    (hroot : p.dom.ancestorsOf c.nid = [])
    (hnone : ∀ x ∈ p.dom.descendantsOf c.nid,
      x.tag = "#text" ∨ "content-guardian-wrapper" ∉ x.classes) :
    ensureWrapper p c = none := by
  unfold ensureWrapper
  cases hl : p.dom.locate [] c.nid with
  | none => rfl
  | some r =>
    obtain ⟨chain, ckids⟩ := r
    obtain ⟨x, up, rfl⟩ := Dom.locate_cons [] _ _ _ _ hl
    simp only [Dom.ancestorsOf, hl] at hroot
    subst hroot
    simp only [Dom.descendantsOf, hl] at hnone
    have hq : queryAll (selClass "content-guardian-wrapper") [x] ckids = [] := by
      rw [queryAll_selClass, List.filter_eq_nil_iff]
      intro y hy
      rcases hnone y hy with h | h
      · simp [h]
      · simp [h]
    simp [hq]

/-- C11 as stated fails: in `html > body > article > [h1 > "Cat news", p > "Bird song"]`
with the rule blur "cat", the paragraph is selected by the selector `p` and examined by the
scan pass, does not match, and bears no processed mark after the pass. -/
theorem examined_node_left_unmarked :
    (queryAll (selTag "p") [] birdDoc).map (fun e => e.nid) = [6] ∧
    selTag "p" ∈ getPlatformSelectors "example.com" ∧
    threw (scanAndFilter (engineOn [mkRule 1 "cat" "blur"] birdDoc)) = false ∧
    ((endState (scanAndFilter (engineOn [mkRule 1 "cat" "blur"] birdDoc))).page.dom.get? 6).map
      Elem.processed = some false ∧
    settled [mkRule 1 "cat" "blur"]
      (endState (scanAndFilter (engineOn [mkRule 1 "cat" "blur"] birdDoc))).page.dom 6 = true ∧
    settled [mkRule 2 "bird" "hide"]
      (endState (scanAndFilter (engineOn [mkRule 1 "cat" "blur"] birdDoc))).page.dom 6
      = false := by
  decide

/-- C11, amended: a node that bears the processed mark is skipped by a scan pass, without
text extraction or matching, whatever the rules are, and keeps the mark in every state
reachable by scan passes.  A node without the mark that matches is marked when `applyFilter`
returns, and `applyFilter` returns whenever the resolved container has a parent element;
when the resolved container is the root element and has no wrapper below it, `insertBefore`
throws: the pass ends there, in the state it had, and the node is left without the mark.
A node that is examined and does not match is left as it is, without the mark. -/
theorem processed_mark_guard [Browser] (kws : List Rule) (st : ContentFilter) (el : Nat)
    (e : Elem) (up : List Elem) (kids : Dom)
    (hloc : st.page.dom.locate [] el = some (e :: up, kids)) (hfresh : st.page.Fresh) :
    (e.processed = true →
      scanElement kws st el = .ok st ∧
      ∀ st1, Reachable st st1 → (st1.page.dom.get? el).map Elem.processed = some true) ∧
    (e.processed = false → ∀ kw,
      findMatchingKeyword (getElementText e kids) kws = some kw →
      (∀ q, applyFilter st.page el kw = some q →
        ∃ st1, scanElement kws st el = .ok st1 ∧
          (st1.page.dom.get? el).map Elem.processed = some true) ∧
      (st.page.dom.ancestorsOf (findFilterContainer e up).nid ≠ [] →
        ∃ q, applyFilter st.page el kw = some q) ∧
      (st.page.dom.ancestorsOf (findFilterContainer e up).nid = [] →
        (∀ x ∈ st.page.dom.descendantsOf (findFilterContainer e up).nid,
          x.tag = "#text" ∨ "content-guardian-wrapper" ∉ x.classes) →
        scanElement kws st el = .error st)) ∧
    (e.processed = false → findMatchingKeyword (getElementText e kids) kws = none →
      scanElement kws st el = .ok st) := by
  refine ⟨?_, ?_, ?_⟩
  · intro hp
    refine ⟨by simp [scanElement, hloc, hp], ?_⟩
    intro st1 hr
    have hm : Marked st.page el := by
      have hspec := Dom.locate_spec [] st.page.dom el
      rw [hloc] at hspec
      obtain ⟨x, _, hx, hg, _⟩ := hspec
      simp only [List.cons.injEq] at hx
      unfold Marked
      rw [hg, ← hx.1]
      simp [hp]
    obtain ⟨log, ht⟩ := Trace.of_reachable hr
    exact ht.explains.keeps_marks hfresh el hm
  · intro hp kw hkw
    refine ⟨?_, ?_, ?_⟩
    · intro q hq
      refine ⟨⟨st.keywords, st.settings, st.filteredCount + 1, st.hostname,
        ⟨q.dom.modify el markProcessed, q.next⟩⟩, by simp [scanElement, hloc, hp, hkw, hq], ?_⟩
      apply marked_after_markProcessed
      obtain ⟨_, _, _, hex⟩ := applyFilter_run st.page q el kw e up kids hloc hq
      apply hex.keeps_nodes
      have hspec := Dom.locate_spec [] st.page.dom el
      rw [hloc] at hspec
      obtain ⟨x, _, _, hg, _⟩ := hspec
      have := Dom.get?_some_mem _ _ _ hg
      exact ⟨x, this.1, this.2⟩
    · intro hparent
      obtain ⟨_, _, q, _, hq, _⟩ := applyFilter_steps st.page el kw e up kids hloc hfresh hparent
      exact ⟨q, hq⟩
    · intro hroot hnone
      have hens := ensureWrapper_none_of_root st.page _ hroot hnone
      simp [scanElement, hloc, hp, hkw, applyFilter, hens]
  · intro hp hkw
    simp [scanElement, hloc, hp, hkw]

/-- Witness of C11 (amended): the `h1` of the document matches "cat" and ends marked; the
paragraph "Bird song" does not match and the pass leaves the state as it is; in the
document whose root element is the resolved container, the pass ends by a throw. -/
theorem processed_mark_guard_witness :
    (∃ st1, scanElement [mkRule 1 "cat" "blur"] (engineOn [mkRule 1 "cat" "blur"] birdDoc) 4
        = .ok st1 ∧ (st1.page.dom.get? 4).map Elem.processed = some true) ∧
    scanElement [mkRule 1 "cat" "blur"] (engineOn [mkRule 1 "cat" "blur"] birdDoc) 6
      = .ok (engineOn [mkRule 1 "cat" "blur"] birdDoc) ∧
    scanElement [mkRule 1 "cat" "blur"] (engineOn [mkRule 1 "cat" "blur"] rootDoc) 3
      = .error (engineOn [mkRule 1 "cat" "blur"] rootDoc) := by
  have h4 := (processed_mark_guard [mkRule 1 "cat" "blur"]
    (engineOn [mkRule 1 "cat" "blur"] birdDoc) 4 (mkElem 4 "h1" 20 400)
    [mkElem 3 "article" 100 400, mkElem 2 "body" 600 800, mkElem 1 "html" 600 800]
    (textNode 5 "Cat news") (by decide) (by unfold Page.Fresh; decide)).2.1 (by decide)
    (mkRule 1 "cat" "blur") (by decide)
  obtain ⟨q, hq⟩ := h4.2.1 (by decide)
  exact ⟨h4.1 q hq,
    (processed_mark_guard [mkRule 1 "cat" "blur"] (engineOn [mkRule 1 "cat" "blur"] birdDoc) 6
      (mkElem 6 "p" 20 400)
      [mkElem 3 "article" 100 400, mkElem 2 "body" 600 800, mkElem 1 "html" 600 800]
      (textNode 7 "Bird song") (by decide) (by unfold Page.Fresh; decide)).2.2 (by decide)
      (by decide),
    ((processed_mark_guard [mkRule 1 "cat" "blur"] (engineOn [mkRule 1 "cat" "blur"] rootDoc) 3
      (mkElem 3 "p" 20 90) [mkElem 2 "body" 40 90, mkElem 1 "html" 600 800]
      (textNode 4 "Cat news") (by decide) (by unfold Page.Fresh; decide)).2.1 (by decide)
      (mkRule 1 "cat" "blur") (by decide)).2.2 (by decide) (by decide)⟩

/-! ## A second scan pass -/

theorem queryAll_subset_nodes (sel : Selector) (d : Dom) :
    ∀ anc, ∀ x ∈ queryAll sel anc d, x ∈ d.nodes := by
  induction d with
  | nil => intro _ x hx; simp [queryAll] at hx
  | node e c s ihc ihs =>
    intro anc x hx
    simp only [queryAll, List.mem_append] at hx
    simp only [Dom.nodes, List.mem_cons, List.mem_append]
    rcases hx with hx | hx | hx
    · split at hx
      · left
        simpa using hx
      · simp at hx
    · right; left
      exact ihc _ x hx
    · right; right
      exact ihs _ x hx

theorem queryAll_prepend_mem (sel : Selector) (i : Nat) (b : Elem) (k : Dom)
    (hb : seenBy sel b = false) (d : Dom) :
    ∀ anc, ∀ x ∈ queryAll sel anc (Dom.prepend i b k d),
      x ∈ queryAll sel anc d ∨ x ∈ k.nodes := by
  induction d with
  | nil => intro _ x hx; simp [Dom.prepend, queryAll] at hx
  | node e c s ihc ihs =>
    intro anc x hx
    by_cases hi : e.nid = i
    · simp only [Dom.prepend, hi, if_true, queryAll, matchesSel_unseen sel b (e :: anc) hb,
        Bool.false_eq_true, if_false, List.nil_append, List.mem_append] at hx ⊢
      rcases hx with hx | (hx | hx) | hx
      · exact Or.inl (Or.inl hx)
      · exact Or.inr (queryAll_subset_nodes sel k _ x hx)
      · rcases ihc _ x hx with h | h
        · exact Or.inl (Or.inr (Or.inl h))
        · exact Or.inr h
      · rcases ihs _ x hx with h | h
        · exact Or.inl (Or.inr (Or.inr h))
        · exact Or.inr h
    · simp only [Dom.prepend, hi, if_false, queryAll, List.mem_append] at hx ⊢
      rcases hx with hx | hx | hx
      · exact Or.inl (Or.inl hx)
      · rcases ihc _ x hx with h | h
        · exact Or.inl (Or.inr (Or.inl h))
        · exact Or.inr h
      · rcases ihs _ x hx with h | h
        · exact Or.inl (Or.inr (Or.inr h))
        · exact Or.inr h

theorem Mutation.queryAll_apply [Browser] (p : Page) (m : Mutation) (hv : m.Valid p)
    (sel : Selector) (hsel : inertSel sel = true) :
    ∀ x ∈ queryAll sel [] (m.apply p).dom, x.nid < p.next →
      ∃ y ∈ queryAll sel [] p.dom, y.nid = x.nid := by
  intro x hx hlt
  have hin : ∀ cs ∈ sel, ∀ c ∈ cs, Compound.inert c = true := by
    simpa [inertSel, List.all_eq_true] using hsel
  cases m with
  | wrap c =>
    simp only [Mutation.apply] at hx
    rw [queryAll_wrap sel c.nid _
      (inertSel_seenBy sel hsel _ (fun k hk => Compound.inert_wrapper k hk _ _))
      p.dom [] [] rfl] at hx
    exact ⟨x, hx, rfl⟩
  | addClass c cls =>
    simp only [Mutation.apply, Page.addClass] at hx
    have := queryAll_modify sel c (fun e => { e with classes := classListAdd cls e.classes })
      (fun cs hcs k hk e => Compound.inert_addClass k (hin cs hcs k hk) cls hv.2 e) p.dom []
    simp only [List.map_nil] at this
    rw [this] at hx
    obtain ⟨y, hy, rfl⟩ := List.mem_map.mp hx
    refine ⟨y, hy, ?_⟩
    split <;> rfl
  | mark el =>
    simp only [Mutation.apply] at hx
    have := queryAll_modify sel el markProcessed
      (fun cs hcs k hk e => Compound.inert_mark k (hin cs hcs k hk) e) p.dom []
    simp only [List.map_nil] at this
    rw [this] at hx
    obtain ⟨y, hy, rfl⟩ := List.mem_map.mp hx
    refine ⟨y, hy, ?_⟩
    split <;> rfl
  | unblur w kw =>
    simp only [Mutation.apply] at hx
    rcases queryAll_prepend_mem sel w _ _
      (inertSel_seenBy sel hsel _ (fun k hk => Compound.inert_unblur k hk _)) p.dom [] x hx
      with h | h
    · exact ⟨x, h, rfl⟩
    · have := ((Browser.parseFragment_fresh (unblurLabel kw) (p.next + 1)).2 x h).1
      omega
  | flag w kw =>
    simp only [Mutation.apply] at hx
    rcases queryAll_prepend_mem sel w _ _
      (inertSel_seenBy sel hsel _ (fun k hk => Compound.inert_flag k hk _)) p.dom [] x hx
      with h | h
    · exact ⟨x, h, rfl⟩
    · have := ((Browser.parseFragment_fresh (flagLabel kw) (p.next + 1)).2 x h).1
      omega

theorem Run.queryAll [Browser] {p0 p : Page} {ms : List Mutation} (hr : Run p0 p ms)
    (hf : p0.Fresh) (sel : Selector) (hsel : inertSel sel = true) :
    ∀ x ∈ queryAll sel [] p.dom, x.nid < p0.next →
      ∃ y ∈ queryAll sel [] p0.dom, y.nid = x.nid := by
  induction hr with
  | nil => intro x hx _; exact ⟨x, hx, rfl⟩
  | snoc p ms m hr hv ih =>
    intro x hx hlt
    have hle := (hr.fresh hf).2
    obtain ⟨y, hy, hyx⟩ := Mutation.queryAll_apply p m hv sel hsel x hx (by omega)
    obtain ⟨z, hz, hzy⟩ := ih y hy (by omega)
    exact ⟨z, hz, hzy.trans hyx⟩

/-! ### The text of a node below which no control was inserted -/

theorem getElementText_touch [Browser] (m : Mutation) (e : Elem) (kids : Dom) :
    getElementText (m.touch e) kids = getElementText e kids := by
  cases m with
  | addClass c cls =>
    simp only [Mutation.touch]
    split <;> rfl
  | mark el =>
    simp only [Mutation.touch]
    split
    · have h1 := getAttribute_markProcessed e "title" (by decide)
      have h2 := getAttribute_markProcessed e "alt" (by decide)
      have h3 := getAttribute_markProcessed e "aria-label" (by decide)
      have ht : (markProcessed e).tag = e.tag := rfl
      simp only [getElementText, Elem.alt, h1, h2, h3, ht]
    · rfl
  | wrap _ => rfl
  | unblur _ _ => rfl
  | flag _ _ => rfl

theorem noNewControl_view (n : Nat) (d : Dom) (i : Nat) (e : Elem) (kids : Dom)
    (hv : d.view i = some (e, kids)) :
    d.NoNewControl n i ↔ ∀ y ∈ kids.nodes, y.isControl = true → y.nid < n := by
  unfold Dom.NoNewControl
  rw [Dom.descendantsOf_view, hv]

theorem noNewControl_of_view_none (n : Nat) (d : Dom) (i : Nat) (hv : d.view i = none) :
    d.NoNewControl n i := by
  unfold Dom.NoNewControl
  rw [Dom.descendantsOf_view, hv]
  intro y hy
  simp at hy

theorem control_text_modify [Browser] (i : Nat) (g : Elem → Elem) (n x : Nat) (d d1 : Dom)
    (hg1 : ∀ e, (g e).nid = e.nid) (hg2 : ∀ e, (g e).isControl = e.isControl)
    (hg3 : ∀ e, (g e).tag = e.tag ∧ (g e).text = e.text)
    (hg4 : ∀ e kids, getElementText (g e) kids = getElementText e kids)
    (hd : d1 = d.modify i g) (hclean : d1.NoNewControl n x) :
    d.NoNewControl n x ∧ d1.textOf x = d.textOf x := by
  subst hd
  cases hv : d.view x with
  | none =>
    refine ⟨noNewControl_of_view_none n d x hv, ?_⟩
    simp [Dom.textOf, Dom.view_modify i x g d hg1, hv]
  | some r =>
    obtain ⟨e, kids⟩ := r
    have hv1 := Dom.view_modify i x g d hg1
    rw [hv] at hv1
    simp only [Option.map_some'] at hv1
    rw [noNewControl_view n _ x _ _ hv1] at hclean
    rw [noNewControl_view n _ x _ _ hv]
    constructor
    · intro y hy hc
      have hm : (if y.nid = i then g y else y) ∈ (kids.modify i g).nodes := by
        rw [Dom.nodes_modify]
        exact List.mem_map.mpr ⟨y, hy, rfl⟩
      have := hclean _ hm (by split <;> simp [hg2, hc])
      have hn : (if y.nid = i then g y else y).nid = y.nid := by split <;> simp [hg1]
      omega
    · simp only [Dom.textOf, hv1, hv, Option.map_some', Option.some.injEq]
      have ht : (kids.modify i g).textContent = kids.textContent :=
        Dom.textContent_modify i g kids hg3
      split
      · rw [hg4]
        simp only [getElementText, ht]
      · simp only [getElementText, ht]

theorem control_text_prepend [Browser] (i : Nat) (b : Elem) (k : Dom) (n x : Nat) (d d1 : Dom)
    (hb : b.isControl = true) (hbn : n ≤ b.nid) (hbx : b.nid ≠ x)
    (hk : ∀ y ∈ k.nodes, y.nid ≠ x)
    (hd : d1 = Dom.prepend i b k d) (hclean : d1.NoNewControl n x) :
    d.NoNewControl n x ∧ d1.textOf x = d.textOf x := by
  subst hd
  cases hv : d.view x with
  | none =>
    refine ⟨noNewControl_of_view_none n d x hv, ?_⟩
    simp [Dom.textOf, Dom.view_prepend i x b k d hbx hk, hv]
  | some r =>
    obtain ⟨e, kids⟩ := r
    have hv1 := Dom.view_prepend i x b k d hbx hk
    rw [hv] at hv1
    simp only [Option.map_some'] at hv1
    rw [noNewControl_view n _ x _ _ hv1] at hclean
    have hsame : (if e.nid = i then Dom.node b k (Dom.prepend i b k kids)
        else Dom.prepend i b k kids) = kids := by
      by_cases hi : e.nid = i
      · exfalso
        simp only [hi, if_true] at hclean
        have := hclean b (by simp [Dom.nodes]) hb
        omega
      · simp only [hi, if_false] at hclean ⊢
        apply Dom.prepend_of_not_mem
        intro y hy hyi
        have hm : b ∈ (Dom.prepend i b k kids).nodes := by
          rw [Dom.nodes_prepend]
          apply List.mem_flatMap.mpr
          exact ⟨y, hy, by simp [hyi]⟩
        have := hclean b hm hb
        omega
    rw [hsame] at hv1 hclean
    rw [noNewControl_view n _ x _ _ hv]
    exact ⟨hclean, by simp [Dom.textOf, hv1, hv]⟩

theorem Mutation.text_apply [Browser] (p : Page) (m : Mutation) (hv : m.Valid p) (n : Nat)
    (hn : n ≤ p.next) (x : Nat) (hx : x < p.next)
    (hclean : (m.apply p).dom.NoNewControl n x) :
    p.dom.NoNewControl n x ∧ (m.apply p).dom.textOf x = p.dom.textOf x := by
  cases m with
  | wrap c =>
    have hw : (wrapperElem p.next c).nid ≠ x := by
      simp only [wrapperElem]
      omega
    have hv1 := Dom.view_wrap c.nid x (wrapperElem p.next c) p.dom hw
    simp only [Mutation.apply] at hclean ⊢
    cases hvw : p.dom.view x with
    | none =>
      refine ⟨noNewControl_of_view_none n _ x hvw, ?_⟩
      simp [Dom.textOf, hv1, hvw]
    | some r =>
      obtain ⟨e, kids⟩ := r
      rw [hvw] at hv1
      simp only [Option.map_some'] at hv1
      rw [noNewControl_view n _ x _ _ hv1] at hclean
      rw [noNewControl_view n _ x _ _ hvw]
      constructor
      · intro y hy hc
        apply hclean y _ hc
        rw [Dom.nodes_wrap]
        apply List.mem_flatMap.mpr
        refine ⟨y, hy, ?_⟩
        split <;> simp
      · have ht := Dom.textContent_wrap c.nid (wrapperElem p.next c) kids
          (by simp [wrapperElem])
        simp only [Dom.textOf, hv1, hvw, Option.map_some', Option.some.injEq, getElementText,
          ht]
  | addClass c cls =>
    simp only [Mutation.apply, Page.addClass] at hclean ⊢
    exact control_text_modify c (fun e => { e with classes := classListAdd cls e.classes })
      n x p.dom _ (fun _ => rfl)
      (fun e => isControl_addClass cls hv.2 e) (fun _ => ⟨rfl, rfl⟩) (fun _ _ => rfl) rfl hclean
  | mark el =>
    simp only [Mutation.apply] at hclean ⊢
    exact control_text_modify el markProcessed n x p.dom _ (fun _ => rfl)
      (fun e => isControl_markProcessed e) (fun _ => ⟨rfl, rfl⟩)
      (fun e kids => by
        have h := getElementText_touch (Mutation.mark e.nid) e kids
        simpa [Mutation.touch] using h) rfl hclean
  | unblur w kw =>
    simp only [Mutation.apply] at hclean ⊢
    have hf := Browser.parseFragment_fresh (unblurLabel kw) (p.next + 1)
    exact control_text_prepend w _ _ n x p.dom _ (isControl_unblurElem _)
      (by simp only [unblurElem]; omega) (by simp only [unblurElem]; omega)
      (fun y hy => by have := (hf.2 y hy).1; omega) rfl hclean
  | flag w kw =>
    simp only [Mutation.apply] at hclean ⊢
    have hf := Browser.parseFragment_fresh (flagLabel kw) (p.next + 1)
    exact control_text_prepend w _ _ n x p.dom _ (isControl_flagElem _)
      (by simp only [flagElem]; omega) (by simp only [flagElem]; omega)
      (fun y hy => by have := (hf.2 y hy).1; omega) rfl hclean

theorem Run.text [Browser] {p0 p : Page} {ms : List Mutation} (hr : Run p0 p ms)
    (hf : p0.Fresh) (n : Nat) (hn : n ≤ p0.next) (x : Nat) (hx : x < p0.next)
    (hclean : p.dom.NoNewControl n x) :
    p0.dom.NoNewControl n x ∧ p.dom.textOf x = p0.dom.textOf x := by
  induction hr with
  | nil => exact ⟨hclean, rfl⟩
  | snoc p ms m hr hv ih =>
    have hle := (hr.fresh hf).2
    have h1 := Mutation.text_apply p m hv n (by omega) x (by omega) hclean
    have h2 := ih h1.1
    exact ⟨h2.1, h1.2.trans h2.2⟩

theorem Explains.same_text [Browser] {p q : Page} {log : List Application}
    (h : Explains p q log) (hf : p.Fresh) (n : Nat) (hn : n ≤ p.next) (x : Nat)
    (hx : x < p.next) (hclean : q.dom.NoNewControl n x) :
    p.dom.NoNewControl n x ∧ q.dom.textOf x = p.dom.textOf x := by
  obtain ⟨ms, hr, _, _⟩ := h
  exact hr.text hf n hn x hx hclean

theorem Explains.selected_before [Browser] {p q : Page} {log : List Application}
    (h : Explains p q log) (hf : p.Fresh) (sel : Selector) (hsel : inertSel sel = true) :
    ∀ x ∈ queryAll sel [] q.dom, x.nid < p.next →
      ∃ y ∈ queryAll sel [] p.dom, y.nid = x.nid := by
  obtain ⟨ms, hr, _, _⟩ := h
  exact hr.queryAll hf sel hsel

theorem settled_of_quiet [Browser] (kws : List Rule) (d : Dom) (i : Nat)
    (h : Quiet kws d i) : settled kws d i = true := by
  rw [settled_view]
  cases hv : d.view i with
  | none => rfl
  | some r =>
    have := h (getElementText r.1 r.2) (by simp [Dom.textOf, hv])
    simp [this]

theorem settled_of_marked [Browser] (kws : List Rule) (p : Page) (i : Nat)
    (h : Marked p i) : settled kws p.dom i = true := by
  rw [settled_view]
  cases hv : p.dom.view i with
  | none => rfl
  | some r =>
    obtain ⟨e, kids⟩ := r
    have hs := Dom.view_spec p.dom i
    rw [hv] at hs
    unfold Marked at h
    have hg : p.dom.get? i = some e := by
      have := hs
      simp only at this
      exact this.1
    simp only [hg, Option.map_some', Option.some.injEq] at h
    simp [h]

/-! ### What a pass that did not throw has examined -/

theorem scanElement_quiet [Browser] (kws : List Rule) (st st1 : ContentFilter) (el : Nat)
    (h : scanElement kws st el = .ok st1) (hm : ¬ Marked st1.page el) :
    st1 = st ∧ Quiet kws st.page.dom el := by
  unfold scanElement at h
  split at h
  · next e up kids hloc =>
    have hv := Dom.view_of_locate [] st.page.dom el e up kids hloc
    split at h
    · next hp =>
      exfalso
      simp only [Except.ok.injEq] at h
      subst h
      have hspec := Dom.locate_spec [] st.page.dom el
      rw [hloc] at hspec
      obtain ⟨x, up1, hx, hg, _⟩ := hspec
      simp only [List.cons.injEq] at hx
      apply hm
      apply Marked.of_get? _ _ _ hg
      rw [← hx.1]
      exact hp
    · split at h
      · next hnone =>
        simp only [Except.ok.injEq] at h
        subst h
        refine ⟨rfl, ?_⟩
        intro t ht
        simp only [Dom.textOf, hv, Option.map_some', Option.some.injEq] at ht
        rw [← ht]
        exact hnone
      · next kw hkw =>
        split at h
        · cases h
        · next q hq =>
          exfalso
          simp only [Except.ok.injEq] at h
          subst h
          apply hm
          have hspec := Dom.locate_spec [] st.page.dom el
          rw [hloc] at hspec
          obtain ⟨x, up1, hx, hg, _⟩ := hspec
          have hmem := Dom.get?_some_mem _ _ _ hg
          obtain ⟨q1, w, hens, ms, hr, _, _⟩ := applyFilter_run st.page q el kw e up kids
            hloc hq
          exact marked_after_markProcessed q el (hr.has el ⟨x, hmem.1, hmem.2⟩)
  · next hno =>
    simp only [Except.ok.injEq] at h
    subst h
    refine ⟨rfl, ?_⟩
    intro t ht
    cases hv : st.page.dom.view el with
    | none => simp [Dom.textOf, hv] at ht
    | some r =>
      exfalso
      obtain ⟨e, kids⟩ := r
      obtain ⟨up, hl⟩ := Dom.locate_of_view [] st.page.dom el e kids hv
      exact hno e up kids hl

theorem scanElements_quiet [Browser] (kws : List Rule) (n : Nat) (els : List Nat) :
    ∀ st : ContentFilter, st.page.Fresh → n ≤ st.page.next →
      threw (scanElements kws els st) = false →
      ∀ el ∈ els, el < st.page.next →
        ¬ Marked (endState (scanElements kws els st)).page el →
        (endState (scanElements kws els st)).page.dom.NoNewControl n el →
        Quiet kws (endState (scanElements kws els st)).page.dom el := by
  induction els with
  | nil => intro _ _ _ _ el hel; simp at hel
  | cons el0 rest ih =>
    intro st hf hn hok el hel hlt hm hclean
    have hrun1 := scanElement_run kws st el0
    simp only [scanElements] at hok hm hclean ⊢
    cases hs : scanElement kws st el0 with
    | error st1 =>
      rw [hs] at hok
      simp [threw] at hok
    | ok st1 =>
      rw [hs] at hok hm hclean hrun1
      simp only [endState] at hrun1
      simp only at hok hm hclean ⊢
      have hf1 := hrun1.keeps_fresh hf
      have hrun2 := scanElements_run kws rest st1
      by_cases hmem : el ∈ rest
      · exact ih st1 hf1.1 (by omega) hok el hmem (by omega) hm hclean
      · have hel0 : el = el0 := by
          rcases List.mem_cons.mp hel with h | h
          · exact h
          · exact absurd h hmem
        subst hel0
        have hm1 : ¬ Marked st1.page el := fun h => hm (hrun2.keeps_marks hf1.1 el h)
        obtain ⟨heq, hq⟩ := scanElement_quiet kws st st1 el hs hm1
        subst heq
        have ht := hrun2.same_text hf n hn el hlt hclean
        intro t htext
        rw [ht.2] at htext
        exact hq t htext

theorem scanSelectors_quiet [Browser] (kws : List Rule) (n : Nat) (sels : List Selector)
    (hsel : ∀ sel ∈ sels, inertSel sel = true) :
    ∀ st : ContentFilter, st.page.Fresh → n ≤ st.page.next →
      threw (scanSelectors kws sels st) = false →
      ∀ sel ∈ sels, ∀ x ∈ queryAll sel [] (endState (scanSelectors kws sels st)).page.dom,
        x.nid < n →
        ¬ Marked (endState (scanSelectors kws sels st)).page x.nid →
        (endState (scanSelectors kws sels st)).page.dom.NoNewControl n x.nid →
        Quiet kws (endState (scanSelectors kws sels st)).page.dom x.nid := by
  induction sels with
  | nil => intro _ _ _ _ sel hs; simp at hs
  | cons sel0 rest ih =>
    intro st hf hn hok sel hs x hx hlt hm hclean
    have hrun1 := scanElements_run kws ((queryAll sel0 [] st.page.dom).map (fun e => e.nid)) st
    have hq1 := scanElements_quiet kws n ((queryAll sel0 [] st.page.dom).map (fun e => e.nid))
      st hf hn
    simp only [scanSelectors] at hok hm hclean hx ⊢
    cases hse : scanElements kws ((queryAll sel0 [] st.page.dom).map (fun e => e.nid)) st with
    | error st1 =>
      rw [hse] at hok
      simp [threw] at hok
    | ok st1 =>
      rw [hse] at hok hm hclean hx hrun1 hq1
      simp only [endState] at hrun1 hq1
      simp only at hok hm hclean hx ⊢
      have hf1 := hrun1.keeps_fresh hf
      have hrun2 := scanSelectors_run kws rest st1
      by_cases hmem : sel ∈ rest
      · exact ih (fun s hs => hsel s (by simp [hs])) st1 hf1.1 (by omega) hok sel hmem x hx
          hlt hm hclean
      · have hsel0 : sel = sel0 := by
          rcases List.mem_cons.mp hs with h | h
          · exact h
          · exact absurd h hmem
        subst hsel0
        obtain ⟨y, hy, hyx⟩ := (hrun1.append hrun2).selected_before hf sel (hsel sel (by simp)) x hx
          (by omega)
        have hm1 : ¬ Marked st1.page x.nid := fun h => hm (hrun2.keeps_marks hf1.1 _ h)
        have ht := hrun2.same_text hf1.1 n (by omega) x.nid (by omega) hclean
        have := hq1 (by simp [threw]) x.nid (List.mem_map.mpr ⟨y, hy, hyx⟩) (by omega) hm1 ht.1
        intro t htext
        rw [ht.2] at htext
        exact this t htext

theorem scanElement_settled [Browser] (kws : List Rule) (st : ContentFilter) (el : Nat)
    (h : settled kws st.page.dom el = true) : scanElement kws st el = .ok st := by
  unfold settled at h
  unfold scanElement
  split
  · next e up kids hl =>
    rw [hl] at h
    simp only [Bool.or_eq_true, Option.isNone_iff_eq_none] at h
    rcases h with h | h
    · simp [h]
    · simp [h]
  · rfl

theorem scanElements_settled [Browser] (kws : List Rule) (els : List Nat) (st : ContentFilter)
    (h : ∀ el ∈ els, settled kws st.page.dom el = true) :
    scanElements kws els st = .ok st := by
  induction els with
  | nil => rfl
  | cons el rest ih =>
    simp only [scanElements, scanElement_settled kws st el (h el (by simp))]
    exact ih (fun x hx => h x (by simp [hx]))

theorem scanSelectors_settled [Browser] (kws : List Rule) (sels : List Selector)
    (st : ContentFilter)
    (h : ∀ sel ∈ sels, ∀ x ∈ queryAll sel [] st.page.dom, settled kws st.page.dom x.nid = true) :
    scanSelectors kws sels st = .ok st := by
  induction sels with
  | nil => rfl
  | cons sel rest ih =>
    have h1 : scanElements kws ((queryAll sel [] st.page.dom).map (fun e => e.nid)) st
        = .ok st := by
      apply scanElements_settled
      intro el hel
      obtain ⟨x, hx, rfl⟩ := List.mem_map.mp hel
      exact h sel (by simp) x hx
    simp only [scanSelectors, h1]
    exact ih (fun s hs => h s (by simp [hs]))

/-! ## Two scan passes in a row -/

/-- C18 as stated fails: in `html > body > div[role="article"] > article[aria-label="Cat
pictures"] > "Hello"` with the rule blur "cat", the first scan pass finds no match for the
`div` (its text is "hello") and blurs the inner `article`, putting the button "Show content
(filtered: cat)" below the `div`.  The second pass, run at once, reads that text for the
`div`, matches "cat", marks the `div`, blurs the `body` and counts a second filtered node. -/
theorem second_scan_matches_control_text :
    settled [mkRule 1 "cat" "blur"] ariaDoc 3 = true ∧
    threw (scanAndFilter (engineOn [mkRule 1 "cat" "blur"] ariaDoc)) = false ∧
    settled [mkRule 1 "cat" "blur"]
      (endState (scanAndFilter (engineOn [mkRule 1 "cat" "blur"] ariaDoc))).page.dom 3
      = false ∧
    (endState (scanAndFilter (engineOn [mkRule 1 "cat" "blur"] ariaDoc))).filteredCount = 1 ∧
    (endState (scanAndFilter (endState (scanAndFilter
      (engineOn [mkRule 1 "cat" "blur"] ariaDoc))))).filteredCount = 2 ∧
    ((endState (scanAndFilter (engineOn [mkRule 1 "cat" "blur"] ariaDoc))).page.dom.get? 3).map
      Elem.processed = some false ∧
    ((endState (scanAndFilter (endState (scanAndFilter
      (engineOn [mkRule 1 "cat" "blur"] ariaDoc))))).page.dom.get? 3).map
      Elem.processed = some true ∧
    (endState (scanAndFilter (engineOn [mkRule 1 "cat" "blur"] ariaDoc))).page.dom.classesOf 2
      = [] ∧
    (endState (scanAndFilter (endState (scanAndFilter
      (engineOn [mkRule 1 "cat" "blur"] ariaDoc))))).page.dom.classesOf 2
      = ["content-guardian-blurred"] := by
  decide

/-- C18, amended: a second scan pass run immediately after a first one that ended without
an exception changes nothing (no new mark, class, wrapper or control, and `filteredCount`
is unchanged), provided that every selected node that the first pass created, or below
which the first pass inserted a control, bears the processed mark or has a text that
matches no enabled rule.  Every other selected node was examined by the first pass, is
selected and reads in the second pass as it did then, and is skipped or matches nothing
again.  `st.page.next` is the supply of fresh handles before the first pass: the nodes
with a handle from there on are the ones the first pass created. -/
theorem second_pass_idle [Browser] (st : ContentFilter) (hfresh : st.page.Fresh)
    (hok : threw (scanAndFilter st) = false)
    (h : ∀ sel ∈ getPlatformSelectors st.hostname,
      ∀ x ∈ queryAll sel [] (endState (scanAndFilter st)).page.dom,
        (st.page.next ≤ x.nid ∨
          ∃ y ∈ (endState (scanAndFilter st)).page.dom.descendantsOf x.nid,
            y.isControl = true ∧ st.page.next ≤ y.nid) →
        settled (st.keywords.filter (fun k => k.enabled))
          (endState (scanAndFilter st)).page.dom x.nid = true) :
    scanAndFilter (endState (scanAndFilter st)) = .ok (endState (scanAndFilter st)) := by
  have hk := scanAndFilter_keeps_rules st
  by_cases hkw : (st.keywords.filter (fun k => k.enabled)).length = 0
  · have h0 : scanAndFilter st = .ok st := by simp [scanAndFilter, hkw]
    rw [h0]
    exact h0
  · have heq : scanAndFilter st
        = scanSelectors (st.keywords.filter (fun k => k.enabled))
            (getPlatformSelectors st.hostname) st := by
      simp [scanAndFilter, hkw]
    have key : ∀ sel ∈ getPlatformSelectors st.hostname,
        ∀ x ∈ queryAll sel [] (endState (scanAndFilter st)).page.dom,
          settled (st.keywords.filter (fun k => k.enabled))
            (endState (scanAndFilter st)).page.dom x.nid = true := by
      intro sel hs x hx
      by_cases hm : Marked (endState (scanAndFilter st)).page x.nid
      · exact settled_of_marked _ _ _ hm
      · by_cases hnew : st.page.next ≤ x.nid
        · exact h sel hs x hx (Or.inl hnew)
        · by_cases hc : (endState (scanAndFilter st)).page.dom.NoNewControl st.page.next x.nid
          · apply settled_of_quiet
            rw [heq] at hok hx hm hc ⊢
            exact scanSelectors_quiet _ st.page.next _
              (inertSel_getPlatformSelectors st.hostname) st hfresh (Nat.le_refl _) hok sel hs
              x hx (by omega) hm hc
          · apply h sel hs x hx
            right
            unfold Dom.NoNewControl at hc
            push_neg at hc
            obtain ⟨y, hy, hyc, hyn⟩ := hc
            exact ⟨y, hy, hyc, hyn⟩
    rw [← hk.1, ← hk.2] at key
    generalize endState (scanAndFilter st) = st1 at key
    unfold scanAndFilter
    split
    · rfl
    · exact scanSelectors_settled _ _ st1 key

/-- Witness of C18 (amended), with the rule blur "cat".  In `html > body > article >
[h1 > "Cat news", p > "Bird song"]` the first pass puts both buttons into wrappers above
the `article`; the paragraph is examined, does not match and stays unmarked, and no control
is inserted below it.  In `html > body > article > div.Post > h1 > "Cat news"` the first
pass puts the button below the `article`, which it has marked. -/
theorem second_pass_idle_witness :
    scanAndFilter (endState (scanAndFilter (engineOn [mkRule 1 "cat" "blur"] birdDoc)))
      = .ok (endState (scanAndFilter (engineOn [mkRule 1 "cat" "blur"] birdDoc))) ∧
    scanAndFilter (endState (scanAndFilter (engineOn [mkRule 1 "cat" "blur"] postInArticleDoc)))
      = .ok (endState (scanAndFilter (engineOn [mkRule 1 "cat" "blur"] postInArticleDoc))) :=
  ⟨second_pass_idle (engineOn [mkRule 1 "cat" "blur"] birdDoc)
      (by unfold Page.Fresh; decide) (by decide) (by decide),
    second_pass_idle (engineOn [mkRule 1 "cat" "blur"] postInArticleDoc)
      (by unfold Page.Fresh; decide) (by decide) (by decide)⟩

/-! ## Full reset and the unblur control on concrete documents -/

/-- C12 fails on the code: after one scan pass of the "politics" document, the stripping
phase of `refilterPage` removes every processed mark, every presentation class and every
control, and leaves wrapper 100 in the tree, as the parent of the container.  With the rule
still enabled, the scan that follows wraps the container again: it ends inside wrappers 103
and 100, where an initial scan of the document gives one wrapper. -/
theorem refilterPage_leaves_wrappers :
    (stripFilters (endState (scanAndFilter (engineOn [politicsRule] politicsDoc))).page.dom).nodes.all
      (fun e => !e.processed && e.presentation.isEmpty && !e.isControl) = true ∧
    ((stripFilters (endState (scanAndFilter (engineOn [politicsRule] politicsDoc))).page.dom).nodes.filter
      Elem.isWrapper).map (fun e => e.nid) = [100] ∧
    (stripFilters (endState (scanAndFilter (engineOn [politicsRule] politicsDoc))).page.dom).parentOf 3
      = some 100 ∧
    (endState (refilterPage { endState (scanAndFilter (engineOn [politicsRule] politicsDoc)) with
      keywords := [] })).page.dom
      = stripFilters (endState (scanAndFilter (engineOn [politicsRule] politicsDoc))).page.dom ∧
    (((endState (refilterPage (endState (scanAndFilter
      (engineOn [politicsRule] politicsDoc))))).page.dom.ancestorsOf 3).filter Elem.isWrapper).map
      (fun e => e.nid) = [103, 100] ∧
    (((endState (scanAndFilter (engineOn [politicsRule] politicsDoc))).page.dom.ancestorsOf
      3).filter Elem.isWrapper).map (fun e => e.nid) = [100] := by
  decide

/-- C13 fails on the code: on the nested document, `applyFilter` for the `h1` with the rule
flag "cat" and then for the paragraph with the rule blur "dog" blurs the `.Post` container 3
and puts its unblur button 103 into wrapper 100, which lies below the container.  The click
handler of the button looks for a blurred element below wrapper 100, finds none, and removes
the button: container 3 stays blurred and no unblur control is left in the document. -/
theorem unblur_click_leaves_container_blurred :
    ((applyFilter ⟨nestedDoc, 100⟩ 5 (mkRule 1 "cat" "flag")).bind
        (fun p => applyFilter p 7 (mkRule 2 "dog" "blur"))).map
        (fun q => (q.dom.classesOf 3, q.dom.parentOf 103,
          (q.dom.nodes.filter Elem.isUnblur).map (fun e => e.nid),
          (q.dom.ancestorsOf 100).map (fun e => e.nid)))
      = some (["Post", "content-guardian-blurred"], some 100, [103], [3, 2, 1]) ∧
    ((applyFilter ⟨nestedDoc, 100⟩ 5 (mkRule 1 "cat" "flag")).bind
        (fun p => applyFilter p 7 (mkRule 2 "dog" "blur"))).map
        (fun q => ((unblurClick q 100 103).dom.classesOf 3,
          ((unblurClick q 100 103).dom.nodes.filter Elem.isUnblur).map (fun e => e.nid)))
      = some (["Post", "content-guardian-blurred"], []) := by
  decide

/-! ## Mutation scheduler -/

theorem shouldScan_iff (mutations : List MutationRecord) :
    shouldScan mutations = true ↔
      ∃ m ∈ mutations, m.type = "childList" ∧ 0 < m.addedNodes := by
  simp [shouldScan]

theorem Scheduler.advance_of_not_due (now : Nat) (s : Scheduler)
    (h : ∀ due, s.scanTimeout = some due → now < due) : s.advance now = s := by
  unfold Scheduler.advance
  split
  · next due hd =>
    have := h due hd
    have hn : ¬ due ≤ now := by omega
    simp [hn]
  · rfl

theorem Scheduler.onMutations_restart (now : Nat) (mutations : List MutationRecord)
    (s : Scheduler) (hs : shouldScan mutations = true)
    (h : ∀ due, s.scanTimeout = some due → now < due) :
    s.onMutations now mutations = ⟨some (now + 100), s.scans⟩ := by
  simp [Scheduler.onMutations, hs, Scheduler.advance_of_not_due now s h]

theorem Scheduler.run_burst (first : Nat × List MutationRecord)
    (rest : List (Nat × List MutationRecord)) (s : Scheduler)
    (hs : ∀ due, s.scanTimeout = some due → first.1 < due)
    (hadd : ∀ b ∈ first :: rest, shouldScan b.2 = true)
    (hgap : Burst first rest) :
    Scheduler.run (first :: rest) s = ⟨some (lastTime first rest + 100), s.scans⟩ := by
  induction rest generalizing first s with
  | nil =>
    simp only [Scheduler.run, lastTime]
    exact Scheduler.onMutations_restart _ _ s (hadd first (by simp)) hs
  | cons b r ih =>
    have h1 := Scheduler.onMutations_restart first.1 first.2 s (hadd first (by simp)) hs
    simp only [Burst] at hgap
    have h2 := ih b ⟨some (first.1 + 100), s.scans⟩
      (by
        intro due hd
        simp only [Option.some.injEq] at hd
        omega)
      (fun x hx => hadd x (by simp [hx])) hgap.2
    show Scheduler.run (b :: r) (s.onMutations first.1 first.2) = _
    rw [h1, h2]
    rfl

/-- C14: from a scheduler without pending timer, `N ≥ 1` change batches that each contain a
`childList` record with added nodes and each arrive less than 100 time units after the one
before leave exactly one timer pending, due 100 units after the last batch; no scan pass
runs before that time, and exactly one runs, at that time, when the clock gets there.  A
batch without additions only lets the clock advance: it neither starts nor resets the
timer. -/
theorem debounce_single_scan (first : Nat × List MutationRecord)
    (rest : List (Nat × List MutationRecord)) (s : Scheduler)
    (hidle : s.scanTimeout = none)
    (hadd : ∀ b ∈ first :: rest, ∃ m ∈ b.2, m.type = "childList" ∧ 0 < m.addedNodes)
    (hgap : Burst first rest) :
    Scheduler.run (first :: rest) s = ⟨some (lastTime first rest + 100), s.scans⟩ ∧
    (∀ now, now < lastTime first rest + 100 →
      (Scheduler.run (first :: rest) s).advance now
        = ⟨some (lastTime first rest + 100), s.scans⟩) ∧
    (∀ now, lastTime first rest + 100 ≤ now →
      (Scheduler.run (first :: rest) s).advance now
        = ⟨none, (lastTime first rest + 100) :: s.scans⟩) ∧
    (∀ (now : Nat) (mutations : List MutationRecord) (t : Scheduler),
      (∀ m ∈ mutations, ¬ (m.type = "childList" ∧ 0 < m.addedNodes)) →
      t.onMutations now mutations = t.advance now ∧
      (t.scanTimeout = none → t.onMutations now mutations = t) ∧
      (∀ due, t.scanTimeout = some due → now < due → t.onMutations now mutations = t)) := by
  have hrun := Scheduler.run_burst first rest s (by simp [hidle])
    (fun b hb => (shouldScan_iff b.2).mpr (hadd b hb)) hgap
  refine ⟨hrun, ?_, ?_, ?_⟩
  · intro now hnow
    rw [hrun]
    apply Scheduler.advance_of_not_due
    intro due hd
    simp only [Option.some.injEq] at hd
    omega
  · intro now hnow
    rw [hrun]
    simp [Scheduler.advance, hnow]
  · intro now mutations t hno
    have hs : shouldScan mutations = false := by
      cases h : shouldScan mutations with
      | false => rfl
      | true =>
        obtain ⟨m, hm, hm2⟩ := (shouldScan_iff mutations).mp h
        exact absurd hm2 (hno m hm)
    have h1 : t.onMutations now mutations = t.advance now := by
      simp [Scheduler.onMutations, hs]
    refine ⟨h1, ?_, ?_⟩
    · intro hn
      rw [h1]
      exact Scheduler.advance_of_not_due now t (by simp [hn])
    · intro due hd hlt
      rw [h1]
      apply Scheduler.advance_of_not_due
      intro d2 hd2
      rw [hd] at hd2
      simp only [Option.some.injEq] at hd2
      omega

/-- Witness of C14: three batches with additions at times 0, 60 and 150, the second one
holding a record without added nodes too. -/
theorem debounce_single_scan_witness :
    Scheduler.run [(0, [⟨"childList", 2⟩]), (60, [⟨"childList", 0⟩, ⟨"childList", 1⟩]),
        (150, [⟨"childList", 3⟩])] ⟨none, []⟩ = ⟨some 250, []⟩ ∧
    (Scheduler.run [(0, [⟨"childList", 2⟩]), (60, [⟨"childList", 0⟩, ⟨"childList", 1⟩]),
        (150, [⟨"childList", 3⟩])] ⟨none, []⟩).advance 249 = ⟨some 250, []⟩ ∧
    (Scheduler.run [(0, [⟨"childList", 2⟩]), (60, [⟨"childList", 0⟩, ⟨"childList", 1⟩]),
        (150, [⟨"childList", 3⟩])] ⟨none, []⟩).advance 400 = ⟨none, [250]⟩ :=
  have h := debounce_single_scan (0, [⟨"childList", 2⟩])
    [(60, [⟨"childList", 0⟩, ⟨"childList", 1⟩]), (150, [⟨"childList", 3⟩])] ⟨none, []⟩ rfl
    (by decide) (by simp [Burst])
  ⟨h.1, h.2.1 249 (by decide), h.2.2.1 400 (by decide)⟩

/-! ## Text extractor -/

/-- C15: `getElementText` returns the lower-cased string that joins, with a single space,
the non-empty values among the text content, the title, the alt text and the aria-label of
the node, in that order (an absent source counts as empty); so two nodes with the same four
values have the same text.  With all four sources `a`, `b`, `c`, `d` non-empty the text is
the lower-cased `a b c d`, and with the text content alone it is the lower-cased content. -/
theorem getElementText_spec [Browser] (element : Elem) (children : Dom) :
    getElementText element children
      = toLowerCase (joinNonEmpty [children.textContent,
          (element.getAttribute "title").getD "", element.alt,
          (element.getAttribute "aria-label").getD ""]) ∧
    (∀ (other : Elem) (otherChildren : Dom),
      otherChildren.textContent = children.textContent →
      (other.getAttribute "title").getD "" = (element.getAttribute "title").getD "" →
      other.alt = element.alt →
      (other.getAttribute "aria-label").getD "" = (element.getAttribute "aria-label").getD "" →
      getElementText other otherChildren = getElementText element children) ∧
    (∀ a b c d : String, a ≠ "" → b ≠ "" → c ≠ "" → d ≠ "" →
      joinNonEmpty [a, b, c, d] = a ++ " " ++ b ++ " " ++ c ++ " " ++ d) ∧
    (∀ a : String, joinNonEmpty [a, "", "", ""] = a) ∧
    (∀ a d : String, a ≠ "" → d ≠ "" → joinNonEmpty [a, "", "", d] = a ++ " " ++ d) := by
  have key : ∀ (e : Elem) (k : Dom), getElementText e k
      = toLowerCase (joinNonEmpty [k.textContent, (e.getAttribute "title").getD "", e.alt,
          (e.getAttribute "aria-label").getD ""]) := by
    intro e k
    unfold getElementText
    rw [intercalate_eq_joinNonEmpty _ (fun s hs => by simpa using (List.mem_filter.mp hs).2),
      joinNonEmpty_filter]
  refine ⟨key element children, ?_, ?_, ?_, ?_⟩
  · intro other otherChildren h1 h2 h3 h4
    rw [key, key, h1, h2, h3, h4]
  · intro a b c d ha hb hc hd
    have h1 : joinNonEmpty [d] = d := joinNonEmpty_single d
    have h2 : joinNonEmpty [c, d] = c ++ " " ++ d := by
      rw [joinNonEmpty_cons c [d] hc (by rw [h1]; exact hd), h1]
    have h3 : joinNonEmpty [b, c, d] = b ++ " " ++ (c ++ " " ++ d) := by
      rw [joinNonEmpty_cons b [c, d] hb (joinNonEmpty_cons_ne c [d] hc), h2]
    rw [joinNonEmpty_cons a [b, c, d] ha (joinNonEmpty_cons_ne b [c, d] hb), h3]
    simp only [String.append_assoc]
  · intro a
    have h0 : joinNonEmpty ["", "", ""] = "" := by simp [joinNonEmpty]
    by_cases ha : a = ""
    · simp [joinNonEmpty, ha]
    · simp only [joinNonEmpty, ha, if_false, h0, if_true]
  · intro a d ha hd
    have h1 : joinNonEmpty ["", "", d] = d := by
      simp only [joinNonEmpty, if_true]
      exact joinNonEmpty_single d
    have h2 : joinNonEmpty ["", "", d] ≠ "" := by rw [h1]; exact hd
    rw [joinNonEmpty_cons a _ ha h2, h1]

/-- Witness of C15: an image with the title "Photo" and the alt text "Cat" gives the text
"photo cat"; a second image with the same title and alt text, written in the other order
and with another class and box, gives the same text. -/
theorem getElementText_spec_witness :
    getElementText ⟨1, "img", [], [("title", "Photo"), ("alt", "Cat")], "", 10, 10⟩ .nil
      = "photo cat" ∧
    getElementText ⟨2, "img", ["x"], [("alt", "Cat"), ("title", "Photo")], "", 20, 20⟩ .nil
      = getElementText ⟨1, "img", [], [("title", "Photo"), ("alt", "Cat")], "", 10, 10⟩ .nil :=
  ⟨((getElementText_spec ⟨1, "img", [], [("title", "Photo"), ("alt", "Cat")], "", 10, 10⟩
      .nil).1).trans (by decide),
    (getElementText_spec ⟨1, "img", [], [("title", "Photo"), ("alt", "Cat")], "", 10, 10⟩
      .nil).2.1 ⟨2, "img", ["x"], [("alt", "Cat"), ("title", "Photo")], "", 20, 20⟩ .nil
      (by decide) (by decide) (by decide) (by decide)⟩

/-! ## Platform profile resolver -/

/-- C16 as stated fails: `netflix.com` is not a host of one of the known platforms, its
name contains "x.com", and `getPlatformSelectors` returns the generic list followed by the
five selectors of the Twitter/X profile. -/
theorem netflix_gets_twitter_profile :
    isKnownPlatform "netflix.com" = false ∧
    includes "netflix.com" "x.com" = true ∧
    getPlatformSelectors "netflix.com" ≠ commonSelectors ∧
    getPlatformSelectors "netflix.com" = getPlatformSelectors "x.com" ∧
    (getPlatformSelectors "netflix.com").length = commonSelectors.length + 5 := by
  decide

/-- C16, amended: for every hostname `getPlatformSelectors` returns a list that has the
generic selector list as a prefix, and exactly the generic list whenever the hostname
contains none of the strings "youtube.com", "reddit.com", "twitter.com", "x.com",
"google.com", "facebook.com", "instagram.com".  A hostname that contains one of them gets
the generic list followed by the selectors of that platform, the first platform in the
order YouTube, Reddit, Twitter/X, Google, Facebook, Instagram deciding when it contains
several (the test of the code is containment, not the identity of the host); a host of one
of the known platforms contains one of these strings. -/
theorem getPlatformSelectors_profiles (hostname : String) :
    (∃ extra, getPlatformSelectors hostname = commonSelectors ++ extra) ∧
    ((∀ domain ∈ platformDomains, includes hostname domain = false) →
      getPlatformSelectors hostname = commonSelectors) ∧
    (includes hostname "youtube.com" = true →
      getPlatformSelectors hostname = commonSelectors ++
        [selId "video-title", selClass "ytd-video-meta-block", selClass "ytd-rich-grid-media",
         selClass "ytd-compact-video-renderer", selId "description", selId "comments",
         selTag "ytd-comment-renderer"]) ∧
    (includes hostname "youtube.com" = false → includes hostname "reddit.com" = true →
      getPlatformSelectors hostname = commonSelectors ++
        [selAttr "data-testid" "post-container", selClass "Post",
         selTagClass "h3" "_eYtD2XCVieq6emjKBH3m", selTagAttr "div" "data-click-id" "text",
         selTagAttr "div" "data-testid" "comment", selTagAttr "div" "data-test-id" "comment",
         selTagAttr "a" "data-click-id" "comments", selTagAttr "a" "data-click-id" "body"]) ∧
    (includes hostname "youtube.com" = false → includes hostname "reddit.com" = false →
      includes hostname "twitter.com" = true ∨ includes hostname "x.com" = true →
      getPlatformSelectors hostname = commonSelectors ++
        [selAttr "data-testid" "tweet", selAttr "data-testid" "tweetText",
         selClass "tweet-text", selTagAttr "div" "data-testid" "User-Names",
         selTagAttr "div" "data-testid" "conversation"]) ∧
    (includes hostname "youtube.com" = false → includes hostname "reddit.com" = false →
      includes hostname "twitter.com" = false → includes hostname "x.com" = false →
      includes hostname "google.com" = true →
      getPlatformSelectors hostname = commonSelectors ++
        [[[⟨none, none, ["g"], []⟩, ⟨some "h3", none, [], []⟩]], selClass "LC20lb",
         selClass "VwiC3b", [[⟨none, none, ["g"], []⟩, ⟨some "a", none, [], []⟩]],
         selTagClass "span" "xQ8gFc"]) ∧
    (includes hostname "youtube.com" = false → includes hostname "reddit.com" = false →
      includes hostname "twitter.com" = false → includes hostname "x.com" = false →
      includes hostname "google.com" = false → includes hostname "facebook.com" = true →
      getPlatformSelectors hostname = commonSelectors ++
        [[[⟨none, none, [], [.eq "role" "feed"]⟩, ⟨none, none, [], [.eq "role" "article"]⟩]],
         selAttr "data-testid" "story-instance",
         selTagAttr "div" "data-ad-preview" "message"]) ∧
    (includes hostname "youtube.com" = false → includes hostname "reddit.com" = false →
      includes hostname "twitter.com" = false → includes hostname "x.com" = false →
      includes hostname "google.com" = false → includes hostname "facebook.com" = false →
      includes hostname "instagram.com" = true →
      getPlatformSelectors hostname = commonSelectors ++
        [selTagAttr "article" "role" "presentation", selTagClass "div" "_a9zm",
         selTagClass "div" "_a9zs"]) ∧
    (isKnownPlatform hostname = true → ∃ domain ∈ platformDomains,
      includes hostname domain = true) := by
  refine ⟨?_, ?_, ?_, ?_, ?_, ?_, ?_, ?_, ?_⟩
  · unfold getPlatformSelectors
    split
    · exact ⟨_, rfl⟩
    · split
      · exact ⟨_, rfl⟩
      · split
        · exact ⟨_, rfl⟩
        · split
          · exact ⟨_, rfl⟩
          · split
            · exact ⟨_, rfl⟩
            · split
              · exact ⟨_, rfl⟩
              · exact ⟨[], by simp⟩
  · intro h
    have h1 := h "youtube.com" (by decide)
    have h2 := h "reddit.com" (by decide)
    have h3 := h "twitter.com" (by decide)
    have h4 := h "x.com" (by decide)
    have h5 := h "google.com" (by decide)
    have h6 := h "facebook.com" (by decide)
    have h7 := h "instagram.com" (by decide)
    simp [getPlatformSelectors, h1, h2, h3, h4, h5, h6, h7]
  · intro h1
    simp only [getPlatformSelectors, h1, if_true]
  · intro h1 h2
    simp only [getPlatformSelectors, h1, h2, if_true, Bool.false_eq_true, if_false]
  · intro h1 h2 h3
    have : (includes hostname "twitter.com" || includes hostname "x.com") = true := by
      simpa using h3
    simp only [getPlatformSelectors, h1, h2, this, if_true, Bool.false_eq_true, if_false]
  · intro h1 h2 h3 h4 h5
    simp only [getPlatformSelectors, h1, h2, h3, h4, h5, if_true, Bool.false_eq_true, if_false,
      Bool.or_self]
  · intro h1 h2 h3 h4 h5 h6
    simp only [getPlatformSelectors, h1, h2, h3, h4, h5, h6, if_true, Bool.false_eq_true,
      if_false, Bool.or_self]
  · intro h1 h2 h3 h4 h5 h6 h7
    simp only [getPlatformSelectors, h1, h2, h3, h4, h5, h6, h7, if_true, Bool.false_eq_true,
      if_false, Bool.or_self]
  · intro h
    simp only [isKnownPlatform, List.any_eq_true] at h
    obtain ⟨domain, hd, hh⟩ := h
    refine ⟨domain, hd, ?_⟩
    rw [includes_iff]
    simp only [isHostOf, Bool.or_eq_true, beq_iff_eq] at hh
    rcases hh with rfl | hh
    · exact List.infix_refl _
    · have hs : ("." ++ domain).data <:+ hostname.data := List.isSuffixOf_iff_suffix.mp hh
      have : domain.data <:+ ("." ++ domain).data := by
        simp only [String.data_append]
        exact List.suffix_append _ _
      exact (this.trans hs).isInfix

/-- Witness of C16 (amended): `example.org` contains none of the strings and gets the
generic list; `old.reddit.com` gets the Reddit profile; `netflix.com` contains "x.com" and
gets the Twitter/X profile. -/
theorem getPlatformSelectors_profiles_witness :
    getPlatformSelectors "example.org" = commonSelectors ∧
    getPlatformSelectors "old.reddit.com" = commonSelectors ++
      [selAttr "data-testid" "post-container", selClass "Post",
       selTagClass "h3" "_eYtD2XCVieq6emjKBH3m", selTagAttr "div" "data-click-id" "text",
       selTagAttr "div" "data-testid" "comment", selTagAttr "div" "data-test-id" "comment",
       selTagAttr "a" "data-click-id" "comments", selTagAttr "a" "data-click-id" "body"] ∧
    getPlatformSelectors "netflix.com" = commonSelectors ++
      [selAttr "data-testid" "tweet", selAttr "data-testid" "tweetText",
       selClass "tweet-text", selTagAttr "div" "data-testid" "User-Names",
       selTagAttr "div" "data-testid" "conversation"] :=
  ⟨(getPlatformSelectors_profiles "example.org").2.1 (by decide),
    (getPlatformSelectors_profiles "old.reddit.com").2.2.2.1 (by decide) (by decide),
    (getPlatformSelectors_profiles "netflix.com").2.2.2.2.1 (by decide) (by decide)
      (by decide)⟩

/-! ## The rule list of the collaborator -/

/-- C17 fails on the code: importing a file whose `keywords` array holds "cat" and "CAT"
into the empty rule list, or into a list holding "dog", pushes both rules: the filter of
`importKeywords` compares the rules of the file with the rules already in the list, not
with one another, and the list ends with two keywords equal ignoring case. -/
theorem importKeywords_keeps_duplicates_of_file :
    KeywordsDistinct [] ∧
    [mkRule 1 "cat" "hide", mkRule 2 "CAT" "blur"]
      = importKeywords [] [mkRule 1 "cat" "hide", mkRule 2 "CAT" "blur"] ∧
    ¬ KeywordsDistinct (importKeywords [] [mkRule 1 "cat" "hide", mkRule 2 "CAT" "blur"]) ∧
    KeywordsDistinct [mkRule 3 "dog" "flag"] ∧
    ¬ KeywordsDistinct
      (importKeywords [mkRule 3 "dog" "flag"] [mkRule 1 "cat" "hide", mkRule 2 "CAT" "blur"]) := by
  unfold KeywordsDistinct
  decide

/-- When the keywords of the file are themselves pairwise distinct ignoring case, the
keywords of the list are pairwise distinct after the import. -/
theorem importKeywords_distinct [Browser] (keywords dataKeywords : List Rule)
    (h1 : KeywordsDistinct keywords) (h2 : KeywordsDistinct dataKeywords) :
    KeywordsDistinct (importKeywords keywords dataKeywords) := by
  unfold KeywordsDistinct importKeywords at *
  rw [List.map_append, List.nodup_append]
  refine ⟨h1, ?_, ?_⟩
  · exact (List.Nodup.sublist ((List.filter_sublist _).map _) h2)
  · intro x hx1 hx2
    obtain ⟨a, ha, rfl⟩ := List.mem_map.mp hx1
    obtain ⟨b, hb, hab⟩ := List.mem_map.mp hx2
    have hb2 := (List.mem_filter.mp hb).2
    simp only [Option.isNone_iff_eq_none, List.find?_eq_none] at hb2
    have := hb2 a ha
    simp [hab] at this

end ContentShield
